import Mathlib

/-!
Verification of the Clay (coupled-layer) erasure-code core of the repository
(src/src/ErasureCodeClay.cc and its callers in src/src/ErasureCode.cc).

The development is a shallow embedding: the member functions of
`ErasureCodeClay` are translated into executable Lean functions.  Machine
`int` arithmetic is modelled on `Int` with two's-complement wrap at 32 bits
where products can overflow (`pow_int`), and with C truncated division
(`Int.tdiv` / `Int.tmod`) where the source divides signed values.  Buffers
hold abstract sub-chunk values: a chunk is a function from sub-chunk (layer)
index to a value of an abstract type `V`, which stands for the `σ`-byte
region; byte-identity of chunks is equality of these functions.  The scalar
MDS collaborator (the jerasure Reed-Solomon plugin, a library dependency
that is not part of this repository) and the pair codec built on it enter
the embedding as function parameters together with the properties the
specification states for them in its interface sections.
-/

namespace Clay

/-- Two's-complement reduction of an integer to the 32-bit range
`[-2^31, 2^31)`; used to model overflow of C `int` multiplication. -/
def wrap32 (v : Int) : Int := (v + 2 ^ 31) % 2 ^ 32 - 2 ^ 31

/-- Helper loop of `pow_int` (src/src/ErasureCodeClay.cc:11-19):
`while (x) { if (x & 1) power *= a; x /= 2; a *= a; }`.  Both
multiplications are on C `int`, so each product is wrapped to 32 bits.
The loop halves `x` each iteration, so a structural fuel of `x` iterations
always suffices (`x / 2 < x` for `x ≠ 0`); the fuel-exhausted base case is
never reached. -/
def powIntGo : Nat → Nat → Int → Int → Int
  | 0, _, _, power => power
  | fuel + 1, x, a, power =>
    if x = 0 then power
    else powIntGo fuel (x / 2) (wrap32 (a * a))
      (if x % 2 = 1 then wrap32 (power * a) else power)

/-- `pow_int(a, x)`: integer exponentiation by squaring on C `int`.
All call sites in the source pass a non-negative exponent, so the exponent
is taken as a natural number. -/
def powInt (a : Int) (x : Nat) : Int := powIntGo x x a 1

/-- The `EINVAL` errno constant; the source returns `-EINVAL` on bad
parameters. -/
def EINVAL : Int := 22

/-- Result of `ErasureCodeClay::parse`: the returned error code and the
member variables it sets (`k, m, d, q, t, nu, sub_chunk_no`).  Members keep
their zero-initialised values (ErasureCodeClay.h:14-16) on early-error
paths. -/
structure ParseResult where
  err : Int
  k : Int
  m : Int
  d : Int
  q : Int
  t : Int
  nu : Int
  subChunkNo : Int
  deriving Repr, DecidableEq

/-- `ErasureCodeClay::parse` (src/src/ErasureCodeClay.cc:148-224) for a
profile carrying integer values `k`, `m`, `d` and the default
`scalar_mds=jerasure`, `technique=reed_sol_van` settings (under which the
plugin/technique branches contribute no error).  The `to_int` conversions
succeed on integer input and contribute 0 to `err`; the only other
contributor to the accumulated `err` is `sanity_check_k`
(src/src/ErasureCode.cc:17-23), which returns `-EINVAL` when `k < 2`, and
`x | 0 = x`, `0 | e = e`, `(-22) | (-22) = -22`, so the accumulator is
modelled by that single conditional value.  Division and remainder on C
`int` are truncated (`tdiv`/`tmod`). -/
def parse (k m d : Int) : ParseResult :=
  let err := if k < 2 then -EINVAL else 0
  if d < k ∨ d > k + m - 1 then ⟨-EINVAL, k, m, d, 0, 0, 0, 0⟩
  else
    let q := d - k + 1
    let nu := if (k + m).tmod q ≠ 0 then q - (k + m).tmod q else 0
    if k + m + nu > 254 then ⟨-EINVAL, k, m, d, q, 0, nu, 0⟩
    else
      let t := (k + m + nu).tdiv q
      ⟨err, k, m, d, q, t, nu, powInt q t.toNat⟩

/-- The shortening count as the specification words it:
`ν = q·⌈(k+m)/q⌉ − (k+m)` with `q = d−k+1`. -/
def nuSpec (k m d : Int) : Int :=
  (d - k + 1) * ((k + m + (d - k + 1) - 1) / (d - k + 1)) - (k + m)

/-- The value `parse` assigns to `nu` (an abbreviation used by the
theorems below). -/
def nuCode (k m d : Int) : Int :=
  if (k + m).tmod (d - k + 1) ≠ 0 then (d - k + 1) - (k + m).tmod (d - k + 1)
  else 0

/-- Configuration snapshot of the member variables a successfully parsed
`ErasureCodeClay` object carries (over mathematical integers; physical and
logical chunk ids in `is_repair`/`minimum_to_repair` are C `int`s and may
go negative under the `- nu` remapping, so these functions are embedded
over `Int`). -/
structure Cfg where
  k : Int
  m : Int
  d : Int
  q : Int
  t : Int
  nu : Int
  deriving Repr, DecidableEq

/-- The constraints `parse` enforces, together with the values it derives:
this is exactly the state of a configured instance. -/
def Cfg.Valid (c : Cfg) : Prop :=
  2 ≤ c.k ∧ 1 ≤ c.m ∧ c.k ≤ c.d ∧ c.d ≤ c.k + c.m - 1 ∧
  c.q = c.d - c.k + 1 ∧
  c.nu = (if (c.k + c.m).tmod c.q ≠ 0 then c.q - (c.k + c.m).tmod c.q else 0) ∧
  c.k + c.m + c.nu ≤ 254 ∧
  c.t = (c.k + c.m + c.nu).tdiv c.q

instance (c : Cfg) : Decidable c.Valid := by unfold Cfg.Valid; infer_instance

/-- Physical-to-logical node id mapping used throughout the source:
`(i < k) ? i : i + nu`. -/
def Cfg.toLogical (c : Cfg) (i : Int) : Int := if i < c.k then i else i + c.nu

/-- Body of the companion scan in `ErasureCodeClay::is_repair`
(src/src/ErasureCodeClay.cc:238-246): the logical section member
`(lost/q)*q + x` mapped back by `(node < k) ? node : node - nu`. -/
def Cfg.sectionPhys (c : Cfg) (lost : Int) (x : Int) : Int :=
  let node := (lost.tdiv c.q) * c.q + x
  if node < c.k then node else node - c.nu

/-- `ErasureCodeClay::is_repair` (src/src/ErasureCodeClay.cc:226-252).
Returns false when `want_to_read ⊆ available_chunks` (the `std::includes`
test), when more than one chunk is wanted, when a remapped companion of the
lost node's section is missing from `available_chunks`, or when fewer than
`d` chunks are available.  In the surviving branch `want_to_read` is
non-empty (the inclusion test would have caught the empty set), so
`*want_to_read.begin()` is its minimum; `unbot' 0` is never the default. -/
def Cfg.isRepair (c : Cfg) (want avail : Finset Int) : Bool :=
  if want ⊆ avail then false
  else if 1 < want.card then false
  else
    let i := want.min.untop' 0
    let lost := c.toLogical i
    if ∀ x ∈ Finset.range c.q.toNat,
        c.sectionPhys lost x = i ∨ c.sectionPhys lost x ∈ avail then
      decide (c.d ≤ avail.card)
    else false

/-- The repair-pattern predicate exactly as claim C3 words it — (a) one
wanted chunk, (b) every remapped surviving companion of the lost node's
`y`-section available, (c) at least `d` chunks available.  Spec-side
definition, for comparison with `Cfg.isRepair`. -/
def Cfg.specRepairable (c : Cfg) (want avail : Finset Int) : Bool :=
  decide (want.card = 1) &&
  decide (∀ x ∈ Finset.range c.q.toNat,
    c.sectionPhys (c.toLogical (want.min.untop' 0)) x = want.min.untop' 0 ∨
    c.sectionPhys (c.toLogical (want.min.untop' 0)) x ∈ avail) &&
  decide (c.d ≤ avail.card)

/-- `ErasureCodeClay::get_repair_subchunks`
(src/src/ErasureCodeClay.cc:290-303): starting at
`x_lost * seq_sc_count`, push `num_seq` pairs `(index, seq_sc_count)`,
stepping `index` by `q * seq_sc_count`. -/
def repairRuns (index seq step : Int) : Nat → List (Int × Int)
  | 0 => []
  | n + 1 => (index, seq) :: repairRuns (index + step) seq step n

/-- `get_repair_subchunks` for a logical lost node id, with
`seq_sc_count = pow_int(q, t-1-y_lost)` and `num_seq = pow_int(q, y_lost)`. -/
def Cfg.getRepairSubchunks (c : Cfg) (lost : Int) : List (Int × Int) :=
  let yLost := lost.tdiv c.q
  let xLost := lost.tmod c.q
  let seq := powInt c.q (c.t - 1 - yLost).toNat
  let numSeq := powInt c.q yLost.toNat
  repairRuns (xLost * seq) seq (c.q * seq) numSeq.toNat

/-- Ascending iteration over a finite set of ids, by repeated minimum
extraction (a `std::set` iterates in ascending order); the fuel is the
cardinality, which suffices. -/
def ascListAux : ℕ → Finset Int → List Int
  | 0, _ => []
  | fuel + 1, s =>
    match s.min with
    | ⊤ => []
    | (a : Int) => a :: ascListAux fuel (s.erase a)

/-- The elements of a finite set of ids in ascending order. -/
def ascList (s : Finset Int) : List Int := ascListAux s.card s

/-- One iteration of the companion loop of `minimum_to_repair`
(src/src/ErasureCodeClay.cc:293-302): skip the lost column, insert the
remapped companion (`rep < k` kept, shortened ids in `[k, k+nu)` skipped,
`rep ≥ k+nu` mapped to `rep - nu`). -/
def Cfg.baseStep (c : Cfg) (lost : Int) (s : Finset Int) (j : ℕ) : Finset Int :=
  if (j : Int) ≠ lost.tmod c.q then
    let rep := (lost.tdiv c.q) * c.q + (j : Int)
    if rep < c.k then insert rep s
    else if c.k + c.nu ≤ rep then insert (rep - c.nu) s
    else s
  else s

/-- The companion set inserted first by `minimum_to_repair`. -/
def Cfg.repBase (c : Cfg) (lost : Int) : Finset Int :=
  (List.range c.q.toNat).foldl (c.baseStep lost) ∅

/-- One iteration of the fill loop of `minimum_to_repair`
(src/src/ErasureCodeClay.cc:304-311): stop inserting once the set has `d`
members, skip members already present. -/
def fillStep (d : Int) (s : Finset Int) (a : Int) : Finset Int :=
  if d ≤ (s.card : Int) then s else if a ∈ s then s else insert a s

/-- The helper map built by `ErasureCodeClay::minimum_to_repair`
(src/src/ErasureCodeClay.cc:254-288): first every section companion of the
lost logical node (remapped to physical ids), then available chunks in
ascending order until the set has `d` members.  Once the set reaches `d`
members nothing more is inserted, so the source's `break` is equivalent to
skipping the remaining chunks.  Every key of the source's `minimum` map
carries the same `sub_chunk_ind` vector, so the map is represented as the
key set paired with that one list.  Returns `none` when fewer than `d`
chunks are available (the source throws). -/
def Cfg.minimumToRepair (c : Cfg) (want avail : Finset Int) :
    Option (Finset Int × List (Int × Int)) :=
  let i := want.min.untop' 0
  let lost := c.toLogical i
  let subs := c.getRepairSubchunks lost
  if c.d ≤ avail.card then
    some ((ascList avail).foldl (fillStep c.d) (c.repBase lost), subs)
  else none

/-! ### Cube indexing (natural-number side)

For the data-cube algorithms the node and layer indices are natural
numbers; within the no-overflow regime (`q^t < 2^31`, see the `parse`
theorems) C `int` arithmetic on them coincides with `Nat` arithmetic. -/

/-- `get_plane_vector` (src/src/ErasureCodeClay.cc:801-806): the loop runs
`i = 0 .. t-1` and writes `z_vec[t-1-i] = z % q`, then replaces `z` by
`(z - z_vec[t-1-i]) / q`; so the vector lists the base-`q` digits most
significant first. -/
def planeVector (q : ℕ) : ℕ → ℕ → List ℕ
  | 0, _ => []
  | t + 1, z => planeVector q t ((z - z % q) / q) ++ [z % q]

/-- The digit of `z` the source reads as `z_vec[y]`: since `z_vec` stores
digits most significant first, entry `y` has weight `q^(t-1-y)`. -/
def dig (q t z y : ℕ) : ℕ := z / q ^ (t - 1 - y) % q

/-- The sibling layer `z_sw = z + (x - z_vec[y]) * pow_int(q, t-1-y)`
(src/src/ErasureCodeClay.cc:458 and elsewhere): `z` with its `y`-th digit
replaced by `x`.  Written with the addition first so that the natural
subtraction never truncates (`dig q t z y * q^(t-1-y) ≤ z` always). -/
def zsw (q t z x y : ℕ) : ℕ :=
  z + x * q ^ (t - 1 - y) - dig q t z y * q ^ (t - 1 - y)

/-! ### The layered engine

`V` abstracts one `σ`-byte sub-chunk region.  The scalar MDS collaborator
and the pair codec are the `decode_chunks` entry points of the two jerasure
instances (`mds.erasure_code`, `pft.erasure_code`); jerasure derives the
erasure set from the keys missing from its `chunks` argument and writes
exactly the erased entries of `decoded`
(src/src/ErasureCodeJerasure.cc:68-93), which is how the state updates
below are formed. -/

/-- Engine context: the parsed parameters together with the two codec
callbacks. -/
structure Ctx (V : Type) where
  q : ℕ
  t : ℕ
  k : ℕ
  m : ℕ
  nu : ℕ
  mdsDec : Finset ℕ → (ℕ → V) → ℕ → V
  pftDec : Finset (Fin 4) → (Fin 4 → V) → Fin 4 → V

namespace Ctx

variable {V : Type} (c : Ctx V)

/-- Number of logical nodes `q·t`. -/
def n : ℕ := c.q * c.t

/-- Sub-packetization `α = q^t` (the value `sub_chunk_no` holds in the
no-overflow regime). -/
def alpha : ℕ := c.q ^ c.t

/-- Digit `z_vec[y]` of layer `z`. -/
def dg (z y : ℕ) : ℕ := dig c.q c.t z y

/-- Sibling layer of `z` with digit `y` replaced by `x`. -/
def zw (z x y : ℕ) : ℕ := zsw c.q c.t z x y

/-- Physical-to-logical id mapping `(i < k) ? i : i + nu` on naturals. -/
def logicalOf (i : ℕ) : ℕ := if i < c.k then i else i + c.nu

end Ctx

/-- Engine state: the coupled values `C` living in the caller's chunk
buffers (`chunks[node][z]`) and the uncoupled working buffer
`U_buf[node][z]`.  The source accesses both through aliased `bufferlist`
views of offset `z * sc_size`; here a buffer is the function of its
sub-chunk index. -/
structure St (V : Type) where
  Cs : ℕ → ℕ → V
  Us : ℕ → ℕ → V

/-- Write one coupled sub-chunk. -/
def St.setC {V} (s : St V) (i z : ℕ) (v : V) : St V :=
  ⟨fun i' z' => if i' = i ∧ z' = z then v else s.Cs i' z', s.Us⟩

/-- Write one uncoupled sub-chunk. -/
def St.setU {V} (s : St V) (i z : ℕ) (v : V) : St V :=
  ⟨s.Cs, fun i' z' => if i' = i ∧ z' = z then v else s.Us i' z'⟩

/-- The slot permutation `i0,i1,i2,i3` used by the pair-codec calls: the
identity, or the swap `(1,0,3,2)` when `z_vec[y] > x`
(src/src/ErasureCodeClay.cc:460-466 and twins). -/
def pftSlots (b : Bool) : Fin 4 × Fin 4 × Fin 4 × Fin 4 :=
  if b then (1, 0, 3, 2) else (0, 1, 2, 3)

/-- Assemble the four pair-codec slots from the values placed at positions
`i0,i1,i2,i3`. -/
def slotVals {V} (i0 i1 i2 : Fin 4) (v0 v1 v2 v3 : V) : Fin 4 → V :=
  fun j => if j = i0 then v0 else if j = i1 then v1 else if j = i2 then v2 else v3

namespace Ctx

variable {V : Type} (c : Ctx V)

/-- `get_uncoupled_from_coupled` (src/src/ErasureCodeClay.cc:755-786): the
two coupled values of the pair are known (slots `{i0,i1} = {0,1}`), the
pair decode fills the two uncoupled slots, which alias
`U_buf[node_xy][z]` and `U_buf[node_sw][z_sw]`. -/
def getUncFromCoup (x y z : ℕ) (s : St V) : St V :=
  let nodeXY := y * c.q + x
  let nodeSW := y * c.q + c.dg z y
  let zs := c.zw z x y
  let (i0, i1, i2, i3) := pftSlots (x < c.dg z y)
  let vals := slotVals i0 i1 i2 (s.Cs nodeXY z) (s.Cs nodeSW zs) (s.Us nodeXY z)
    (s.Us nodeSW zs)
  let out := c.pftDec {i0, i1} vals
  (s.setU nodeXY z (out i2)).setU nodeSW zs (out i3)

/-- `recover_type1_erasure` (src/src/ErasureCodeClay.cc:688-725): the
companion's coupled value and this node's uncoupled value are known (slots
`{i1,i2}`), the decode fills slot `i0`, aliasing `chunks[node_xy][z]`; the
second filled slot `i3` is a scratch zero buffer and is discarded. -/
def recoverType1 [Zero V] (x y z : ℕ) (s : St V) : St V :=
  let nodeXY := y * c.q + x
  let nodeSW := y * c.q + c.dg z y
  let zs := c.zw z x y
  let (i0, i1, i2, _) := pftSlots (x < c.dg z y)
  let vals := slotVals i0 i1 i2 (s.Cs nodeXY z) (s.Cs nodeSW zs) (s.Us nodeXY z) 0
  let out := c.pftDec {i1, i2} vals
  s.setC nodeXY z (out i0)

/-- `get_coupled_from_uncoupled` (src/src/ErasureCodeClay.cc:727-753): the
two uncoupled values are known (slots `{2,3}`; the function asserts
`z_vec[y] < x`, so no swap occurs), the decode fills both coupled slots,
aliasing `chunks[node_xy][z]` and `chunks[node_sw][z_sw]`. -/
def getCoupFromUnc (x y z : ℕ) (s : St V) : St V :=
  let nodeXY := y * c.q + x
  let nodeSW := y * c.q + c.dg z y
  let zs := c.zw z x y
  let vals := slotVals 0 1 2 (s.Cs nodeXY z) (s.Cs nodeSW zs) (s.Us nodeXY z)
    (s.Us nodeSW zs)
  let out := c.pftDec {2, 3} vals
  (s.setC nodeXY z (out 0)).setC nodeSW zs (out 1)

/-- `decode_uncoupled` (src/src/ErasureCodeClay.cc:657-673): the scalar MDS
decode on layer `z`; the non-erased `U` sub-chunks are the known inputs and
exactly the erased entries (which alias `U_buf[i][z]`) are written. -/
def decodeUncoupled (E : Finset ℕ) (z : ℕ) (s : St V) : St V :=
  let out := c.mdsDec E (fun i => s.Us i z)
  { s with Us := fun i z' => if i ∈ E ∧ z' = z then out i else s.Us i z' }

/-- Inner body of the `decode_erasures` double loop
(src/src/ErasureCodeClay.cc:635-653) for fixed `x`, `y`. -/
def deBody (E : Finset ℕ) (z x y : ℕ) (s : St V) : St V :=
  let nodeXY := c.q * y + x
  let nodeSW := c.q * y + c.dg z y
  if nodeXY ∈ E then s
  else if c.dg z y < x then c.getUncFromCoup x y z s
  else if c.dg z y = x then s.setU nodeXY z (s.Cs nodeXY z)
  else if nodeSW ∈ E then c.getUncFromCoup x y z s
  else s

/-- `decode_erasures` (src/src/ErasureCodeClay.cc:629-655): fill the
uncoupled layer from the coupled values (`x` outer, `y` inner), then MDS
decode the layer. -/
def decodeErasures (E : Finset ℕ) (z : ℕ) (s : St V) : St V :=
  c.decodeUncoupled E z
    ((List.range c.q).foldl
      (fun sx x => (List.range c.t).foldl (fun sy y => c.deBody E z x y sy) sx) s)

/-- Body of the coupled-recovery loop of `decode_layered`
(src/src/ErasureCodeClay.cc:604-621) for one erased node. -/
def recBody [Zero V] (E : Finset ℕ) (z i : ℕ) (s : St V) : St V :=
  let x := i % c.q
  let y := i / c.q
  let nodeSW := y * c.q + c.dg z y
  if c.dg z y ≠ x then
    if nodeSW ∉ E then c.recoverType1 x y z s
    else if c.dg z y < x then c.getCoupFromUnc x y z s
    else s
  else s.setC i z (s.Us i z)

/-- `set_planes_sequential_decoding_order`
(src/src/ErasureCodeClay.cc:675-686): `order[z]` counts the erased nodes
`i` with `i % q == z_vec[i / q]`. -/
def ordOf (E : Finset ℕ) (z : ℕ) : ℕ :=
  (E.filter (fun i => i % c.q = c.dg z (i / c.q))).card

/-- `get_max_iscore` (src/src/ErasureCodeClay.cc:788-799): the number of
distinct `y`-sections (`i / q`) touched by the erased set (the weight
vector marks each section once). -/
def maxIscore (E : Finset ℕ) : ℕ := (E.image (· / c.q)).card

/-- The layers processed at intersection score `o`, in ascending order. -/
def layersOf (E : Finset ℕ) (o : ℕ) : List ℕ :=
  (List.range c.alpha).filter (fun z => c.ordOf E z = o)

/-- One iteration of the `iscore` loop of `decode_layered`
(src/src/ErasureCodeClay.cc:594-624): first `decode_erasures` on every
layer of this score (ascending `z`), then the coupled recovery pass over
those layers, iterating the ordered erased set within each layer. -/
def roundStep [Zero V] (E : Finset ℕ) (o : ℕ) (s : St V) : St V :=
  let L := c.layersOf E o
  let s1 := L.foldl (fun s z => c.decodeErasures E z s) s
  L.foldl (fun s z => (E.sort (· ≤ ·)).foldl (fun s i => c.recBody E z i s) s) s1

/-- The full `iscore = 0 .. max_iscore` loop of `decode_layered`. -/
def decodeLayeredRun [Zero V] (E : Finset ℕ) (s : St V) : St V :=
  (List.range (c.maxIscore E + 1)).foldl (fun s o => c.roundStep E o s) s

/-- The erasure padding loop of `decode_layered`
(src/src/ErasureCodeClay.cc:574-578): starting at `i = k + nu`, insert
fresh logical ids while fewer than `m` erasures. -/
def padErasures (E : Finset ℕ) : Finset ℕ :=
  (List.range (c.n - (c.k + c.nu))).foldl
    (fun S j => if S.card < c.m then insert (c.k + c.nu + j) S else S) E

/-- `decode_layered` (src/src/ErasureCodeClay.cc:564-627).  `none` models
an assertion failure (the process aborts): `assert(num_erasures > 0)`
before padding and `assert(num_erasures == m)` after it.  The chunk-size
divisibility assert concerns byte granularity, which the value abstraction
already guarantees. -/
def decodeLayered [Zero V] (E : Finset ℕ) (s : St V) : Option (St V) :=
  if E.card = 0 then none
  else
    let E' := c.padErasures E
    if E'.card = c.m then some (c.decodeLayeredRun E' s) else none

/-- The parity ids `{k+nu, …, k+nu+m-1}` that `encode_chunks` marks as the
erasures to compute (src/src/ErasureCodeClay.cc:90-97). -/
def parityIds : Finset ℕ := (Finset.range c.m).image (fun j => c.k + c.nu + j)

/-- `encode_chunks` (src/src/ErasureCodeClay.cc:84-110): the caller's
chunks are laid out at logical ids (`i` for data, `i+nu` for parity), the
shortened ids hold zero buffers, and `decode_layered` runs with the parity
ids as the erased set.  `inp` is the caller's physical chunk map and `U0`
whatever the reused member `U_buf` holds. -/
def encodeChunks [Zero V] (inp : ℕ → ℕ → V) (U0 : ℕ → ℕ → V) : Option (St V) :=
  let C0 : ℕ → ℕ → V := fun i z =>
    if i < c.k then inp i z
    else if i < c.k + c.nu then 0
    else inp (i - c.nu) z
  c.decodeLayered c.parityIds ⟨C0, U0⟩

/-- `ErasureCode::_decode` (src/src/ErasureCode.cc:130-158) followed by
`ErasureCodeClay::decode_chunks` (src/src/ErasureCodeClay.cc:112-138) in
the non-trivial case: missing physical chunks become zero buffers, chunks
move to their logical ids, the shortened ids hold zero buffers, and the
erased set is the logical image of the missing physical ids. -/
def decodeChunksFn [Zero V] (avail : Finset ℕ) (chunkIn : ℕ → ℕ → V)
    (U0 : ℕ → ℕ → V) : Option (St V) :=
  let E := ((Finset.range (c.k + c.m)).filter (fun i => i ∉ avail)).image c.logicalOf
  let C0 : ℕ → ℕ → V := fun j z =>
    if j < c.k then (if j ∈ avail then chunkIn j z else 0)
    else if j < c.k + c.nu then 0
    else if j - c.nu ∈ avail then chunkIn (j - c.nu) z else 0
  c.decodeLayered E ⟨C0, U0⟩

/-! ### Codec and codeword abstractions (for the MDS theorem)

The two collaborators are abstract; their guaranteed behaviour is stated
relative to two abstract codeword predicates: `IsMds` for one uncoupled
layer and `Rel` for a pair-codec quadruple in canonical slot order
`(C_hi, C_lo, U_hi, U_lo)`, where the pair vertex whose `x` exceeds its
digit is `hi`. -/

/-- The pair-codec quadruple of the coupling pair with hi vertex
`(x, y, z)` (so `z_vec[y] < x`), read from value tables `C`, `U`. -/
def pairWord (C U : ℕ → ℕ → V) (x y z : ℕ) : Fin 4 → V :=
  slotVals 0 1 2 (C (y * c.q + x) z) (C (y * c.q + c.dg z y) (c.zw z x y))
    (U (y * c.q + x) z) (U (y * c.q + c.dg z y) (c.zw z x y))

/-- A full codeword of the coupled-layer code: every layer's uncoupled
vector is a scalar codeword, every coupling pair is a pair codeword, and
a red vertex has equal coupled and uncoupled values. -/
def IsCw (IsMds : (ℕ → V) → Prop) (Rel : (Fin 4 → V) → Prop)
    (C U : ℕ → ℕ → V) : Prop :=
  (∀ z < c.alpha, IsMds (fun i => U i z)) ∧
  (∀ y < c.t, ∀ x < c.q, ∀ z < c.alpha, c.dg z y < x →
    Rel (c.pairWord C U x y z)) ∧
  (∀ y < c.t, ∀ x < c.q, ∀ z < c.alpha, c.dg z y = x →
    C (y * c.q + x) z = U (y * c.q + x) z)

/-- The scalar decoder writes the codeword values at erased positions
whenever the surviving positions agree with a codeword and at most `m`
positions are erased (jerasure's RS decode). -/
def MdsOk (IsMds : (ℕ → V) → Prop) : Prop :=
  ∀ (E : Finset ℕ) (f w : ℕ → V), E.card ≤ c.m → IsMds w →
    (∀ i < c.n, i ∉ E → f i = w i) →
    ∀ i ∈ E, i < c.n → c.mdsDec E f i = w i

/-- The pair decoder recovers the unknown slots of a pair codeword from
any two known slots. -/
def PftOk (Rel : (Fin 4 → V) → Prop) : Prop :=
  ∀ (K : Finset (Fin 4)) (vals w : Fin 4 → V), K.card = 2 → Rel w →
    (∀ j ∈ K, vals j = w j) → ∀ j ∉ K, c.pftDec K vals j = w j

/-- Systematic completion: every assignment of the non-parity logical
chunks extends to a full codeword (the defining property of the Clay
construction, met by the jerasure pair). -/
def SysExt (IsMds : (ℕ → V) → Prop)
    (Rel : (Fin 4 → V) → Prop) : Prop :=
  ∀ f : ℕ → ℕ → V, ∃ C U : ℕ → ℕ → V, c.IsCw IsMds Rel C U ∧
    ∀ i < c.n, i ∉ c.parityIds → ∀ z < c.alpha, C i z = f i z

/-- Invariant: the non-erased coupled values hold codeword values (they
are never written by the decoder). -/
def COffE (E : Finset ℕ) (Co : ℕ → ℕ → V) (s : St V) : Prop :=
  ∀ i < c.n, i ∉ E → ∀ z < c.alpha, s.Cs i z = Co i z

/-- Invariant: erased coupled values of layers of order below `o` are
recovered. -/
def CRec (E : Finset ℕ) (Co : ℕ → ℕ → V) (o : ℕ) (s : St V) : Prop :=
  ∀ i ∈ E, ∀ z < c.alpha, c.ordOf E z < o → s.Cs i z = Co i z

/-- Invariant: all uncoupled values of layers of order below `o` are
computed. -/
def ULow (E : Finset ℕ) (Uo : ℕ → ℕ → V) (o : ℕ) (s : St V) : Prop :=
  ∀ i < c.n, ∀ z < c.alpha, c.ordOf E z < o → s.Us i z = Uo i z

/-- Mid-pass-one invariant of round `o` with processed layer set `S`:
besides the round facts, processed layers have all uncoupled values, and a
lo vertex of an unprocessed layer already has its uncoupled value if its
processed sibling pushed it there. -/
def P1Inv (E : Finset ℕ) (Co Uo : ℕ → ℕ → V) (o : ℕ) (S : Finset ℕ)
    (s : St V) : Prop :=
  c.COffE E Co s ∧ c.CRec E Co o s ∧ c.ULow E Uo o s ∧
  (∀ z ∈ S, ∀ i < c.n, s.Us i z = Uo i z) ∧
  (∀ z < c.alpha, c.ordOf E z = o → z ∉ S →
    ∀ y < c.t, ∀ x < c.q, x < c.dg z y → y * c.q + x ∉ E →
      y * c.q + c.dg z y ∉ E → c.zw z x y ∈ S →
      s.Us (y * c.q + x) z = Uo (y * c.q + x) z)

/-- Mid-pass-two invariant of round `o` with processed layer set `S`: the
uncoupled values of all layers of order `≤ o` are computed (pass two never
writes them), erased coupled values of processed layers are recovered, and
so is an erased lo vertex of an unprocessed layer whose processed sibling
pushed it there. -/
def P2Inv (E : Finset ℕ) (Co Uo : ℕ → ℕ → V) (o : ℕ) (S : Finset ℕ)
    (s : St V) : Prop :=
  c.COffE E Co s ∧ c.CRec E Co o s ∧ c.ULow E Uo (o + 1) s ∧
  (∀ z ∈ S, ∀ i ∈ E, s.Cs i z = Co i z) ∧
  (∀ z < c.alpha, c.ordOf E z = o → z ∉ S →
    ∀ y < c.t, ∀ x < c.q, x < c.dg z y → y * c.q + x ∈ E →
      y * c.q + c.dg z y ∈ E → c.zw z x y ∈ S →
      s.Cs (y * c.q + x) z = Co (y * c.q + x) z)

/-- State of the round induction: before round `o`, the layers of the
rounds `< o` are fully decoded. -/
def RoundInv (E : Finset ℕ) (Co Uo : ℕ → ℕ → V) (o : ℕ) (s : St V) : Prop :=
  c.COffE E Co s ∧ c.CRec E Co o s ∧ c.ULow E Uo o s

/-! ### A concrete small-field instance (for the MDS witness) -/

/-- Scalar codeword predicate of the `(3, 2)` parity code over `GF(3)`. -/
def IsMdsW (w : ℕ → ZMod 3) : Prop := w 2 = w 0 + w 1

/-- Scalar decoder of the parity code. -/
def mdsW (E : Finset ℕ) (f : ℕ → ZMod 3) (i : ℕ) : ZMod 3 :=
  if i = 0 then f 2 - f 1 else if i = 1 then f 2 - f 0 else f 0 + f 1

/-- Pair codeword: evaluations `(s, s+t, s+2t, t)` of a linear polynomial,
a `[4, 2]` Reed-Solomon code over `GF(3)`. -/
def RelW (w : Fin 4 → ZMod 3) : Prop :=
  w 1 = w 0 + w 3 ∧ w 2 = w 0 + w 3 + w 3

/-- Pair decoder: solve for `(s, t)` from the two known slots
(doubling stands in for multiplication by `2 = 2⁻¹` in `GF(3)`). -/
def pftW (K : Finset (Fin 4)) (v : Fin 4 → ZMod 3) : Fin 4 → ZMod 3 :=
  let st : ZMod 3 × ZMod 3 :=
    if 0 ∈ K ∧ 1 ∈ K then (v 0, v 1 - v 0)
    else if 0 ∈ K ∧ 2 ∈ K then (v 0, (v 2 - v 0) + (v 2 - v 0))
    else if 0 ∈ K ∧ 3 ∈ K then (v 0, v 3)
    else if 1 ∈ K ∧ 2 ∈ K then (v 1 + v 1 - v 2, v 2 - v 1)
    else if 1 ∈ K ∧ 3 ∈ K then (v 1 - v 3, v 3)
    else if 2 ∈ K ∧ 3 ∈ K then (v 2 - v 3 - v 3, v 3)
    else (0, 0)
  fun j => if j = 0 then st.1 else if j = 1 then st.1 + st.2
    else if j = 2 then st.1 + st.2 + st.2 else st.2

/-- Witness context: `(k, m, d) = (2, 1, 2)`, so `q = 1`, `t = 3`,
`ν = 0`. -/
def cW : Ctx (ZMod 3) := ⟨1, 3, 2, 1, 0, mdsW, pftW⟩

/-! ### The repair path

`repair` (src/src/ErasureCodeClay.cc:319-378) and `repair_one_lost_chunk`
(src/src/ErasureCodeClay.cc:380-562).  A helper's buffer holds only the `β`
repair sub-chunks, addressed by `repair_plane_to_ind`; in the embedding a
helper buffer is a function of that packed index.  The recovered chunk for
the lost node lives in `St.Cs` (the zero-initialised `recovered_data`
buffer aliased by `(*repaired)[lost]`). -/

/-- The repair planes in ascending order: the concatenation of the
`(index, count)` runs of `get_repair_subchunks`, i.e. for each
`i < q^y_lost` the block `[x_lost*seq + i*q*seq, … + seq)` with
`seq = q^(t-1-y_lost)`. -/
def repairPlanes (lost : ℕ) : List ℕ :=
  let y := lost / c.q
  let x := lost % c.q
  let seq := c.q ^ (c.t - 1 - y)
  (List.range (c.q ^ y)).flatMap
    (fun i => (List.range seq).map (fun j => x * seq + i * (c.q * seq) + j))

/-- `repair_plane_to_ind[z]`: the consecutive counter over the runs is the
position of `z` in the ascending plane list. -/
def rpInd (lost z : ℕ) : ℕ := (c.repairPlanes lost).indexOf z

/-- The repair order of a plane (src/src/ErasureCodeClay.cc:400-410):
red members of `recovered_data` (the lost node) plus red aloof nodes. -/
def ordR (lost : ℕ) (A : Finset ℕ) (z : ℕ) : ℕ :=
  ((insert lost A).filter (fun i => i % c.q = c.dg z (i / c.q))).card

/-- The repair planes of one order, ascending (`ordered_planes[order]` is
an ordered `std::set`). -/
def planesOfOrdR (lost : ℕ) (A : Finset ℕ) (o : ℕ) : List ℕ :=
  (c.repairPlanes lost).filter (fun z => c.ordR lost A z = o)

/-- The erased set of the repair MDS decodes
(src/src/ErasureCodeClay.cc:435-441): the whole `y`-section of the lost
node plus the aloof nodes. -/
def repairErasures (lost : ℕ) (A : Finset ℕ) : Finset ℕ :=
  ((Finset.range c.q).image (fun i => lost - lost % c.q + i)) ∪ A

/-- Helper-population body of the repair plane loop
(src/src/ErasureCodeClay.cc:450-511) for one `(y, x)`: skip erased nodes;
if the companion is aloof, pair-decode from the helper's coupled value and
the companion's already-written `U` (known slots `{i0,i3}`); if the
companion is another helper and the vertex is not red, pair-decode from the
two helpers' coupled values (known slots `{i0,i1}`); a red vertex copies
the helper's sub-chunk into `U`. -/
def rhBody [Zero V] (lost : ℕ) (A : Finset ℕ) (hl : ℕ → ℕ → V) (E : Finset ℕ)
    (z y x : ℕ) (s : St V) : St V :=
  let nodeXY := y * c.q + x
  if nodeXY ∈ E then s
  else
    let nodeSW := y * c.q + c.dg z y
    let zs := c.zw z x y
    let (i0, i1, i2, i3) := pftSlots (x < c.dg z y)
    if nodeSW ∈ A then
      let vals := slotVals i0 i1 i2 (hl nodeXY (c.rpInd lost z)) 0 (s.Us nodeXY z)
        (s.Us nodeSW zs)
      s.setU nodeXY z (c.pftDec {i0, i3} vals i2)
    else if c.dg z y ≠ x then
      let vals := slotVals i0 i1 i2 (hl nodeXY (c.rpInd lost z))
        (hl nodeSW (c.rpInd lost zs)) (s.Us nodeXY z) 0
      s.setU nodeXY z (c.pftDec {i0, i1} vals i2)
    else s.setU nodeXY z (hl nodeXY (c.rpInd lost z))

/-- Erasure-recovery body of the repair plane loop
(src/src/ErasureCodeClay.cc:515-557) for one erased node: aloof nodes are
skipped; the red vertex copies `U` into the recovered chunk; otherwise the
helper's coupled value and the node's `U` (known slots `{i0,i2}`) determine
the lost companion's coupled sub-chunk at the sibling layer, written into
`recovered_data[node_sw]` (`node_sw` is the lost node, as the source
asserts). -/
def rrBody [Zero V] (lost : ℕ) (A : Finset ℕ) (hl : ℕ → ℕ → V) (z i : ℕ)
    (s : St V) : St V :=
  if i ∈ A then s
  else
    let x := i % c.q
    let y := i / c.q
    let nodeSW := y * c.q + c.dg z y
    let zs := c.zw z x y
    let (i0, i1, i2, _) := pftSlots (x < c.dg z y)
    if x = c.dg z y then s.setC i z (s.Us i z)
    else
      let vals := slotVals i0 i1 i2 (hl i (c.rpInd lost z)) (s.Cs nodeSW zs)
        (s.Us i z) 0
      s.setC nodeSW zs (c.pftDec {i0, i2} vals i1)

/-- One repair plane (src/src/ErasureCodeClay.cc:447-558): populate the
helpers' `U` values (`y` outer, `x` inner), MDS-decode the plane, recover
the erased coupled sub-chunks over the ordered erased set. -/
def rPlaneStep [Zero V] (lost : ℕ) (A : Finset ℕ) (hl : ℕ → ℕ → V)
    (E : Finset ℕ) (z : ℕ) (s : St V) : St V :=
  let s1 := (List.range c.t).foldl
    (fun sy y => (List.range c.q).foldl
      (fun sx x => c.rhBody lost A hl E z y x sx) sy) s
  let s2 := c.decodeUncoupled E z s1
  (E.sort (· ≤ ·)).foldl (fun s i => c.rrBody lost A hl z i s) s2

/-- The first order `≥ 1` whose plane bucket is empty: the order loop of
`repair_one_lost_chunk` (src/src/ErasureCodeClay.cc:443-446) stops there
(`if (ordered_planes.count(order) == 0) break`).  Orders are bounded by the
cardinality of `{lost} ∪ aloof`, so the search is over `[1, M+1]`. -/
def firstGapR (lost : ℕ) (A : Finset ℕ) : ℕ :=
  let M := (insert lost A).card
  (((List.range' 1 (M + 1)).find?
    (fun o => (c.planesOfOrdR lost A o).isEmpty)).getD (M + 1))

/-- `repair_one_lost_chunk`: process the orders `1, 2, …` until the first
empty bucket, each order's planes in ascending order.  `recovered_data` is
the zero-initialised output buffer; `U0` is the reused member `U_buf`. -/
def repairOneLost [Zero V] (lost : ℕ) (A : Finset ℕ) (hl : ℕ → ℕ → V)
    (U0 : ℕ → ℕ → V) : St V :=
  (List.range' 1 (c.firstGapR lost A - 1)).foldl
    (fun s o => (c.planesOfOrdR lost A o).foldl
      (fun s z => c.rPlaneStep lost A hl (c.repairErasures lost A) z s) s)
    ⟨fun _ _ => 0, U0⟩

/-- `repair` (src/src/ErasureCodeClay.cc:319-378): the lost physical node
is the single wanted id; physical nodes outside the provided chunk map
become aloof (logical ids); helper buffers move to logical ids with the
shortened ids as zero buffers; then `repair_one_lost_chunk` runs.  The
recovered chunk for the lost node is `St.Cs` at its logical id. -/
def repairFn [Zero V] (want chunksAvail : Finset ℕ) (helper : ℕ → ℕ → V)
    (U0 : ℕ → ℕ → V) : St V :=
  let fN := want.min.untop' 0
  let lost := c.logicalOf fN
  let A := ((Finset.range (c.k + c.m)).filter
    (fun i => i ∉ chunksAvail ∧ i ≠ fN)).image c.logicalOf
  let hlL : ℕ → ℕ → V := fun j p =>
    if j < c.k then (if j ∈ chunksAvail then helper j p else 0)
    else if j < c.k + c.nu then 0
    else if j - c.nu ∈ chunksAvail then helper (j - c.nu) p else 0
  c.repairOneLost lost A hlL U0

/-- A trivial engine context over `Int` sub-chunk values with constant-zero
codec callbacks; used to instantiate concrete witnesses (the theorems that
use it do not depend on the codec behaviour). -/
def zeroCtx (q t k m nu : ℕ) : Ctx Int where
  q := q
  t := t
  k := k
  m := m
  nu := nu
  mdsDec := fun _ _ _ => 0
  pftDec := fun _ _ _ => 0

end Ctx

/-! ## Theorems -/

theorem wrap32_emod (v : Int) : wrap32 v % 2 ^ 32 = v % 2 ^ 32 := by
  unfold wrap32; omega

theorem wrap32_range (v : Int) : -2 ^ 31 ≤ wrap32 v ∧ wrap32 v < 2 ^ 31 := by
  unfold wrap32; omega

theorem powIntGo_emod (fuel : ℕ) : ∀ x, x ≤ fuel → ∀ a p : Int,
    powIntGo fuel x a p % 2 ^ 32 = a ^ x * p % 2 ^ 32 := by
  induction fuel with
  | zero =>
    intro x hxf a p
    have hx0 : x = 0 := by omega
    subst hx0
    simp [powIntGo]
  | succ fuel ih =>
    intro x hxf a p
    rw [powIntGo]
    by_cases hx : x = 0
    · simp [hx]
    · simp only [hx, if_false]
      rw [ih (x / 2) (by omega)]
      have hmul : ∀ u v : Int, u % 2 ^ 32 = v % 2 ^ 32 →
          ∀ w, u * w % 2 ^ 32 = v * w % 2 ^ 32 := by
        intro u v huv w
        have := Int.ModEq.mul (Int.ModEq.symm huv) (Int.ModEq.refl w)
        exact this.symm
      have hpow : (wrap32 (a * a)) ^ (x / 2) % 2 ^ 32 =
          (a * a) ^ (x / 2) % 2 ^ 32 :=
        Int.ModEq.pow (x / 2) (wrap32_emod (a * a))
      have base : (wrap32 (a * a)) ^ (x / 2) *
          (if x % 2 = 1 then wrap32 (p * a) else p) % 2 ^ 32 =
          (a * a) ^ (x / 2) * (if x % 2 = 1 then p * a else p) % 2 ^ 32 := by
        by_cases hpar : x % 2 = 1
        · simp only [hpar, if_true]
          calc (wrap32 (a * a)) ^ (x / 2) * wrap32 (p * a) % 2 ^ 32
              = (a * a) ^ (x / 2) * wrap32 (p * a) % 2 ^ 32 :=
                hmul _ _ hpow _
            _ = (a * a) ^ (x / 2) * (p * a) % 2 ^ 32 :=
                (Int.ModEq.mul (Int.ModEq.refl _) (wrap32_emod (p * a)))
        · simp only [hpar, if_false]
          exact hmul _ _ hpow _
      rw [base]
      congr 1
      have hx2 : x = 2 * (x / 2) + x % 2 := (Nat.div_add_mod x 2).symm ▸ by omega
      by_cases hpar : x % 2 = 1
      · simp only [hpar, if_true]
        rw [show a ^ x = a ^ (2 * (x / 2) + 1) by rw [← hpar]; exact congrArg _ hx2]
        rw [pow_add, pow_mul, pow_one]
        ring
      · have h0 : x % 2 = 0 := by omega
        simp only [hpar, if_false]
        rw [show a ^ x = a ^ (2 * (x / 2)) by
          conv_lhs => rw [hx2]
          rw [h0, Nat.add_zero]]
        rw [pow_mul]
        ring

theorem powIntGo_range (fuel : ℕ) : ∀ (x : ℕ) (a p : Int),
    -2 ^ 31 ≤ p ∧ p < 2 ^ 31 →
    -2 ^ 31 ≤ powIntGo fuel x a p ∧ powIntGo fuel x a p < 2 ^ 31 := by
  induction fuel with
  | zero =>
    intro x a p hp
    simpa [powIntGo] using hp
  | succ fuel ih =>
    intro x a p hp
    rw [powIntGo]
    by_cases hx : x = 0
    · simpa [hx] using hp
    · simp only [hx, if_false]
      refine ih (x / 2) _ _ ?_
      by_cases hpar : x % 2 = 1
      · simpa [hpar] using wrap32_range (p * a)
      · simpa [hpar] using hp

/-- In the no-overflow regime `pow_int` computes the exact power. -/
theorem powInt_exact (a : Int) (x : ℕ) (ha : 0 ≤ a) (h : a ^ x < 2 ^ 31) :
    powInt a x = a ^ x := by
  have h1 := powIntGo_emod x x le_rfl a 1
  have h2 := powIntGo_range x x a 1 (by norm_num)
  have h3 : 0 ≤ a ^ x := pow_nonneg ha x
  simp only [mul_one] at h1
  unfold powInt
  omega

/-- Unfolding of `parse` into its three outcomes. -/
theorem parse_eq (k m d : Int) :
    parse k m d =
      if d < k ∨ d > k + m - 1 then ⟨-EINVAL, k, m, d, 0, 0, 0, 0⟩
      else if k + m + nuCode k m d > 254 then
        ⟨-EINVAL, k, m, d, d - k + 1, 0, nuCode k m d, 0⟩
      else
        ⟨if k < 2 then -EINVAL else 0, k, m, d, d - k + 1,
          (k + m + nuCode k m d).tdiv (d - k + 1), nuCode k m d,
          powInt (d - k + 1) ((k + m + nuCode k m d).tdiv (d - k + 1)).toNat⟩ := by
  unfold parse nuCode
  by_cases h1 : d < k ∨ d > k + m - 1
  · simp only [h1, if_true]
  · simp only [h1, if_false]

/-- The shortening count computed by `parse` equals the specification's
ceiling formula, and satisfies its stated bounds and divisibility. -/
theorem nu_regime (k m d : Int) (hk : 2 ≤ k) (hd1 : k ≤ d) (hd2 : d ≤ k + m - 1) :
    nuCode k m d = nuSpec k m d ∧
    0 ≤ nuSpec k m d ∧ nuSpec k m d < d - k + 1 ∧
    (d - k + 1) ∣ (k + m + nuSpec k m d) := by
  set q : Int := d - k + 1 with hq
  have hqpos : 0 < q := by omega
  have hm : 1 ≤ m := by omega
  have hn : (0 : Int) ≤ k + m := by omega
  have htm : (k + m).tmod q = (k + m) % q := Int.tmod_eq_emod hn hqpos.le
  have hsplit : q * ((k + m) / q) + (k + m) % q = k + m := Int.ediv_add_emod _ _
  have hr0 : 0 ≤ (k + m) % q := Int.emod_nonneg _ (by omega)
  have hr1 : (k + m) % q < q := Int.emod_lt_of_pos _ hqpos
  have hcase : ((k + m) % q + q - 1) / q = if (k + m) % q = 0 then 0 else 1 := by
    by_cases hr : (k + m) % q = 0
    · simp only [hr, if_true]
      exact Int.ediv_eq_zero_of_lt (by omega) (by omega)
    · simp only [hr, if_false]
      have h2 : (k + m) % q + q - 1 = ((k + m) % q - 1) + q * 1 := by omega
      rw [h2, Int.add_mul_ediv_left _ _ (by omega : q ≠ 0),
        Int.ediv_eq_zero_of_lt (by omega) (by omega)]
      omega
  have hceil : (k + m + q - 1) / q =
      (k + m) / q + (if (k + m) % q = 0 then 0 else 1) := by
    have h1 : k + m + q - 1 = ((k + m) % q + q - 1) + q * ((k + m) / q) := by omega
    rw [h1, Int.add_mul_ediv_left _ _ (by omega : q ≠ 0), hcase, add_comm]
  have hnu : nuSpec k m d = if (k + m) % q = 0 then 0 else q - (k + m) % q := by
    unfold nuSpec
    rw [← hq, hceil]
    by_cases hr : (k + m) % q = 0
    · simp only [hr, if_true, add_zero]; omega
    · simp only [hr, if_false]; rw [mul_add, mul_one]; omega
  refine ⟨?_, ?_, ?_, ?_⟩
  · unfold nuCode
    rw [← hq, htm, hnu]
    by_cases hr : (k + m) % q = 0 <;> simp [hr]
  · rw [hnu]; by_cases hr : (k + m) % q = 0 <;> simp only [hr, if_true, if_false] <;> omega
  · rw [hnu]; by_cases hr : (k + m) % q = 0 <;> simp only [hr, if_true, if_false] <;> omega
  · rw [hnu]
    by_cases hr : (k + m) % q = 0
    · simp only [hr, if_true, add_zero]
      exact ⟨(k + m) / q, by omega⟩
    · simp only [hr, if_false]
      refine ⟨(k + m) / q + 1, ?_⟩
      rw [mul_add, mul_one]
      omega

/-- Claim C7: `parse` (src/src/ErasureCodeClay.cc:148-224 together with
`sanity_check_k`) returns a nonzero error whenever `k < 2`, `m < 1`,
`d < k`, `d > k+m-1`, or `k+m+ν > 254`, and returns success for every
`k, m, d` meeting all of these constraints (with the default plugin and
technique settings).  A violation of `m < 1` is caught through the then
empty admissible range of `d`. -/
theorem parse_validates (k m d : Int) :
    ((k < 2 ∨ m < 1 ∨ d < k ∨ k + m - 1 < d ∨ 254 < k + m + nuSpec k m d) →
      (parse k m d).err ≠ 0) ∧
    ((2 ≤ k ∧ 1 ≤ m ∧ k ≤ d ∧ d ≤ k + m - 1 ∧ k + m + nuSpec k m d ≤ 254) →
      (parse k m d).err = 0) := by
  rw [parse_eq]
  constructor
  · intro hbad
    split_ifs with h1 h2 h3
    · show (-EINVAL : Int) ≠ 0; decide
    · show (-EINVAL : Int) ≠ 0; decide
    · show (-EINVAL : Int) ≠ 0; decide
    · -- all checks passed yet the claim names a violation: impossible
      exfalso
      push_neg at h1
      have hk : 2 ≤ k := by omega
      obtain ⟨hnu, -, -, -⟩ := nu_regime k m d hk h1.1 (by omega)
      rcases hbad with h | h | h | h | h
      · omega
      · omega
      · omega
      · omega
      · rw [hnu] at h2; omega
  · rintro ⟨hk, hm, hd1, hd2, hbound⟩
    obtain ⟨hnu, -, -, -⟩ := nu_regime k m d hk hd1 hd2
    split_ifs with h1 h2 h3
    · omega
    · rw [hnu] at h2; omega
    · exact absurd h3 (by omega)
    · rfl

/-- Witness for `parse_validates`: the constraints hold at `(4, 2, 5)` and
`parse` accepts it. -/
theorem parse_validates_witness :
    (2 ≤ (4 : Int) ∧ 1 ≤ (2 : Int) ∧ (4 : Int) ≤ 5 ∧ (5 : Int) ≤ 4 + 2 - 1 ∧
      4 + 2 + nuSpec 4 2 5 ≤ 254) ∧ (parse 4 2 5).err = 0 :=
  ⟨by decide, (parse_validates 4 2 5).2 (by decide)⟩

/-- Claim C6 (amended): on success `parse` derives `q = d-k+1`,
`ν = q·⌈(k+m)/q⌉ − (k+m)` with `0 ≤ ν < q` and `q ∣ k+m+ν`,
`t = (k+m+ν)/q`, and `sub_chunk_no = q^t` whenever `q^t < 2^31`; for larger
`t` the 32-bit `pow_int` computation wraps, so the unconditional equation
of the original claim fails (see `parse_subChunkNo_overflows`). -/
theorem parse_derives_parameters (k m d : Int) (h : (parse k m d).err = 0) :
    (parse k m d).q = d - k + 1 ∧
    (parse k m d).nu = nuSpec k m d ∧
    0 ≤ (parse k m d).nu ∧ (parse k m d).nu < (parse k m d).q ∧
    (parse k m d).q ∣ (k + m + (parse k m d).nu) ∧
    (parse k m d).t = (k + m + (parse k m d).nu) / (parse k m d).q ∧
    ((parse k m d).q ^ (parse k m d).t.toNat < 2 ^ 31 →
      (parse k m d).subChunkNo = (parse k m d).q ^ (parse k m d).t.toNat) := by
  rw [parse_eq] at h ⊢
  split_ifs at h ⊢ with h1 h2 h3
  · exact absurd (show (-EINVAL : Int) = 0 from h) (by decide)
  · exact absurd (show (-EINVAL : Int) = 0 from h) (by decide)
  · exact absurd (show (-EINVAL : Int) = 0 from h) (by decide)
  · push_neg at h1
    obtain ⟨hd1, hd2⟩ := h1
    have hk : 2 ≤ k := by omega
    obtain ⟨hnu, hge, hlt, hdvd⟩ := nu_regime k m d hk hd1 (by omega)
    refine ⟨rfl, ?_, ?_, ?_, ?_, ?_, ?_⟩
    · exact hnu
    · show 0 ≤ nuCode k m d
      omega
    · show nuCode k m d < d - k + 1
      omega
    · show (d - k + 1) ∣ (k + m + nuCode k m d)
      rw [hnu]; exact hdvd
    · show (k + m + nuCode k m d).tdiv (d - k + 1) = (k + m + nuCode k m d) / (d - k + 1)
      exact Int.tdiv_eq_ediv (by omega) (by omega)
    · intro hbound
      exact powInt_exact _ _ (by omega) hbound

/-- Witness for `parse_derives_parameters` at the accepted configuration
`(4, 2, 5)`. -/
theorem parse_derives_parameters_witness :
    (parse 4 2 5).err = 0 ∧
    ((parse 4 2 5).q = 5 - 4 + 1 ∧
      (parse 4 2 5).nu = nuSpec 4 2 5 ∧
      0 ≤ (parse 4 2 5).nu ∧ (parse 4 2 5).nu < (parse 4 2 5).q ∧
      (parse 4 2 5).q ∣ (4 + 2 + (parse 4 2 5).nu) ∧
      (parse 4 2 5).t = (4 + 2 + (parse 4 2 5).nu) / (parse 4 2 5).q ∧
      ((parse 4 2 5).q ^ (parse 4 2 5).t.toNat < 2 ^ 31 →
        (parse 4 2 5).subChunkNo = (parse 4 2 5).q ^ (parse 4 2 5).t.toNat)) :=
  ⟨by decide, parse_derives_parameters 4 2 5 (by decide)⟩

/-- Counterexample to claim C6 as stated: `(k, m, d) = (60, 2, 61)` is
accepted by `parse` (`q = 2`, `ν = 0`, `t = 31`), but
`sub_chunk_no = pow_int(2, 31)` overflows the 32-bit `int` and is not
`q^t = 2^31`. -/
theorem parse_subChunkNo_overflows :
    (parse 60 2 61).err = 0 ∧
    (parse 60 2 61).subChunkNo ≠
      (parse 60 2 61).q ^ (parse 60 2 61).t.toNat := by
  constructor
  · decide
  · decide

theorem planeVector_length (q t : ℕ) : ∀ z, (planeVector q t z).length = t := by
  induction t with
  | zero => intro z; rfl
  | succ t ih =>
    intro z
    show (planeVector q t _ ++ [z % q]).length = t + 1
    rw [List.length_append, ih]
    rfl

theorem sub_mod_div (q z : ℕ) (hq : 1 ≤ q) : (z - z % q) / q = z / q := by
  have h1 : z % q + q * (z / q) = z := Nat.mod_add_div z q
  have h2 : z - z % q = q * (z / q) := by omega
  rw [h2, Nat.mul_div_cancel_left _ (by omega : 0 < q)]

theorem planeVector_getD (q t : ℕ) (hq : 1 ≤ q) : ∀ z i, i < t →
    (planeVector q t z).getD i 0 = z / q ^ (t - 1 - i) % q := by
  induction t with
  | zero => intro z i hi; omega
  | succ t ih =>
    intro z i hi
    show (planeVector q t ((z - z % q) / q) ++ [z % q]).getD i 0 = _
    rw [sub_mod_div q z hq]
    by_cases hit : i < t
    · rw [List.getD_append _ _ _ _ (by rw [planeVector_length]; exact hit),
        ih (z / q) i hit, Nat.div_div_eq_div_mul, ← pow_succ']
      have : t - 1 - i + 1 = t + 1 - 1 - i := by omega
      rw [this]
    · have hit' : i = t := by omega
      subst hit'
      rw [List.getD_append_right _ _ _ _ (by rw [planeVector_length])]
      simp [planeVector_length, Nat.sub_self]

theorem digit_sum (q : ℕ) (hq : 1 ≤ q) : ∀ t z, z < q ^ t →
    ∑ i ∈ Finset.range t, (z / q ^ (t - 1 - i) % q) * q ^ (t - 1 - i) = z := by
  intro t
  induction t with
  | zero =>
    intro z hz
    rw [pow_zero] at hz
    interval_cases z
    simp
  | succ t ih =>
    intro z hz
    rw [Finset.sum_range_succ]
    have hlast : z / q ^ (t + 1 - 1 - t) % q * q ^ (t + 1 - 1 - t) = z % q := by
      simp [Nat.sub_self]
    rw [hlast]
    have hterm : ∀ i ∈ Finset.range t,
        z / q ^ (t + 1 - 1 - i) % q * q ^ (t + 1 - 1 - i) =
        q * ((z / q) / q ^ (t - 1 - i) % q * q ^ (t - 1 - i)) := by
      intro i hi
      have hi' : i < t := Finset.mem_range.mp hi
      have he : t + 1 - 1 - i = (t - 1 - i) + 1 := by omega
      rw [he, pow_succ', Nat.div_div_eq_div_mul]
      ring
    have hdiv : z / q < q ^ t :=
      Nat.div_lt_of_lt_mul (by rw [← pow_succ']; exact hz)
    rw [Finset.sum_congr rfl hterm, ← Finset.mul_sum, ih (z / q) hdiv]
    have := Nat.mod_add_div z q
    omega

/-- Claim C8 (amended): `get_plane_vector(z)` returns the base-`q` digit
vector of `z` via successive `mod q` / `div q`, stored most significant
digit first: entry `i` equals `(z div q^(t-1-i)) mod q`, so that
`z = Σᵢ z_vec[i] · q^(t-1-i)` (the original claim read entry `i` as the
digit of weight `q^i`, which the source contradicts by writing
`z_vec[t-1-i]` in iteration `i`). -/
theorem get_plane_vector_digits (q t z : ℕ) (hq : 1 ≤ q) :
    (planeVector q t z).length = t ∧
    (∀ i, i < t → (planeVector q t z).getD i 0 = z / q ^ (t - 1 - i) % q) ∧
    (z < q ^ t →
      z = ∑ i ∈ Finset.range t, (planeVector q t z).getD i 0 * q ^ (t - 1 - i)) := by
  refine ⟨planeVector_length q t z, planeVector_getD q t hq z, ?_⟩
  intro hz
  rw [Finset.sum_congr rfl (fun i hi =>
    by rw [planeVector_getD q t hq z i (Finset.mem_range.mp hi)])]
  exact (digit_sum q hq t z hz).symm

/-- Witness for `get_plane_vector_digits` at `q = 2`, `t = 3`, `z = 5`. -/
theorem get_plane_vector_digits_witness :
    1 ≤ 2 ∧
    ((planeVector 2 3 5).length = 3 ∧
      (∀ i, i < 3 → (planeVector 2 3 5).getD i 0 = 5 / 2 ^ (3 - 1 - i) % 2) ∧
      (5 < 2 ^ 3 →
        5 = ∑ i ∈ Finset.range 3, (planeVector 2 3 5).getD i 0 * 2 ^ (3 - 1 - i))) :=
  ⟨by decide, get_plane_vector_digits 2 3 5 (by decide)⟩

/-- Counterexample to claim C8 as stated: for the accepted configuration
`(4, 2, 5)` (`q = 2`, `t = 3`) and `z = 1`, the vector is `[0, 0, 1]`, but
the claim predicts entry `0` to be `(z div q^0) mod q = 1`. -/
theorem get_plane_vector_not_weight_qi :
    ¬ (∀ i, i < 3 → (planeVector 2 3 1).getD i 0 = 1 / 2 ^ i % 2) := by
  decide

/-- Within a section at most one erased node is red in a layer, so the
plane order never exceeds the number of sections the erasures touch. -/
theorem ordOf_le_maxIscore {V : Type} (c : Ctx V) (E : Finset ℕ) (z : ℕ) :
    c.ordOf E z ≤ c.maxIscore E := by
  unfold Ctx.ordOf Ctx.maxIscore
  apply Finset.card_le_card_of_injOn (fun i => i / c.q)
  · intro i hi
    exact Finset.mem_image_of_mem _ (Finset.mem_of_mem_filter i hi)
  · intro i hi j hj hij
    simp only [Finset.coe_filter, Set.mem_setOf_eq] at hi hj
    have hij' : i / c.q = j / c.q := hij
    have h1 : c.q * (i / c.q) + i % c.q = i := Nat.div_add_mod i c.q
    have h2 : c.q * (j / c.q) + j % c.q = j := Nat.div_add_mod j c.q
    rw [hij'] at h1
    have h3 : i % c.q = j % c.q := by rw [hi.2, hj.2, hij']
    omega

/-- Claim C10: the per-layer decoding order computed by
`set_planes_sequential_decoding_order` never exceeds `get_max_iscore`,
because within each `y`-section at most one node `i` can satisfy
`i % q = z_vec[i / q]`; consequently each layer matches exactly one
iteration of the `iscore` loop of `decode_layered` (the unique
`o ≤ max_iscore` with `order[z] = o`). -/
theorem order_le_max_iscore {V : Type} (c : Ctx V) (E : Finset ℕ) (z : ℕ) :
    c.ordOf E z ≤ c.maxIscore E ∧
    ∃! o, o < c.maxIscore E + 1 ∧ c.ordOf E z = o := by
  have hbound : c.ordOf E z ≤ c.maxIscore E := ordOf_le_maxIscore c E z
  refine ⟨hbound, c.ordOf E z, ⟨by omega, rfl⟩, ?_⟩
  rintro o ⟨-, rfl⟩
  rfl

theorem foldl_insert_subset {α β : Type} [DecidableEq β]
    (step : Finset β → α → Finset β) (hstep : ∀ s a, s ⊆ step s a)
    (l : List α) (s : Finset β) : s ⊆ l.foldl step s := by
  induction l generalizing s with
  | nil => exact Finset.Subset.refl s
  | cons a l ih => exact (hstep s a).trans (ih (step s a))

theorem padErasures_of_card_ge {V : Type} (c : Ctx V) (E : Finset ℕ)
    (h : c.m ≤ E.card) : c.padErasures E = E := by
  unfold Ctx.padErasures
  generalize List.range (c.n - (c.k + c.nu)) = l
  induction l generalizing E with
  | nil => rfl
  | cons a l ih =>
    simp only [List.foldl_cons, if_neg (by omega : ¬ E.card < c.m)]
    exact ih E h

theorem padErasures_subset {V : Type} (c : Ctx V) (E : Finset ℕ) :
    E ⊆ c.padErasures E :=
  foldl_insert_subset _ (fun s a => by
    by_cases h : s.card < c.m
    · simp only [h, if_true]
      exact Finset.subset_insert _ s
    · simp only [h, if_false]
      exact Finset.Subset.refl s) _ E

theorem padErasures_card {V : Type} (c : Ctx V) (E : Finset ℕ)
    (hn : c.k + c.nu + c.m = c.n) (hcard : E.card ≤ c.m) :
    (c.padErasures E).card = c.m := by
  unfold Ctx.padErasures
  have hlen : c.n - (c.k + c.nu) = c.m := by omega
  rw [hlen]
  -- invariant: after processing the padding ids `k+nu+j` for `j < i`, the
  -- accumulated set either is `E ∪ {those ids}` or already has `m` members
  suffices h : ∀ i ≤ c.m,
      ((List.range i).foldl
        (fun S j => if S.card < c.m then insert (c.k + c.nu + j) S else S) E).card ≤ c.m ∧
      (((List.range i).foldl
        (fun S j => if S.card < c.m then insert (c.k + c.nu + j) S else S) E) =
        E ∪ (Finset.range i).image (fun j => c.k + c.nu + j) ∨
       ((List.range i).foldl
        (fun S j => if S.card < c.m then insert (c.k + c.nu + j) S else S) E).card = c.m) by
    obtain ⟨hle, hcases⟩ := h c.m le_rfl
    rcases hcases with heq | hm
    · rw [heq] at hle ⊢
      have himg : ((Finset.range c.m).image (fun j => c.k + c.nu + j)).card = c.m := by
        rw [Finset.card_image_of_injective _ (fun a b hab => by omega)]
        exact Finset.card_range c.m
      have hsub : (Finset.range c.m).image (fun j => c.k + c.nu + j) ⊆
          E ∪ (Finset.range c.m).image (fun j => c.k + c.nu + j) :=
        Finset.subset_union_right
      -- the union contains the m fresh padding ids, so its card is exactly m
      have h1 : c.m ≤ (E ∪ (Finset.range c.m).image (fun j => c.k + c.nu + j)).card := by
        calc c.m = ((Finset.range c.m).image (fun j => c.k + c.nu + j)).card := himg.symm
          _ ≤ _ := Finset.card_le_card hsub
      omega
    · exact hm
  intro i hi
  induction i with
  | zero =>
    refine ⟨by simpa using hcard, Or.inl ?_⟩
    simp
  | succ i ih =>
    obtain ⟨hle, hcases⟩ := ih (by omega)
    rw [List.range_succ, List.foldl_append, List.foldl_cons, List.foldl_nil]
    set S := (List.range i).foldl
      (fun S j => if S.card < c.m then insert (c.k + c.nu + j) S else S) E with hS
    by_cases hcard' : S.card < c.m
    · rw [if_pos hcard']
      constructor
      · have := Finset.card_insert_le (c.k + c.nu + i) S
        omega
      · rcases hcases with heq | hm
        · left
          rw [heq, Finset.range_succ, Finset.image_insert]
          ext x
          simp only [Finset.mem_insert, Finset.mem_union, Finset.mem_image,
            Finset.mem_range]
          tauto
        · omega
    · rw [if_neg hcard']
      exact ⟨hle, Or.inr (by omega)⟩

/-- Claim C5: for `|E| = m+1`, `decode_layered` hits
`assert(num_erasures == m)` and the process aborts (`none`), rather than
returning an `InsufficientChunks` error value; for `1 ≤ |E| ≤ m` the
asserts pass and the run proceeds. -/
theorem decode_layered_asserts {V : Type} [Zero V] (c : Ctx V)
    (hn : c.k + c.nu + c.m = c.n) (E : Finset ℕ) (s : St V) :
    (E.card = c.m + 1 → c.decodeLayered E s = none) ∧
    (1 ≤ E.card → E.card ≤ c.m → (c.decodeLayered E s).isSome = true) := by
  constructor
  · intro hcard
    unfold Ctx.decodeLayered
    rw [if_neg (by omega), padErasures_of_card_ge c E (by omega)]
    rw [if_neg (by omega)]
  · intro h1 h2
    unfold Ctx.decodeLayered
    rw [if_neg (by omega), if_pos (padErasures_card c E hn h2)]
    rfl

/-- Witness for `decode_layered_asserts`: the `(k=4, m=2, d=5)`
configuration of the repository's api_test with erasures `{1, 4, 5}`
(3 = m+1 missing chunks) aborts, while `{1, 4}` proceeds. -/
theorem decode_layered_asserts_witness :
    (4 + 0 + 2 = (Ctx.zeroCtx 2 3 4 2 0).n) ∧
    (({1, 4, 5} : Finset ℕ).card = 2 + 1) ∧
    (Ctx.zeroCtx 2 3 4 2 0).decodeLayered
      {1, 4, 5} ⟨fun _ _ => 0, fun _ _ => 0⟩ = none :=
  ⟨by decide, by decide,
    (decode_layered_asserts _ (by decide) {1, 4, 5} _).1 (by decide)⟩

theorem getUncFromCoup_Cs {V : Type} (c : Ctx V) (x y z : ℕ) (s : St V) :
    (c.getUncFromCoup x y z s).Cs = s.Cs := rfl

theorem decodeUncoupled_Cs {V : Type} (c : Ctx V) (E : Finset ℕ) (z : ℕ)
    (s : St V) : (c.decodeUncoupled E z s).Cs = s.Cs := rfl

theorem deBody_Cs {V : Type} (c : Ctx V) (E : Finset ℕ) (z x y : ℕ) (s : St V) :
    (c.deBody E z x y s).Cs = s.Cs := by
  unfold Ctx.deBody
  by_cases hmem : c.q * y + x ∈ E
  · simp only [hmem, if_true]
  · simp only [hmem, if_false]
    split_ifs <;> rfl

theorem foldl_Cs {V : Type} (step : St V → ℕ → St V)
    (h : ∀ s a, (step s a).Cs = s.Cs) :
    ∀ (l : List ℕ) (s : St V), (l.foldl step s).Cs = s.Cs := by
  intro l
  induction l with
  | nil => intro s; rfl
  | cons a l ih => intro s; rw [List.foldl_cons, ih, h]

theorem decodeErasures_Cs {V : Type} (c : Ctx V) (E : Finset ℕ) (z : ℕ)
    (s : St V) : (c.decodeErasures E z s).Cs = s.Cs := by
  unfold Ctx.decodeErasures
  rw [decodeUncoupled_Cs]
  rw [foldl_Cs _ (fun s x => foldl_Cs _ (fun s y => deBody_Cs c E z x y s) _ s)]

theorem node_decomp (q i : ℕ) : i / q * q + i % q = i := by
  conv_lhs => rw [Nat.mul_comm]
  exact Nat.div_add_mod i q

/-- The coupled-recovery body writes `C` only at erased node ids. -/
theorem recBody_Cs_offE {V : Type} [Zero V] (c : Ctx V) (E : Finset ℕ)
    (z i : ℕ) (hi : i ∈ E) (s : St V) (i' : ℕ) (hi' : i' ∉ E) (z' : ℕ) :
    (c.recBody E z i s).Cs i' z' = s.Cs i' z' := by
  have hii' : i' ≠ i := fun h => hi' (h ▸ hi)
  have hnode : i / c.q * c.q + i % c.q = i := node_decomp c.q i
  simp only [Ctx.recBody, Ctx.recoverType1, Ctx.getCoupFromUnc]
  by_cases hd : c.dg z (i / c.q) ≠ i % c.q
  · rw [if_pos hd]
    by_cases hsw : i / c.q * c.q + c.dg z (i / c.q) ∉ E
    · rw [if_pos hsw]
      -- type-1: writes `C[node_xy, z]` with `node_xy = i`
      show (if i' = i / c.q * c.q + i % c.q ∧ z' = z then _ else s.Cs i' z') =
        s.Cs i' z'
      rw [if_neg (by rw [hnode]; tauto)]
    · rw [if_neg hsw]
      push_neg at hsw
      by_cases hlt : c.dg z (i / c.q) < i % c.q
      · rw [if_pos hlt]
        -- pair of erased nodes: writes `C` at `i` and at the erased companion
        show (if i' = i / c.q * c.q + c.dg z (i / c.q) ∧
              z' = c.zw z (i % c.q) (i / c.q) then _ else
            if i' = i / c.q * c.q + i % c.q ∧ z' = z then _ else s.Cs i' z') =
          s.Cs i' z'
        rw [if_neg (by rintro ⟨he, -⟩; exact hi' (he ▸ hsw)),
          if_neg (by rw [hnode]; tauto)]
      · rw [if_neg hlt]
  · rw [if_neg hd]
    -- red vertex: writes `C[i, z]`
    show (if i' = i ∧ z' = z then _ else s.Cs i' z') = s.Cs i' z'
    rw [if_neg (by tauto)]

theorem foldl_rec_Cs_offE {V : Type} [Zero V] (c : Ctx V) (E : Finset ℕ)
    (z : ℕ) (l : List ℕ) (hl : ∀ i ∈ l, i ∈ E) (s : St V) (i' : ℕ)
    (hi' : i' ∉ E) (z' : ℕ) :
    ((l.foldl (fun s i => c.recBody E z i s) s)).Cs i' z' = s.Cs i' z' := by
  induction l generalizing s with
  | nil => rfl
  | cons a l ih =>
    rw [List.foldl_cons, ih (fun i hi => hl i (List.mem_cons_of_mem a hi))]
    exact recBody_Cs_offE c E z a (hl a (List.mem_cons_self a l)) s i' hi' z'

/-- `decode_layered`'s main loop writes coupled values only at erased node
ids: the `C` entries of every non-erased node are untouched. -/
theorem decodeLayeredRun_Cs_offE {V : Type} [Zero V] (c : Ctx V)
    (E : Finset ℕ) (s : St V) (i' : ℕ) (hi' : i' ∉ E) (z' : ℕ) :
    (c.decodeLayeredRun E s).Cs i' z' = s.Cs i' z' := by
  unfold Ctx.decodeLayeredRun
  generalize List.range (c.maxIscore E + 1) = rounds
  induction rounds generalizing s with
  | nil => rfl
  | cons o rounds ih =>
    rw [List.foldl_cons, ih]
    simp only [Ctx.roundStep]
    generalize c.layersOf E o = L
    have hpass2 : ∀ s1 : St V, ((L.foldl (fun s z =>
        (E.sort (· ≤ ·)).foldl (fun s i => c.recBody E z i s) s) s1)).Cs i' z' =
        s1.Cs i' z' := by
      intro s1
      induction L generalizing s1 with
      | nil => rfl
      | cons zl L ihL =>
        rw [List.foldl_cons, ihL]
        exact foldl_rec_Cs_offE c E zl _
          (fun i hi => (Finset.mem_sort (α := ℕ) (· ≤ ·)).mp hi) s1 i' hi' z'
    rw [hpass2, foldl_Cs _ (fun s z => decodeErasures_Cs c E z s) L s]

theorem parityIds_card {V : Type} (c : Ctx V) : c.parityIds.card = c.m := by
  unfold Ctx.parityIds
  rw [Finset.card_image_of_injective _ (fun a b hab => by omega)]
  exact Finset.card_range c.m

theorem parityIds_ge {V : Type} (c : Ctx V) :
    ∀ j ∈ c.parityIds, c.k + c.nu ≤ j := by
  intro j hj
  obtain ⟨j', -, rfl⟩ := Finset.mem_image.mp hj
  omega

/-- Claim C9: an encode invocation writes only the parity chunk buffers.
The erased set handed to `decode_layered` is the parity ids, all
`≥ k + ν`; the run writes coupled values only at erased ids
(`decodeLayeredRun_Cs_offE`), so every data chunk `i < k` (and every
shortened buffer) is byte-for-byte unchanged on return. -/
theorem encode_writes_only_parity {V : Type} [Zero V] (c : Ctx V)
    (hm : 1 ≤ c.m) (inp U0 : ℕ → ℕ → V) :
    (∀ j ∈ c.parityIds, c.k + c.nu ≤ j) ∧
    ∃ st, c.encodeChunks inp U0 = some st ∧
      (∀ i, i ∉ c.parityIds → ∀ z, st.Cs i z =
        (if i < c.k then inp i z
         else if i < c.k + c.nu then 0 else inp (i - c.nu) z)) ∧
      (∀ i, i < c.k → ∀ z, st.Cs i z = inp i z) := by
  refine ⟨parityIds_ge c, ?_⟩
  have hcard := parityIds_card c
  have hpad : c.padErasures c.parityIds = c.parityIds :=
    padErasures_of_card_ge c _ (by omega)
  unfold Ctx.encodeChunks Ctx.decodeLayered
  rw [if_neg (by omega), hpad, if_pos hcard]
  refine ⟨_, rfl, ?_, ?_⟩
  · intro i hi z
    exact decodeLayeredRun_Cs_offE c c.parityIds _ i hi z
  · intro i hik z
    have hi : i ∉ c.parityIds := fun hmem => by
      have := parityIds_ge c i hmem
      omega
    rw [decodeLayeredRun_Cs_offE c c.parityIds _ i hi z]
    show (if i < c.k then inp i z else _) = inp i z
    rw [if_pos hik]

/-- Witness for `encode_writes_only_parity` at the `(4, 2, 5)`
configuration. -/
theorem encode_writes_only_parity_witness :
    1 ≤ (Ctx.zeroCtx 2 3 4 2 0).m ∧
    ((∀ j ∈ (Ctx.zeroCtx 2 3 4 2 0).parityIds, 4 + 0 ≤ j) ∧
      ∃ st, (Ctx.zeroCtx 2 3 4 2 0).encodeChunks
          (fun i z => (i * 8 + z : Int)) (fun _ _ => 0) = some st ∧
        (∀ i, i ∉ (Ctx.zeroCtx 2 3 4 2 0).parityIds → ∀ z, st.Cs i z =
          (if i < 4 then (i * 8 + z : Int)
           else if i < 4 + 0 then 0 else (i - 0) * 8 + z)) ∧
        (∀ i, i < 4 → ∀ z, st.Cs i z = i * 8 + z)) :=
  ⟨by decide, encode_writes_only_parity _ (by decide) _ _⟩

/-- If the order-1 plane bucket is already empty, the order loop of
`repair_one_lost_chunk` breaks before processing any plane and the
zero-initialised recovered buffer is returned untouched. -/
theorem Ctx.repairOneLost_of_gap_one {V : Type} [Zero V] (c : Ctx V)
    (lost : ℕ) (A : Finset ℕ) (hl U0 : ℕ → ℕ → V)
    (h : c.firstGapR lost A = 1) :
    (c.repairOneLost lost A hl U0).Cs = fun _ _ => 0 := by
  unfold Ctx.repairOneLost
  rw [h]
  rfl

/-- Claim C2 fails on the code: for `(k, m, d) = (2, 4, 3)` (`q = 2`,
`t = 3`, `ν = 0`) with node 0 lost, `is_repair` accepts the pattern and
`minimum_to_repair` selects helpers `{1, 2, 3}`, leaving `{4, 5}` — the
whole last `y`-section — aloof.  Every repair plane then has order 2 (the
lost node's red vertex plus one aloof red vertex), the order-1 bucket is
empty, and the order loop of `repair_one_lost_chunk`
(src/src/ErasureCodeClay.cc:443-446) breaks immediately: the function
returns success with the zero-initialised output buffer untouched,
whatever the helper data, the `U` buffer, or the codecs are — not the
original chunk. -/
theorem repair_breaks_on_order_gap :
    (Cfg.isRepair ⟨2, 4, 3, 2, 3, 0⟩ {0} {1, 2, 3} = true) ∧
    ((Cfg.minimumToRepair ⟨2, 4, 3, 2, 3, 0⟩ {0} {1, 2, 3, 4, 5}).map
      (fun p => (ascList p.1, p.2)) = some ([1, 2, 3], [(0, 4)])) ∧
    ∀ c : Ctx Int, c.q = 2 → c.t = 3 → c.k = 2 → c.m = 4 → c.nu = 0 →
      ∀ hl U0 : ℕ → ℕ → Int,
        c.planesOfOrdR 0 {4, 5} 1 = [] ∧
        (c.repairFn {0} {1, 2, 3} hl U0).Cs 0 = fun _ => 0 := by
  refine ⟨by decide, by decide, ?_⟩
  intro c hq ht hk hm hnu hl U0
  constructor
  · unfold Ctx.planesOfOrdR Ctx.repairPlanes Ctx.ordR Ctx.dg
    simp only [hq, ht]
    decide
  · simp only [Ctx.repairFn]
    rw [Ctx.repairOneLost_of_gap_one]
    · unfold Ctx.firstGapR Ctx.planesOfOrdR Ctx.repairPlanes Ctx.ordR
        Ctx.dg Ctx.logicalOf
      simp only [hq, ht, hk, hm, hnu]
      decide

/-- Witness for `repair_breaks_on_order_gap`: the universally quantified
part instantiated at a concrete context with concrete helper data. -/
theorem repair_breaks_on_order_gap_witness :
    (Ctx.zeroCtx 2 3 2 4 0).planesOfOrdR 0 {4, 5} 1 = [] ∧
    ((Ctx.zeroCtx 2 3 2 4 0).repairFn {0} {1, 2, 3}
        (fun i p => (i * 100 + p : Int)) (fun i z => (i * 8 + z : Int))).Cs 0 =
      fun _ => 0 :=
  repair_breaks_on_order_gap.2.2 (Ctx.zeroCtx 2 3 2 4 0) rfl rfl rfl rfl rfl _ _

/-- Claim C3's three conditions are not sufficient: at `(k, m, d) = (4, 2, 5)`
with `want = {0}` and every chunk available, conditions (a), (b), (c) all
hold, yet `is_repair` returns false because the `std::includes` test
(`want_to_read ⊆ available_chunks`) fires first
(src/src/ErasureCodeClay.cc:228-231). -/
theorem is_repair_subset_counterexample :
    Cfg.specRepairable ⟨4, 2, 5, 2, 3, 0⟩ {0} {0, 1, 2, 3, 4, 5} = true ∧
    Cfg.isRepair ⟨4, 2, 5, 2, 3, 0⟩ {0} {0, 1, 2, 3, 4, 5} = false :=
  ⟨by decide, by decide⟩

/-- Claim C3, amended: `is_repair` returns true iff additionally the wanted
chunk is itself unavailable (`¬ want ⊆ avail`); under that extra condition
the wanted set is nonempty, so condition (a) is `card = 1` exactly as the
claim says, and (b), (c) are as claimed
(src/src/ErasureCodeClay.cc:226-252). -/
theorem is_repair_iff (c : Cfg) (want avail : Finset Int) :
    c.isRepair want avail = true ↔
      ¬ want ⊆ avail ∧ want.card = 1 ∧
      (∀ x ∈ Finset.range c.q.toNat,
        c.sectionPhys (c.toLogical (want.min.untop' 0)) x = want.min.untop' 0 ∨
        c.sectionPhys (c.toLogical (want.min.untop' 0)) x ∈ avail) ∧
      c.d ≤ avail.card := by
  unfold Cfg.isRepair
  by_cases h1 : want ⊆ avail
  · rw [if_pos h1]
    simp only [Bool.false_eq_true, false_iff]
    rintro ⟨ha, -⟩
    exact ha h1
  · rw [if_neg h1]
    by_cases h2 : 1 < want.card
    · rw [if_pos h2]
      simp only [Bool.false_eq_true, false_iff]
      rintro ⟨-, hc, -⟩
      omega
    · rw [if_neg h2]
      simp only []
      by_cases h3 : ∀ x ∈ Finset.range c.q.toNat,
          c.sectionPhys (c.toLogical (want.min.untop' 0)) x =
            want.min.untop' 0 ∨
          c.sectionPhys (c.toLogical (want.min.untop' 0)) x ∈ avail
      · rw [if_pos h3]
        simp only [decide_eq_true_eq]
        have hne : want.Nonempty := Finset.nonempty_iff_ne_empty.mpr (by
          intro he
          rw [he] at h1
          exact h1 (Finset.empty_subset avail))
        have hcard : want.card = 1 := by
          have := Finset.card_pos.mpr hne
          omega
        exact ⟨fun hd => ⟨h1, hcard, h3, hd⟩, fun h => h.2.2.2⟩
      · rw [if_neg h3]
        simp only [Bool.false_eq_true, false_iff]
        rintro ⟨-, -, hcomp, -⟩
        exact h3 hcomp

/-! ### `minimum_to_repair` (claim C4): fold and list lemmas -/

/-- The `(index, count)` run list in closed form. -/
theorem repairRuns_eq (s st : Int) (n : ℕ) : ∀ idx : Int,
    repairRuns idx s st n =
      (List.range n).map (fun (j : ℕ) => (idx + (j : Int) * st, s)) := by
  induction n with
  | zero => intro idx; rfl
  | succ n ih =>
    intro idx
    rw [List.range_succ_eq_map]
    show (idx, s) :: repairRuns (idx + st) s st n = _
    rw [ih (idx + st)]
    simp only [List.map_cons, List.map_map, Nat.cast_zero, zero_mul, add_zero]
    congr 1
    apply List.map_congr_left
    intro j hj
    simp only [Function.comp_apply]
    have : idx + st + (j : Int) * st = idx + ((j : ℕ) + 1 : ℕ) * st := by
      push_cast
      ring
    rw [this]

/-- Every member of a finite set appears in its ascending enumeration. -/
theorem ascListAux_mem (fuel : ℕ) : ∀ (s : Finset Int), s.card ≤ fuel →
    ∀ a ∈ s, a ∈ ascListAux fuel s := by
  induction fuel with
  | zero =>
    intro s hs a ha
    have := Finset.card_pos.mpr ⟨a, ha⟩
    omega
  | succ fuel ih =>
    intro s hs a ha
    unfold ascListAux
    rcases hmin : s.min with - | b
    · exact absurd (Finset.min_eq_top.mp hmin ▸ ha) (Finset.not_mem_empty a)
    · by_cases hab : a = b
      · exact hab ▸ List.mem_cons_self b _
      · refine List.mem_cons_of_mem b (ih (s.erase b) ?_ a
          (Finset.mem_erase.mpr ⟨hab, ha⟩))
        have hb : b ∈ s := Finset.mem_of_min hmin
        have := Finset.card_erase_of_mem hb
        omega

theorem ascList_mem (s : Finset Int) (a : Int) (ha : a ∈ s) :
    a ∈ ascList s := ascListAux_mem s.card s le_rfl a ha

/-- Once the set has `d` members the fill loop inserts nothing more. -/
theorem fill_stop (d : Int) (l : List Int) : ∀ s : Finset Int,
    d ≤ (s.card : Int) → l.foldl (fillStep d) s = s := by
  induction l with
  | nil => intro s _; rfl
  | cons a l ih =>
    intro s hs
    show l.foldl (fillStep d) (fillStep d s a) = s
    rw [fillStep, if_pos hs]
    exact ih s hs

theorem fillStep_subset (d : Int) (s : Finset Int) (a : Int) :
    s ⊆ fillStep d s a := by
  unfold fillStep
  split_ifs
  · exact Finset.Subset.refl s
  · exact Finset.Subset.refl s
  · exact Finset.subset_insert a s

theorem fill_subset (d : Int) (l : List Int) (s : Finset Int) :
    s ⊆ l.foldl (fillStep d) s :=
  foldl_insert_subset (fillStep d) (fillStep_subset d) l s

/-- The fill loop never pushes the cardinality beyond `d`. -/
theorem fill_card_le (d : Int) (l : List Int) : ∀ s : Finset Int,
    (s.card : Int) ≤ d → ((l.foldl (fillStep d) s).card : Int) ≤ d := by
  induction l with
  | nil => intro s hs; exact hs
  | cons a l ih =>
    intro s hs
    show ((l.foldl (fillStep d) (fillStep d s a)).card : Int) ≤ d
    refine ih (fillStep d s a) ?_
    unfold fillStep
    split_ifs with h1 h2
    · exact hs
    · exact hs
    · have := Finset.card_insert_le a s
      push_cast at h1
      omega

/-- If the fill loop ends below `d` members, it has swallowed the whole
list. -/
theorem fill_mem_of_lt (d : Int) (l : List Int) : ∀ s : Finset Int,
    ((l.foldl (fillStep d) s).card : Int) < d →
    ∀ a ∈ l, a ∈ l.foldl (fillStep d) s := by
  induction l with
  | nil => intro s _ a ha; cases ha
  | cons b l ih =>
    intro s hcard a ha
    have hlt : ¬ d ≤ (s.card : Int) := by
      intro hge
      rw [show (b :: l).foldl (fillStep d) s = l.foldl (fillStep d) (fillStep d s b)
        from rfl, fillStep, if_pos hge, fill_stop d l s hge] at hcard
      omega
    rcases List.mem_cons.mp ha with h | h
    · subst h
      show a ∈ l.foldl (fillStep d) (fillStep d s a)
      refine fill_subset d l (fillStep d s a) ?_
      rw [fillStep, if_neg hlt]
      split_ifs with h2
      · exact h2
      · exact Finset.mem_insert_self a s
    · exact ih (fillStep d s b) hcard a h

/-- A fold whose step inserts at most one element grows the cardinality by
at most the list length. -/
theorem foldl_card_growth {α : Type} (step : Finset Int → α → Finset Int)
    (hstep : ∀ s a, (step s a).card ≤ s.card + 1) (l : List α) :
    ∀ s : Finset Int, (l.foldl step s).card ≤ s.card + l.length := by
  induction l with
  | nil => intro s; simp
  | cons a l ih =>
    intro s
    have h1 := ih (step s a)
    have h2 := hstep s a
    simp only [List.foldl_cons, List.length_cons]
    omega

/-- Decomposition of a remainder modulo `s*q` into the digit of weight `s`
and the remainder modulo `s`. -/
theorem mod_mul_decomp (s q z : ℕ) : z % (s * q) = s * (z / s % q) + z % s := by
  conv_lhs => rw [← Nat.div_add_mod (z % (s * q)) s]
  rw [Nat.mod_mul_right_div_self, Nat.mod_mod_of_dvd z ⟨q, rfl⟩]

/-- Every `z` splits into the part above weight `s*q`, the digit of weight
`s`, and the part below `s`. -/
theorem div_mod_decomp (s q z : ℕ) :
    z = s * q * (z / (s * q)) + s * (z / s % q) + z % s := by
  conv_lhs => rw [← Nat.div_add_mod z (s * q)]
  rw [mod_mul_decomp s q z]
  ring

/-- Dividing a run member by the run width isolates `i*q + x`. -/
theorem comp_div (sv q i x cc : ℕ) (hs0 : 0 < sv) (hc : cc < sv) :
    (i * (q * sv) + x * sv + cc) / sv = i * q + x := by
  rw [show i * (q * sv) + x * sv + cc = cc + (i * q + x) * sv by ring]
  rw [Nat.add_mul_div_right cc (i * q + x) hs0, Nat.div_eq_of_lt hc, zero_add]

/-- A run member's remainder below the run width is its offset inside the
run. -/
theorem comp_mod (sv q i x cc : ℕ) (hc : cc < sv) :
    (i * (q * sv) + x * sv + cc) % sv = cc := by
  rw [show i * (q * sv) + x * sv + cc = cc + (i * q + x) * sv by ring]
  rw [Nat.add_mul_mod_self_right, Nat.mod_eq_of_lt hc]

/-- Dividing a run member by the stride recovers the run number. -/
theorem comp_divq (sv q i x cc : ℕ) (hs0 : 0 < sv) (hc : cc < sv)
    (hx : x < q) :
    (i * (q * sv) + x * sv + cc) / (sv * q) = i := by
  rw [show i * (q * sv) + x * sv + cc = (x * sv + cc) + i * (sv * q) by ring]
  have hlt : x * sv + cc < sv * q := by
    have h2 : (x + 1) * sv ≤ q * sv := Nat.mul_le_mul_right sv (by omega)
    have h3 : (x + 1) * sv = x * sv + sv := by ring
    have h4 : q * sv = sv * q := by ring
    omega
  rw [Nat.add_mul_div_right _ _ (Nat.mul_pos hs0 (by omega)),
    Nat.div_eq_of_lt hlt, zero_add]

/-- The digit of a run member at the run's weight is `x`. -/
theorem comp_dig (sv q i x cc : ℕ) (hs0 : 0 < sv) (hc : cc < sv)
    (hx : x < q) :
    (i * (q * sv) + x * sv + cc) / sv % q = x := by
  rw [comp_div sv q i x cc hs0 hc, add_comm, Nat.add_mul_mod_self_right,
    Nat.mod_eq_of_lt hx]

/-- The layers covered by the `get_repair_subchunks` runs are exactly those
whose digit of weight `q^(t-1-y)` is `x` (claim C4's coverage clause, at
the natural-number level). -/
theorem run_coverage (q t y x z : ℕ) (hq : 1 ≤ q) (ht : 1 ≤ t)
    (hy : y ≤ t - 1) (hx : x < q) (hz : z < q ^ t) :
    (∃ i, i < q ^ y ∧
      x * q ^ (t - 1 - y) + i * (q * q ^ (t - 1 - y)) ≤ z ∧
      z < x * q ^ (t - 1 - y) + i * (q * q ^ (t - 1 - y)) + q ^ (t - 1 - y)) ↔
    dig q t z y = x := by
  have hs0 : 0 < q ^ (t - 1 - y) := pow_pos (by omega) _
  set sv := q ^ (t - 1 - y) with hsv
  have hpow : q ^ t = q ^ y * (sv * q) := by
    rw [hsv, mul_comm sv q, ← pow_succ', ← pow_add]
    congr 1
    omega
  constructor
  · rintro ⟨i, hi, hlo, hhi⟩
    have hc : z - (x * sv + i * (q * sv)) < sv := by omega
    have hzz : z = i * (q * sv) + x * sv + (z - (x * sv + i * (q * sv))) := by
      omega
    unfold dig
    rw [← hsv, hzz]
    exact comp_dig sv q i x _ hs0 hc hx
  · intro hdig
    unfold dig at hdig
    rw [← hsv] at hdig
    have hdc := div_mod_decomp sv q z
    rw [hdig] at hdc
    refine ⟨z / (sv * q), ?_, ?_, ?_⟩
    · rw [Nat.div_lt_iff_lt_mul (by positivity)]
      calc z < q ^ t := hz
        _ = q ^ y * (sv * q) := hpow
    · have e1 : z / (sv * q) * (q * sv) = sv * q * (z / (sv * q)) := by ring
      have e2 : sv * x = x * sv := by ring
      omega
    · have e1 : z / (sv * q) * (q * sv) = sv * q * (z / (sv * q)) := by ring
      have e2 : sv * x = x * sv := by ring
      have e3 : z % sv < sv := Nat.mod_lt z hs0
      omega

/-- Exactly `q^(t-1)` of the `q^t` layers have digit `x` at weight
`q^(t-1-y)` (claim C4's count clause, at the natural-number level). -/
theorem digit_count (q t y x : ℕ) (hq : 1 ≤ q) (ht : 1 ≤ t)
    (hy : y ≤ t - 1) (hx : x < q) :
    ((Finset.range (q ^ t)).filter (fun z => dig q t z y = x)).card =
      q ^ (t - 1) := by
  have hs0 : 0 < q ^ (t - 1 - y) := pow_pos (by omega) _
  set sv := q ^ (t - 1 - y) with hsv
  have hpow : q ^ t = q ^ y * (sv * q) := by
    rw [hsv, mul_comm sv q, ← pow_succ', ← pow_add]
    congr 1
    omega
  have hcard : (Finset.range (q ^ y) ×ˢ Finset.range sv).card = q ^ (t - 1) := by
    rw [Finset.card_product, Finset.card_range, Finset.card_range, hsv,
      ← pow_add]
    congr 1
    omega
  rw [← hcard]
  apply Finset.card_bij' (fun z _ => (z / (sv * q), z % sv))
    (fun p _ => p.1 * (q * sv) + x * sv + p.2)
  · intro z hzf
    rw [Finset.mem_filter, Finset.mem_range] at hzf
    obtain ⟨hz, hdig⟩ := hzf
    rw [Finset.mem_product, Finset.mem_range, Finset.mem_range]
    constructor
    · rw [Nat.div_lt_iff_lt_mul (by positivity)]
      calc z < q ^ t := hz
        _ = q ^ y * (sv * q) := hpow
    · exact Nat.mod_lt z hs0
  · intro p hp
    rw [Finset.mem_product, Finset.mem_range, Finset.mem_range] at hp
    obtain ⟨h1, h2⟩ := hp
    rw [Finset.mem_filter, Finset.mem_range]
    constructor
    · have e1 : (p.1 + 1) * (q * sv) ≤ q ^ y * (q * sv) :=
        Nat.mul_le_mul_right _ (by omega)
      have e2 : (p.1 + 1) * (q * sv) = p.1 * (q * sv) + q * sv := by ring
      have e3 : (x + 1) * sv ≤ q * sv := Nat.mul_le_mul_right sv (by omega)
      have e4 : (x + 1) * sv = x * sv + sv := by ring
      have e5 : q ^ y * (sv * q) = q ^ y * (q * sv) := by ring
      omega
    · unfold dig
      rw [← hsv]
      exact comp_dig sv q p.1 x p.2 hs0 h2 hx
  · intro z hzf
    rw [Finset.mem_filter, Finset.mem_range] at hzf
    obtain ⟨hz, hdig⟩ := hzf
    unfold dig at hdig
    rw [← hsv] at hdig
    have hdc := div_mod_decomp sv q z
    rw [hdig] at hdc
    show z / (sv * q) * (q * sv) + x * sv + z % sv = z
    have e1 : z / (sv * q) * (q * sv) = sv * q * (z / (sv * q)) := by ring
    have e2 : sv * x = x * sv := by ring
    omega
  · intro p hp
    rw [Finset.mem_product, Finset.mem_range, Finset.mem_range] at hp
    obtain ⟨h1, h2⟩ := hp
    have ha := comp_divq sv q p.1 x p.2 hs0 h2 hx
    have hb := comp_mod sv q p.1 x p.2 h2
    rw [ha, hb]

/-- Elements placed by some step of a monotone fold survive to the end. -/
theorem foldl_mem_of_mem {α : Type} (step : Finset Int → α → Finset Int)
    (hmono : ∀ s a, s ⊆ step s a) (l : List α) (j : α) (x : Int)
    (hx : ∀ s, x ∈ step s j) : ∀ s : Finset Int, j ∈ l →
    x ∈ l.foldl step s := by
  induction l with
  | nil => intro s hj; cases hj
  | cons a l ih =>
    intro s hj
    rcases List.mem_cons.mp hj with h | h
    · subst h
      exact foldl_insert_subset step hmono l (step s j) (hx s)
    · exact ih (step s a) h

/-- Numeric facts a valid configuration provides: positive `q` and `t`,
`0 ≤ ν < q`, and the defining identity `q·t = k+m+ν`. -/
theorem Cfg.valid_facts (c : Cfg) (hv : c.Valid) :
    1 ≤ c.q ∧ 1 ≤ c.t ∧ 0 ≤ c.nu ∧ c.nu < c.q ∧
    c.q * c.t = c.k + c.m + c.nu := by
  obtain ⟨hk, hm, hkd, hdm, hq, hnu, hb, ht⟩ := hv
  have hq1 : 1 ≤ c.q := by omega
  have hn : (0 : Int) ≤ c.k + c.m := by omega
  have htm : (c.k + c.m).tmod c.q = (c.k + c.m) % c.q :=
    Int.tmod_eq_emod hn (by omega)
  have hr0 : 0 ≤ (c.k + c.m) % c.q := Int.emod_nonneg _ (by omega)
  have hr1 : (c.k + c.m) % c.q < c.q := Int.emod_lt_of_pos _ (by omega)
  have hsplit : c.q * ((c.k + c.m) / c.q) + (c.k + c.m) % c.q = c.k + c.m :=
    Int.ediv_add_emod _ _
  rw [htm] at hnu
  have hnub : 0 ≤ c.nu ∧ c.nu < c.q := by
    by_cases hr : (c.k + c.m) % c.q = 0
    · rw [hnu]
      simp only [hr, ne_eq, not_true_eq_false, if_false]
      omega
    · rw [hnu]
      simp only [ne_eq, hr, not_false_eq_true, if_true]
      omega
  have hdvd : c.q ∣ (c.k + c.m + c.nu) := by
    by_cases hr : (c.k + c.m) % c.q = 0
    · rw [hnu]
      simp only [hr, ne_eq, not_true_eq_false, if_false, add_zero]
      exact ⟨(c.k + c.m) / c.q, by omega⟩
    · rw [hnu]
      simp only [ne_eq, hr, not_false_eq_true, if_true]
      refine ⟨(c.k + c.m) / c.q + 1, ?_⟩
      have hd1 : c.q * ((c.k + c.m) / c.q + 1) =
          c.q * ((c.k + c.m) / c.q) + c.q := by ring
      omega
  have hnn : (0 : Int) ≤ c.k + c.m + c.nu := by omega
  have htd : (c.k + c.m + c.nu).tdiv c.q = (c.k + c.m + c.nu) / c.q :=
    Int.tdiv_eq_ediv hnn (by omega)
  have hqt : c.q * c.t = c.k + c.m + c.nu := by
    rw [ht, htd, mul_comm]
    exact Int.ediv_mul_cancel hdvd
  have ht1 : 1 ≤ c.t := by
    by_contra hle
    have h0 : c.t ≤ 0 := by omega
    have := mul_nonpos_of_nonneg_of_nonpos (by omega : (0 : Int) ≤ c.q) h0
    omega
  exact ⟨hq1, ht1, hnub.1, hnub.2, hqt⟩

/-- The physical-to-logical remap on a natural physical id. -/
theorem toLogical_natCast (c : Cfg) (kN nuN fN lostN : ℕ)
    (hkc : c.k = (kN : Int)) (hnuc : c.nu = (nuN : Int))
    (hlost : lostN = if fN < kN then fN else fN + nuN) :
    c.toLogical (fN : Int) = (lostN : Int) := by
  unfold Cfg.toLogical
  rw [hkc, hlost]
  by_cases hfk : fN < kN
  · rw [if_pos (by exact_mod_cast hfk), if_pos hfk]
  · rw [if_neg (by exact_mod_cast hfk), if_neg hfk, hnuc]
    push_cast
    ring

/-- In the no-overflow regime `get_repair_subchunks` produces exactly the
claimed run list: `q^(y_lost)` pairs `(x_lost·seq + i·q·seq, seq)` with
`seq = q^(t-1-y_lost)`. -/
theorem getRepairSubchunks_eq (c : Cfg) (qN tN lostN yN xN sN : ℕ)
    (hqc : c.q = (qN : Int)) (htc : c.t = (tN : Int))
    (hq1 : 1 ≤ qN) (ht1 : 1 ≤ tN) (hyle : yN ≤ tN - 1)
    (hreg : qN ^ tN < 2 ^ 31)
    (hy : yN = lostN / qN) (hx : xN = lostN % qN)
    (hs : sN = qN ^ (tN - 1 - yN)) :
    c.getRepairSubchunks (lostN : Int) =
      (List.range (qN ^ yN)).map (fun (i : ℕ) =>
        (((xN * sN + i * (qN * sN) : ℕ) : Int), ((sN : ℕ) : Int))) := by
  have hple : ∀ e : ℕ, e ≤ tN → ((qN : Int)) ^ e < 2 ^ 31 := by
    intro e he
    have h1 : qN ^ e ≤ qN ^ tN := Nat.pow_le_pow_right hq1 he
    exact_mod_cast lt_of_le_of_lt h1 hreg
  have htdiv : (lostN : Int).tdiv (qN : Int) = ((yN : ℕ) : Int) := by
    rw [Int.tdiv_eq_ediv (by positivity) (by positivity), hy]
    exact_mod_cast rfl
  have htmod : (lostN : Int).tmod (qN : Int) = ((xN : ℕ) : Int) := by
    rw [Int.tmod_eq_emod (by positivity) (by positivity), hx]
    exact_mod_cast rfl
  have he1 : ((tN : Int) - 1 - ((yN : ℕ) : Int)).toNat = tN - 1 - yN := by
    omega
  have hpow1 : powInt (qN : Int) (tN - 1 - yN) = ((sN : ℕ) : Int) := by
    rw [powInt_exact _ _ (by positivity) (hple _ (by omega)), hs]
    exact_mod_cast rfl
  have hpow2 : powInt (qN : Int) yN = ((qN ^ yN : ℕ) : Int) := by
    rw [powInt_exact _ _ (by positivity) (hple _ (by omega))]
    exact_mod_cast rfl
  simp only [Cfg.getRepairSubchunks]
  rw [hqc, htc, htdiv, htmod, he1, hpow1, Int.toNat_natCast, hpow2,
    Int.toNat_natCast, repairRuns_eq]
  apply List.map_congr_left
  intro j hj
  have : ((xN : ℕ) : Int) * ((sN : ℕ) : Int) + (j : Int) *
      (((qN : ℕ) : Int) * ((sN : ℕ) : Int)) =
      ((xN * sN + j * (qN * sN) : ℕ) : Int) := by
    push_cast
    ring
  rw [this]

theorem baseStep_card_le (c : Cfg) (lost : Int) (s : Finset Int) (j : ℕ) :
    (c.baseStep lost s j).card ≤ s.card + 1 := by
  simp only [Cfg.baseStep]
  split_ifs
  · exact Finset.card_insert_le _ _
  · exact Finset.card_insert_le _ _
  · omega
  · omega

theorem baseStep_subset (c : Cfg) (lost : Int) (s : Finset Int) (j : ℕ) :
    s ⊆ c.baseStep lost s j := by
  simp only [Cfg.baseStep]
  split_ifs
  · exact Finset.subset_insert _ s
  · exact Finset.subset_insert _ s
  · exact Finset.Subset.refl s
  · exact Finset.Subset.refl s

/-- The companion set has at most `q` members. -/
theorem repBase_card_le (c : Cfg) (lost : Int) :
    (c.repBase lost).card ≤ c.q.toNat := by
  have h := foldl_card_growth (c.baseStep lost) (baseStep_card_le c lost)
    (List.range c.q.toNat) ∅
  simpa using h

/-- Both kinds of remapped companions end up in the companion set. -/
theorem repBase_mem (c : Cfg) (lost : Int) (j : ℕ) (hnu : 0 ≤ c.nu)
    (hj : j < c.q.toNat) (hjx : (j : Int) ≠ lost.tmod c.q) :
    (lost.tdiv c.q * c.q + (j : Int) < c.k →
      lost.tdiv c.q * c.q + (j : Int) ∈ c.repBase lost) ∧
    (c.k + c.nu ≤ lost.tdiv c.q * c.q + (j : Int) →
      lost.tdiv c.q * c.q + (j : Int) - c.nu ∈ c.repBase lost) := by
  constructor
  · intro hlt
    refine foldl_mem_of_mem _ (baseStep_subset c lost) _ j _ ?_ ∅
      (List.mem_range.mpr hj)
    intro s
    simp only [Cfg.baseStep]
    rw [if_pos hjx, if_pos hlt]
    exact Finset.mem_insert_self _ _
  · intro hge
    refine foldl_mem_of_mem _ (baseStep_subset c lost) _ j _ ?_ ∅
      (List.mem_range.mpr hj)
    intro s
    simp only [Cfg.baseStep]
    rw [if_pos hjx, if_neg (by omega), if_pos hge]
    exact Finset.mem_insert_self _ _

/-- Claim C4 fails in-scope: `(k, m, d) = (62, 2, 63)` is accepted by
`parse` (`q = 2`, `t = 32`, `ν = 0`), and for lost node 0 with the 63
chunks `1..63` available, `minimum_to_repair` hands every helper the
single run `(0, -2^31)`: the 32-bit `pow_int(q, t-1-y_lost)` wraps, so
the run list is not the claimed `q^(y_lost) = 1` run of
`seq = q^(t-1-y_lost) = 2^31` contiguous indices starting at
`x_lost · seq = 0`, and a run of negative length covers no sub-chunk
index at all, let alone the `β = q^(t-1) = 2^31` claimed layers. -/
theorem minimum_to_repair_overflows_in_scope :
    (parse 62 2 63).err = 0 ∧ (parse 62 2 63).q = 2 ∧
    (parse 62 2 63).t = 32 ∧ (parse 62 2 63).nu = 0 ∧
    Cfg.Valid ⟨62, 2, 63, 2, 32, 0⟩ ∧
    (Cfg.minimumToRepair ⟨62, 2, 63, 2, 32, 0⟩ {0} (Finset.Icc 1 63)).map
      (fun p => p.2) = some [(0, -(2 ^ 31))] ∧
    Cfg.getRepairSubchunks ⟨62, 2, 63, 2, 32, 0⟩ 0 ≠ [(0, 2 ^ 31)] := by
  exact ⟨by decide, by decide, by decide, by decide, by decide, by decide,
    by decide⟩

/-- Claim C4 as amended to the no-overflow regime `q^t < 2^31`: for a
single lost physical node `f` with at least `d` available chunks,
`minimum_to_repair` returns a helper map whose key set has exactly `d`
members and contains
every remapped surviving companion of the lost node's `y`-section, every
key carrying the same run list `(x_lost·seq + i·q·seq, seq)` for
`i < q^(y_lost)` with `seq = q^(t-1-y_lost)`; the runs are in increasing
offset order, they cover exactly the layers `z < q^t` whose digit of
weight `q^(t-1-y_lost)` is `x_lost`, and those layers number
`β = q^(t-1)`. -/
theorem minimum_to_repair_properties
    (c : Cfg) (kN mN dN qN tN nuN fN lostN yN xN sN : ℕ) (avail : Finset Int)
    (hkc : c.k = (kN : Int)) (hmc : c.m = (mN : Int)) (hdc : c.d = (dN : Int))
    (hqc : c.q = (qN : Int)) (htc : c.t = (tN : Int))
    (hnuc : c.nu = (nuN : Int))
    (hv : c.Valid) (hreg : qN ^ tN < 2 ^ 31) (hf : fN < kN + mN)
    (hlost : lostN = if fN < kN then fN else fN + nuN)
    (hy : yN = lostN / qN) (hx : xN = lostN % qN)
    (hs : sN = qN ^ (tN - 1 - yN))
    (hdav : dN ≤ avail.card) :
    ∃ H : Finset Int,
      c.minimumToRepair {(fN : Int)} avail =
        some (H, (List.range (qN ^ yN)).map (fun (i : ℕ) =>
          (((xN * sN + i * (qN * sN) : ℕ) : Int), ((sN : ℕ) : Int)))) ∧
      H.card = dN ∧
      (∀ j : ℕ, j < qN → j ≠ xN →
        (yN * qN + j < kN → ((yN * qN + j : ℕ) : Int) ∈ H) ∧
        (kN + nuN ≤ yN * qN + j → ((yN * qN + j - nuN : ℕ) : Int) ∈ H)) ∧
      List.Pairwise (fun p r : Int × Int => p.1 < r.1)
        ((List.range (qN ^ yN)).map (fun (i : ℕ) =>
          (((xN * sN + i * (qN * sN) : ℕ) : Int), ((sN : ℕ) : Int)))) ∧
      (∀ z : ℕ, z < qN ^ tN →
        ((∃ p ∈ (List.range (qN ^ yN)).map (fun (i : ℕ) =>
            (((xN * sN + i * (qN * sN) : ℕ) : Int), ((sN : ℕ) : Int))),
          p.1 ≤ (z : Int) ∧ (z : Int) < p.1 + p.2) ↔
          dig qN tN z yN = xN)) ∧
      ((Finset.range (qN ^ tN)).filter (fun z => dig qN tN z yN = xN)).card =
        qN ^ (tN - 1) := by
  obtain ⟨hq1I, ht1I, hnu0I, hnultI, hqtI⟩ := c.valid_facts hv
  have hq1 : 1 ≤ qN := by rw [hqc] at hq1I; exact_mod_cast hq1I
  have ht1 : 1 ≤ tN := by rw [htc] at ht1I; exact_mod_cast ht1I
  have hnult : nuN < qN := by
    rw [hnuc, hqc] at hnultI; exact_mod_cast hnultI
  have hqt : qN * tN = kN + mN + nuN := by
    rw [hqc, htc, hkc, hmc, hnuc] at hqtI; exact_mod_cast hqtI
  have hk2 : 2 ≤ kN := by
    have := hv.1; rw [hkc] at this; exact_mod_cast this
  have hm1 : 1 ≤ mN := by
    have := hv.2.1; rw [hmc] at this; exact_mod_cast this
  have hkd : kN ≤ dN := by
    have := hv.2.2.1; rw [hkc, hdc] at this; exact_mod_cast this
  have hqd : qN = dN - kN + 1 := by
    have := hv.2.2.2.2.1; rw [hqc, hdc, hkc] at this; omega
  have hdm : dN ≤ kN + mN - 1 := by
    have := hv.2.2.2.1; rw [hdc, hkc, hmc] at this; omega
  have hq0 : 0 < qN := hq1
  have hlostlt : lostN < qN * tN := by
    rw [hlost]; split_ifs with hfk <;> omega
  have hylt : yN < tN := by
    rw [hy, Nat.div_lt_iff_lt_mul hq0]
    have hcm : qN * tN = tN * qN := by ring
    omega
  have hyle : yN ≤ tN - 1 := by omega
  have hxlt : xN < qN := by rw [hx]; exact Nat.mod_lt _ hq0
  have hqdN : qN ≤ dN - 1 := by omega
  have hminset : (({(fN : Int)} : Finset Int).min.untop' 0) = (fN : Int) := by
    rw [Finset.min_singleton]
    rfl
  have hlog := toLogical_natCast c kN nuN fN lostN hkc hnuc hlost
  have hsubs := getRepairSubchunks_eq c qN tN lostN yN xN sN hqc htc hq1 ht1
    hyle hreg hy hx hs
  have hmodx : (lostN : Int).tmod c.q = ((xN : ℕ) : Int) := by
    rw [hqc, Int.tmod_eq_emod (by positivity) (by positivity), hx]
    exact_mod_cast rfl
  have hdivy : (lostN : Int).tdiv c.q = ((yN : ℕ) : Int) := by
    rw [hqc, Int.tdiv_eq_ediv (by positivity) (by positivity), hy]
    exact_mod_cast rfl
  have hbase1 : (c.repBase (lostN : Int)).card ≤ qN := by
    have h := repBase_card_le c (lostN : Int)
    rw [hqc, Int.toNat_natCast] at h
    exact h
  refine ⟨(ascList avail).foldl (fillStep c.d) (c.repBase (lostN : Int)),
    ?_, ?_, ?_, ?_, ?_, ?_⟩
  · simp only [Cfg.minimumToRepair]
    rw [hminset, hlog, hsubs,
      if_pos (show c.d ≤ (avail.card : Int) by rw [hdc]; exact_mod_cast hdav)]
  · rw [hdc]
    have hbase2 : ((c.repBase (lostN : Int)).card : Int) ≤ ((dN : ℕ) : Int) := by
      have h : (c.repBase (lostN : Int)).card ≤ dN := by omega
      exact_mod_cast h
    have hub := fill_card_le ((dN : ℕ) : Int) (ascList avail) _ hbase2
    have hubN :
        ((ascList avail).foldl (fillStep ((dN : ℕ) : Int))
          (c.repBase (lostN : Int))).card ≤ dN := by exact_mod_cast hub
    rcases Nat.lt_or_ge
      ((ascList avail).foldl (fillStep ((dN : ℕ) : Int))
        (c.repBase (lostN : Int))).card
      dN with hlt | hge
    · exfalso
      have hsub : avail ⊆
          (ascList avail).foldl (fillStep ((dN : ℕ) : Int))
            (c.repBase (lostN : Int)) := by
        intro a ha
        refine fill_mem_of_lt ((dN : ℕ) : Int) (ascList avail) _ ?_ a
          (ascList_mem avail a ha)
        exact_mod_cast hlt
      have := Finset.card_le_card hsub
      omega
    · omega
  · intro j hj hjx
    have hj' : j < c.q.toNat := by rw [hqc, Int.toNat_natCast]; exact hj
    have hjx' : (j : Int) ≠ (lostN : Int).tmod c.q := by
      rw [hmodx]
      exact_mod_cast hjx
    have hbm := repBase_mem c (lostN : Int) j
      (by rw [hnuc]; positivity) hj' hjx'
    rw [hdivy, hqc] at hbm
    constructor
    · intro hlt
      have h1 : ((yN : ℕ) : Int) * ((qN : ℕ) : Int) + (j : Int) < c.k := by
        rw [hkc]
        exact_mod_cast hlt
      have h2 := hbm.1 h1
      have hcast : ((yN * qN + j : ℕ) : Int) =
          ((yN : ℕ) : Int) * ((qN : ℕ) : Int) + (j : Int) := by
        push_cast
        ring
      rw [hcast]
      exact fill_subset c.d (ascList avail) _ h2
    · intro hge
      have h1 : c.k + c.nu ≤ ((yN : ℕ) : Int) * ((qN : ℕ) : Int) + (j : Int) := by
        rw [hkc, hnuc]
        exact_mod_cast hge
      have h2 := hbm.2 h1
      have hle : nuN ≤ yN * qN + j := by omega
      have hcast : ((yN * qN + j - nuN : ℕ) : Int) =
          ((yN : ℕ) : Int) * ((qN : ℕ) : Int) + (j : Int) - c.nu := by
        rw [hnuc, Nat.cast_sub hle]
        push_cast
        ring
      rw [hcast]
      exact fill_subset c.d (ascList avail) _ h2
  · rw [List.pairwise_map]
    refine List.Pairwise.imp ?_ (List.pairwise_lt_range (qN ^ yN))
    intro a b hab
    show ((xN * sN + a * (qN * sN) : ℕ) : Int) <
      ((xN * sN + b * (qN * sN) : ℕ) : Int)
    have hsp : 0 < sN := by rw [hs]; exact pow_pos hq0 _
    have hmul : a * (qN * sN) < b * (qN * sN) :=
      mul_lt_mul_of_pos_right hab (Nat.mul_pos hq0 hsp)
    have : xN * sN + a * (qN * sN) < xN * sN + b * (qN * sN) := by omega
    exact_mod_cast this
  · intro z hz
    constructor
    · rintro ⟨p, hp, hle, hlt⟩
      rw [List.mem_map] at hp
      obtain ⟨i, hir, rfl⟩ := hp
      rw [List.mem_range] at hir
      refine (run_coverage qN tN yN xN z hq1 ht1 hyle hxlt hz).mp
        ⟨i, hir, ?_, ?_⟩
      · rw [← hs]
        have hle' : ((xN * sN + i * (qN * sN) : ℕ) : Int) ≤ (z : Int) := hle
        exact_mod_cast hle'
      · rw [← hs]
        have hlt' : (z : Int) <
            ((xN * sN + i * (qN * sN) : ℕ) : Int) + ((sN : ℕ) : Int) := hlt
        exact_mod_cast hlt'
    · intro hdig
      obtain ⟨i, hir, hlo, hhi⟩ :=
        (run_coverage qN tN yN xN z hq1 ht1 hyle hxlt hz).mpr hdig
      rw [← hs] at hlo hhi
      refine ⟨(((xN * sN + i * (qN * sN) : ℕ) : Int), ((sN : ℕ) : Int)),
        List.mem_map.mpr ⟨i, List.mem_range.mpr hir, rfl⟩, ?_, ?_⟩
      · show ((xN * sN + i * (qN * sN) : ℕ) : Int) ≤ (z : Int)
        exact_mod_cast hlo
      · show (z : Int) <
          ((xN * sN + i * (qN * sN) : ℕ) : Int) + ((sN : ℕ) : Int)
        exact_mod_cast hhi
  · exact digit_count qN tN yN xN hq1 ht1 hyle hxlt

/-! ### Digit and sibling-layer arithmetic (claim C1 groundwork) -/

theorem dig_lt (q t z y : ℕ) (hq : 1 ≤ q) : dig q t z y < q :=
  Nat.mod_lt _ hq

/-- `div_mod_decomp` with the factors in the order the sibling-layer
computations produce. -/
theorem div_mod_decomp' (s q z : ℕ) :
    z = z / (s * q) * (q * s) + z / s % q * s + z % s := by
  calc z = s * q * (z / (s * q)) + s * (z / s % q) + z % s :=
      div_mod_decomp s q z
    _ = _ := by ring

/-- Normal form of the sibling layer: quotient block, new digit, low part. -/
theorem zsw_decomp (q t z x y : ℕ) (hq : 1 ≤ q) :
    zsw q t z x y =
      z / (q ^ (t - 1 - y) * q) * (q * q ^ (t - 1 - y)) +
        x * q ^ (t - 1 - y) + z % q ^ (t - 1 - y) := by
  have hs0 : 0 < q ^ (t - 1 - y) := pow_pos hq _
  unfold zsw dig
  have hdc := div_mod_decomp' (q ^ (t - 1 - y)) q z
  generalize z % q ^ (t - 1 - y) = R at hdc ⊢
  omega

/-- The digit of the sibling layer at the replaced position is the new
digit. -/
theorem dig_zsw_self (q t z x y : ℕ) (hq : 1 ≤ q) (hx : x < q) :
    dig q t (zsw q t z x y) y = x := by
  have hs0 : 0 < q ^ (t - 1 - y) := pow_pos hq _
  rw [zsw_decomp q t z x y hq]
  unfold dig
  exact comp_dig _ q _ x _ hs0 (Nat.mod_lt z hs0) hx

/-- Putting the original digit back recovers the original layer. -/
theorem zsw_zsw (q t z x y : ℕ) (hq : 1 ≤ q) (hx : x < q) :
    zsw q t (zsw q t z x y) (dig q t z y) y = z := by
  have hs0 : 0 < q ^ (t - 1 - y) := pow_pos hq _
  have hR : z % q ^ (t - 1 - y) < q ^ (t - 1 - y) := Nat.mod_lt z hs0
  rw [zsw_decomp q t (zsw q t z x y) (dig q t z y) y hq,
    zsw_decomp q t z x y hq]
  rw [comp_divq _ q _ x _ hs0 hR hx, comp_mod _ q _ x _ hR]
  have hdc := div_mod_decomp' (q ^ (t - 1 - y)) q z
  have e2 : dig q t z y * q ^ (t - 1 - y) =
      z / q ^ (t - 1 - y) % q * q ^ (t - 1 - y) := by
    unfold dig
    ring
  omega

/-- Replacing a digit by itself does nothing. -/
theorem zsw_self (q t z y : ℕ) : zsw q t z (dig q t z y) y = z := by
  unfold zsw
  omega

/-- The sibling layer stays inside the cube. -/
theorem zsw_lt_alpha (q t z x y : ℕ) (hq : 1 ≤ q) (hx : x < q) (hy : y < t)
    (hz : z < q ^ t) :
    zsw q t z x y < q ^ t := by
  have hs0 : 0 < q ^ (t - 1 - y) := pow_pos hq _
  have hR : z % q ^ (t - 1 - y) < q ^ (t - 1 - y) := Nat.mod_lt z hs0
  rw [zsw_decomp q t z x y hq]
  have hpow : q ^ t = q ^ (t - 1 - y) * q * q ^ y := by
    rw [← pow_succ, ← pow_add]
    congr 1
    omega
  have hA : z / (q ^ (t - 1 - y) * q) < q ^ y := by
    rw [Nat.div_lt_iff_lt_mul (by positivity)]
    calc z < q ^ t := hz
      _ = q ^ y * (q ^ (t - 1 - y) * q) := by rw [hpow]; ring
  have e1 : (z / (q ^ (t - 1 - y) * q) + 1) * (q * q ^ (t - 1 - y)) ≤
      q ^ y * (q * q ^ (t - 1 - y)) := Nat.mul_le_mul_right _ (by omega)
  have e2 : (z / (q ^ (t - 1 - y) * q) + 1) * (q * q ^ (t - 1 - y)) =
      z / (q ^ (t - 1 - y) * q) * (q * q ^ (t - 1 - y)) +
        q * q ^ (t - 1 - y) := by ring
  have e3 : (x + 1) * q ^ (t - 1 - y) ≤ q * q ^ (t - 1 - y) :=
    Nat.mul_le_mul_right _ (by omega)
  have e4 : (x + 1) * q ^ (t - 1 - y) = x * q ^ (t - 1 - y) +
      q ^ (t - 1 - y) := by ring
  have e5 : q ^ t = q ^ y * (q * q ^ (t - 1 - y)) := by rw [hpow]; ring
  omega

/-- Lowering the digit lowers the layer. -/
theorem zsw_lt (q t z x y : ℕ) (hq : 1 ≤ q) (h : x < dig q t z y) :
    zsw q t z x y < z := by
  have hs0 : 0 < q ^ (t - 1 - y) := pow_pos hq _
  unfold zsw
  have hdc := div_mod_decomp' (q ^ (t - 1 - y)) q z
  have e1 : (x + 1) * q ^ (t - 1 - y) ≤
      dig q t z y * q ^ (t - 1 - y) := Nat.mul_le_mul_right _ (by omega)
  have e2 : (x + 1) * q ^ (t - 1 - y) = x * q ^ (t - 1 - y) +
      q ^ (t - 1 - y) := by ring
  have e3 : dig q t z y * q ^ (t - 1 - y) =
      z / q ^ (t - 1 - y) % q * q ^ (t - 1 - y) := by unfold dig; ring
  generalize z % q ^ (t - 1 - y) = R at hdc
  omega

/-- Raising the digit raises the layer. -/
theorem zsw_gt (q t z x y : ℕ) (hq : 1 ≤ q) (h : dig q t z y < x) :
    z < zsw q t z x y := by
  have hs0 : 0 < q ^ (t - 1 - y) := pow_pos hq _
  unfold zsw
  have e1 : (dig q t z y + 1) * q ^ (t - 1 - y) ≤ x * q ^ (t - 1 - y) :=
    Nat.mul_le_mul_right _ (by omega)
  have e2 : (dig q t z y + 1) * q ^ (t - 1 - y) =
      dig q t z y * q ^ (t - 1 - y) + q ^ (t - 1 - y) := by ring
  omega

/-- Digits at other positions survive the replacement. -/
theorem dig_zsw_other (q t z x y y' : ℕ) (hq : 1 ≤ q) (hy : y < t)
    (hy' : y' < t) (hne : y' ≠ y) (hx : x < q) :
    dig q t (zsw q t z x y) y' = dig q t z y' := by
  have hs0 : 0 < q ^ (t - 1 - y) := pow_pos hq _
  have hR : z % q ^ (t - 1 - y) < q ^ (t - 1 - y) := Nat.mod_lt z hs0
  rcases Nat.lt_or_ge y y' with hlt | hge
  · -- y' > y: lower-weight digit, both reduce mod q^(t-1-y'+1)
    have he : t - 1 - y' + 1 ≤ t - 1 - y := by omega
    have hdig : ∀ w : ℕ, dig q t w y' = w % (q ^ (t - 1 - y') * q) /
        q ^ (t - 1 - y') := by
      intro w
      unfold dig
      rw [Nat.mod_mul_right_div_self]
    rw [hdig, hdig]
    congr 1
    rw [zsw_decomp q t z x y hq]
    have hdc := div_mod_decomp (q ^ (t - 1 - y)) q z
    have hsplit : ∀ A B R : ℕ,
        A * (q * q ^ (t - 1 - y)) + B * q ^ (t - 1 - y) + R =
        R + (A * q ^ (t - 1 - y - (t - 1 - y' + 1)) * q +
          B * q ^ (t - 1 - y - (t - 1 - y' + 1))) *
          (q ^ (t - 1 - y') * q) := by
      intro A B R
      have hpw : q ^ (t - 1 - y - (t - 1 - y' + 1)) *
          (q ^ (t - 1 - y') * q) = q ^ (t - 1 - y) := by
        rw [show q ^ (t - 1 - y') * q = q ^ (t - 1 - y' + 1) from by
          rw [pow_succ]]
        rw [← pow_add]
        congr 1
        omega
      calc A * (q * q ^ (t - 1 - y)) + B * q ^ (t - 1 - y) + R
          = R + (A * q + B) * q ^ (t - 1 - y) := by ring
        _ = R + (A * q + B) *
            (q ^ (t - 1 - y - (t - 1 - y' + 1)) *
              (q ^ (t - 1 - y') * q)) := by rw [hpw]
        _ = _ := by ring
    rw [hsplit, Nat.add_mul_mod_self_right]
    conv_rhs => rw [show z = z / (q ^ (t - 1 - y) * q) * (q * q ^ (t - 1 - y))
      + z / q ^ (t - 1 - y) % q * q ^ (t - 1 - y) + z % q ^ (t - 1 - y)
      from div_mod_decomp' (q ^ (t - 1 - y)) q z]
    rw [hsplit, Nat.add_mul_mod_self_right]
  · -- y' < y: higher-weight digit, both factor through / q^(t-1-y+1)
    have hlt' : y' < y := by omega
    have he : t - 1 - y + 1 ≤ t - 1 - y' := by omega
    have hdig : ∀ w : ℕ, dig q t w y' =
        w / (q ^ (t - 1 - y) * q) / q ^ (t - 1 - y' - (t - 1 - y + 1)) % q := by
      intro w
      unfold dig
      rw [Nat.div_div_eq_div_mul]
      congr 2
      rw [show q ^ (t - 1 - y) * q = q ^ (t - 1 - y + 1) from by rw [pow_succ]]
      rw [← pow_add]
      congr 1
      omega
    rw [hdig, hdig]
    congr 2
    rw [zsw_decomp q t z x y hq]
    exact comp_divq _ q _ x _ hs0 hR hx

/-! ### Order of the sibling layer -/

/-- Helper: the red members of one section form the singleton of its red
node when that node is erased, else nothing. -/
theorem filter_section_red (q : ℕ) (hq : 1 ≤ q) (E : Finset ℕ) (y r : ℕ)
    (hr : r < q) :
    E.filter (fun i => i / q = y ∧ i % q = r) =
      if y * q + r ∈ E then {y * q + r} else ∅ := by
  ext i
  simp only [Finset.mem_filter]
  constructor
  · rintro ⟨hi, hdiv, hmod⟩
    have : i = y * q + r := by
      have h1 := node_decomp q i
      have h2 : i / q * q = y * q := by rw [hdiv]
      omega
    subst this
    rw [if_pos hi]
    exact Finset.mem_singleton_self _
  · intro hi
    by_cases hmem : y * q + r ∈ E
    · rw [if_pos hmem, Finset.mem_singleton] at hi
      subst hi
      refine ⟨hmem, ?_, ?_⟩
      · rw [add_comm, Nat.add_mul_div_right _ _ (by omega : 0 < q),
          Nat.div_eq_of_lt hr, zero_add]
      · rw [add_comm, Nat.add_mul_mod_self_right, Nat.mod_eq_of_lt hr]
    · rw [if_neg hmem] at hi
      cases hi

/-- How the plane order changes when one digit is replaced: only the
`y`-section's red node changes, from the old red node to the new one. -/
theorem ordOf_zw {V : Type} (c : Ctx V) (E : Finset ℕ)
    (hE : ∀ i ∈ E, i < c.n) (hq : 1 ≤ c.q) (z x y : ℕ) (hy : y < c.t)
    (hx : x < c.q) :
    c.ordOf E (c.zw z x y) +
      (if y * c.q + c.dg z y ∈ E then 1 else 0) =
    c.ordOf E z + (if y * c.q + x ∈ E then 1 else 0) := by
  have hsplit : ∀ w : ℕ,
      c.ordOf E w = (E.filter (fun i => i / c.q ≠ y ∧
        i % c.q = c.dg w (i / c.q))).card +
        (if y * c.q + c.dg w y ∈ E then 1 else 0) := by
    intro w
    unfold Ctx.ordOf
    have h1 : E.filter (fun i => i % c.q = c.dg w (i / c.q)) =
        E.filter (fun i => i / c.q ≠ y ∧ i % c.q = c.dg w (i / c.q)) ∪
        E.filter (fun i => i / c.q = y ∧ i % c.q = c.dg w y) := by
      ext i
      simp only [Finset.mem_filter, Finset.mem_union]
      constructor
      · rintro ⟨hi, hred⟩
        by_cases hsec : i / c.q = y
        · exact Or.inr ⟨hi, hsec, by rw [← hsec]; exact hred⟩
        · exact Or.inl ⟨hi, hsec, hred⟩
      · rintro (⟨hi, -, hred⟩ | ⟨hi, hsec, hred⟩)
        · exact ⟨hi, hred⟩
        · exact ⟨hi, by rw [hsec]; exact hred⟩
    have h2 : Disjoint
        (E.filter (fun i => i / c.q ≠ y ∧ i % c.q = c.dg w (i / c.q)))
        (E.filter (fun i => i / c.q = y ∧ i % c.q = c.dg w y)) := by
      rw [Finset.disjoint_left]
      intro i hiL hiR
      rw [Finset.mem_filter] at hiL hiR
      exact hiL.2.1 hiR.2.1
    rw [h1, Finset.card_union_of_disjoint h2,
      filter_section_red c.q hq E y (c.dg w y) (dig_lt _ _ _ _ hq)]
    congr 1
    split_ifs
    · rw [Finset.card_singleton]
    · rw [Finset.card_empty]
  have h3 : E.filter (fun i => i / c.q ≠ y ∧
        i % c.q = c.dg (c.zw z x y) (i / c.q)) =
      E.filter (fun i => i / c.q ≠ y ∧ i % c.q = c.dg z (i / c.q)) := by
    apply Finset.filter_congr
    intro i hi
    have hit : i / c.q < c.t := by
      have h1 := hE i hi
      unfold Ctx.n at h1
      rw [Nat.div_lt_iff_lt_mul (by omega)]
      have h2 : c.q * c.t = c.t * c.q := by ring
      omega
    by_cases hsec : i / c.q = y
    · exact iff_of_false (fun h => h.1 hsec) (fun h => h.1 hsec)
    · have hdd := dig_zsw_other c.q c.t z x y (i / c.q) hq hy hit hsec hx
      unfold Ctx.dg Ctx.zw
      rw [hdd]
  rw [hsplit z, hsplit (c.zw z x y), h3]
  have hdz : c.dg (c.zw z x y) y = x := by
    unfold Ctx.dg Ctx.zw
    exact dig_zsw_self c.q c.t z x y hq hx
  rw [hdz]
  omega

/-! ### Generic fold reasoning (establish and preserve) -/

/-- A fold preserves `P` when every step does (given a preserved
precondition `Pre`). -/
theorem foldl_pres {σ α : Type} (f : σ → α → σ) (Pre P : σ → Prop) :
    ∀ (l : List α) (s : σ),
    (∀ s a, a ∈ l → Pre s → Pre (f s a)) →
    (∀ s a, a ∈ l → Pre s → P s → P (f s a)) →
    Pre s → P s → P (l.foldl f s) := by
  intro l
  induction l with
  | nil => intro s _ _ _ hP; exact hP
  | cons a l ih =>
    intro s hPre hP hpre hp
    exact ih (f s a)
      (fun s' b hb => hPre s' b (List.mem_cons_of_mem a hb))
      (fun s' b hb => hP s' b (List.mem_cons_of_mem a hb))
      (hPre s a (List.mem_cons_self a l) hpre)
      (hP s a (List.mem_cons_self a l) hpre hp)

/-- A fold establishes `P` at the step for `j ∈ l` and preserves it
afterwards. -/
theorem foldl_estab {σ α : Type} [DecidableEq α] (f : σ → α → σ)
    (Pre P : σ → Prop) :
    ∀ (l : List α) (s : σ),
    (∀ s a, a ∈ l → Pre s → Pre (f s a)) →
    (∀ s a, a ∈ l → Pre s → P s → P (f s a)) →
    ∀ j ∈ l, (∀ s', Pre s' → P (f s' j)) →
    Pre s → P (l.foldl f s) := by
  intro l
  induction l with
  | nil => intro s _ _ j hj; cases hj
  | cons a l ih =>
    intro s hPre hP j hj hest hpre
    rcases List.mem_cons.mp hj with h | h
    · subst h
      exact foldl_pres f Pre P l (f s j)
        (fun s' b hb => hPre s' b (List.mem_cons_of_mem j hb))
        (fun s' b hb => hP s' b (List.mem_cons_of_mem j hb))
        (hPre s j (List.mem_cons_self j l) hpre)
        (hest s hpre)
    · exact ih (f s a)
        (fun s' b hb => hPre s' b (List.mem_cons_of_mem a hb))
        (fun s' b hb => hP s' b (List.mem_cons_of_mem a hb))
        j h hest
        (hPre s a (List.mem_cons_self a l) hpre)

/-- Processing a strictly sorted list whose step takes the set of already
processed elements from `S` to `insert z S`, starting from a coherent
initial split, ends with the full index set processed. -/
theorem foldl_sorted_inv {σ : Type} (f : σ → ℕ → σ) (lAll : Finset ℕ)
    (Inv : Finset ℕ → σ → Prop)
    (hstep : ∀ S s z, z ∈ lAll → z ∉ S → (∀ z' ∈ lAll, z' < z → z' ∈ S) →
      Inv S s → Inv (insert z S) (f s z)) :
    ∀ (l : List ℕ) (S : Finset ℕ) (s : σ),
      l.Pairwise (· < ·) → (∀ z ∈ l, z ∈ lAll) → (∀ z ∈ l, z ∉ S) →
      (∀ z' ∈ lAll, z' ∉ S → z' ∈ l) → (∀ z ∈ S, z ∈ lAll) → Inv S s →
      Inv lAll (l.foldl f s) := by
  intro l
  induction l with
  | nil =>
    intro S s _ _ _ hcomp hS hInv
    have : S = lAll := by
      apply Finset.ext
      intro z
      constructor
      · exact hS z
      · intro hz
        by_contra hns
        exact absurd (hcomp z hz hns) (List.not_mem_nil z)
    rw [← this]
    exact hInv
  | cons a l ih =>
    intro S s hpair hsub hnotS hcomp hS hInv
    have hsmall : ∀ z' ∈ lAll, z' < a → z' ∈ S := by
      intro z' hz' hlt
      by_contra hns
      rcases List.mem_cons.mp (hcomp z' hz' hns) with h | h
      · omega
      · have := (List.pairwise_cons.mp hpair).1 z' h
        omega
    have hstep' := hstep S s a (hsub a (List.mem_cons_self a l))
      (hnotS a (List.mem_cons_self a l)) hsmall hInv
    refine ih (insert a S) (f s a) (List.pairwise_cons.mp hpair).2
      (fun z hz => hsub z (List.mem_cons_of_mem a hz))
      ?_ ?_ ?_ hstep'
    · intro z hz
      rw [Finset.mem_insert]
      rintro (h | h)
      · have := (List.pairwise_cons.mp hpair).1 z hz
        omega
      · exact hnotS z (List.mem_cons_of_mem a hz) h
    · intro z' hz' hz's
      rw [Finset.mem_insert] at hz's
      push_neg at hz's
      rcases List.mem_cons.mp (hcomp z' hz' hz's.2) with h | h
      · exact absurd h hz's.1
      · exact h
    · intro z hz
      rw [Finset.mem_insert] at hz
      rcases hz with h | h
      · rw [h]
        exact hsub a (List.mem_cons_self a l)
      · exact hS z h

/-! ### Engine value lemmas (claim C1) -/

theorem Ctx.dg_lt {V : Type} (c : Ctx V) (z y : ℕ) (hq : 1 ≤ c.q) :
    c.dg z y < c.q := dig_lt _ _ _ _ hq

theorem Ctx.dg_zw_self {V : Type} (c : Ctx V) (z x y : ℕ) (hq : 1 ≤ c.q)
    (hx : x < c.q) : c.dg (c.zw z x y) y = x :=
  dig_zsw_self c.q c.t z x y hq hx

theorem Ctx.zw_zw {V : Type} (c : Ctx V) (z x y : ℕ) (hq : 1 ≤ c.q)
    (hx : x < c.q) : c.zw (c.zw z x y) (c.dg z y) y = z :=
  zsw_zsw c.q c.t z x y hq hx

theorem Ctx.zw_lt_alpha {V : Type} (c : Ctx V) (z x y : ℕ) (hq : 1 ≤ c.q)
    (hx : x < c.q) (hy : y < c.t) (hz : z < c.alpha) :
    c.zw z x y < c.alpha :=
  zsw_lt_alpha c.q c.t z x y hq hx hy hz

theorem Ctx.zw_ne {V : Type} (c : Ctx V) (z x y : ℕ) (hq : 1 ≤ c.q)
    (hne : c.dg z y ≠ x) : c.zw z x y ≠ z := by
  rcases Nat.lt_or_ge x (c.dg z y) with h | h
  · exact Nat.ne_of_lt (zsw_lt c.q c.t z x y hq h)
  · have : c.dg z y < x := by
      rcases Nat.lt_or_ge (c.dg z y) x with h2 | h2
      · exact h2
      · exact absurd (Nat.le_antisymm h h2) hne
    exact (Nat.ne_of_lt (zsw_gt c.q c.t z x y hq this)).symm

theorem pftSlots_false : pftSlots false = (0, 1, 2, 3) := rfl

theorem pftSlots_true : pftSlots true = (1, 0, 3, 2) := rfl

/-- `get_uncoupled_from_coupled` writes the codeword's uncoupled values at
the pair's two vertices (and nothing else) whenever the two coupled inputs
hold codeword values. -/
theorem getUncFromCoup_Us {V : Type} (c : Ctx V)
    (IsMds : (ℕ → V) → Prop) (Rel : (Fin 4 → V) → Prop)
    (hPft : c.PftOk Rel) (Co Uo : ℕ → ℕ → V)
    (hW : c.IsCw IsMds Rel Co Uo) (hq : 1 ≤ c.q)
    (x y z : ℕ) (hy : y < c.t) (hx : x < c.q) (hz : z < c.alpha)
    (hne : c.dg z y ≠ x) (s : St V)
    (hCxy : s.Cs (y * c.q + x) z = Co (y * c.q + x) z)
    (hCsw : s.Cs (y * c.q + c.dg z y) (c.zw z x y) =
      Co (y * c.q + c.dg z y) (c.zw z x y)) (i' z' : ℕ) :
    (c.getUncFromCoup x y z s).Us i' z' =
      if i' = y * c.q + x ∧ z' = z then Uo (y * c.q + x) z
      else if i' = y * c.q + c.dg z y ∧ z' = c.zw z x y then
        Uo (y * c.q + c.dg z y) (c.zw z x y)
      else s.Us i' z' := by
  have hdq : c.dg z y < c.q := c.dg_lt z y hq
  have hnode : y * c.q + x ≠ y * c.q + c.dg z y := by omega
  rcases Nat.lt_or_ge (c.dg z y) x with hgt | hge
  · -- hi vertex: no slot swap
    have hb : decide (x < c.dg z y) = false := by
      simp only [decide_eq_false_iff_not]
      omega
    have hRel := hW.2.1 y hy x hx z hz hgt
    have hagree : ∀ j ∈ ({0, 1} : Finset (Fin 4)),
        slotVals 0 1 2 (s.Cs (y * c.q + x) z)
          (s.Cs (y * c.q + c.dg z y) (c.zw z x y))
          (s.Us (y * c.q + x) z) (s.Us (y * c.q + c.dg z y) (c.zw z x y)) j =
        c.pairWord Co Uo x y z j := by
      intro j hj
      fin_cases hj
      · show s.Cs (y * c.q + x) z = _
        rw [hCxy]
        rfl
      · show s.Cs (y * c.q + c.dg z y) (c.zw z x y) = _
        rw [hCsw]
        rfl
    have hout2 := hPft {0, 1} _ _ (by decide) hRel hagree 2 (by decide)
    have hout3 := hPft {0, 1} _ _ (by decide) hRel hagree 3 (by decide)
    have hw2 : c.pairWord Co Uo x y z 2 = Uo (y * c.q + x) z := rfl
    have hw3 : c.pairWord Co Uo x y z 3 =
        Uo (y * c.q + c.dg z y) (c.zw z x y) := rfl
    simp only [Ctx.getUncFromCoup]
    rw [hb, pftSlots_false]
    simp only [St.setU]
    rw [hout2, hout3, hw2, hw3]
    by_cases c1 : i' = y * c.q + x ∧ z' = z
    · have c2 : ¬ (i' = y * c.q + c.dg z y ∧ z' = c.zw z x y) := by
        rintro ⟨ha, -⟩
        exact hnode (c1.1.symm.trans ha)
      rw [if_neg c2, if_pos c1, if_pos c1]
    · by_cases c2 : i' = y * c.q + c.dg z y ∧ z' = c.zw z x y
      · rw [if_pos c2, if_neg c1, if_pos c2]
      · rw [if_neg c2, if_neg c1, if_neg c1, if_neg c2]
  · -- lo vertex: slot swap, use the companion's pair word
    have hlt : x < c.dg z y := by omega
    have hb : decide (x < c.dg z y) = true := by
      simp only [decide_eq_true_eq]
      omega
    have hdd := c.dg_zw_self z x y hq hx
    have hzz := c.zw_zw z x y hq hx
    have hza := c.zw_lt_alpha z x y hq hx hy hz
    have hRel := hW.2.1 y hy (c.dg z y) hdq (c.zw z x y) hza
      (by rw [hdd]; exact hlt)
    have hw0 : c.pairWord Co Uo (c.dg z y) y (c.zw z x y) 0 =
        Co (y * c.q + c.dg z y) (c.zw z x y) := rfl
    have hw1 : c.pairWord Co Uo (c.dg z y) y (c.zw z x y) 1 =
        Co (y * c.q + x) z := by
      show Co (y * c.q + c.dg (c.zw z x y) y)
        (c.zw (c.zw z x y) (c.dg z y) y) = _
      rw [hdd, hzz]
    have hw2 : c.pairWord Co Uo (c.dg z y) y (c.zw z x y) 2 =
        Uo (y * c.q + c.dg z y) (c.zw z x y) := rfl
    have hw3 : c.pairWord Co Uo (c.dg z y) y (c.zw z x y) 3 =
        Uo (y * c.q + x) z := by
      show Uo (y * c.q + c.dg (c.zw z x y) y)
        (c.zw (c.zw z x y) (c.dg z y) y) = _
      rw [hdd, hzz]
    have hagree : ∀ j ∈ ({1, 0} : Finset (Fin 4)),
        slotVals 1 0 3 (s.Cs (y * c.q + x) z)
          (s.Cs (y * c.q + c.dg z y) (c.zw z x y))
          (s.Us (y * c.q + x) z) (s.Us (y * c.q + c.dg z y) (c.zw z x y)) j =
        c.pairWord Co Uo (c.dg z y) y (c.zw z x y) j := by
      intro j hj
      fin_cases hj
      · show s.Cs (y * c.q + x) z = _
        rw [hCxy, hw1]
      · show s.Cs (y * c.q + c.dg z y) (c.zw z x y) = _
        rw [hCsw, hw0]
    have hout3 := hPft {1, 0} _ _ (by decide) hRel hagree 3 (by decide)
    have hout2 := hPft {1, 0} _ _ (by decide) hRel hagree 2 (by decide)
    simp only [Ctx.getUncFromCoup]
    rw [hb, pftSlots_true]
    simp only [St.setU]
    rw [hout2, hout3, hw2, hw3]
    by_cases c1 : i' = y * c.q + x ∧ z' = z
    · have c2 : ¬ (i' = y * c.q + c.dg z y ∧ z' = c.zw z x y) := by
        rintro ⟨ha, -⟩
        exact hnode (c1.1.symm.trans ha)
      rw [if_neg c2, if_pos c1, if_pos c1]
    · by_cases c2 : i' = y * c.q + c.dg z y ∧ z' = c.zw z x y
      · rw [if_pos c2, if_neg c1, if_pos c2]
      · rw [if_neg c2, if_neg c1, if_neg c1, if_neg c2]

theorem Ctx.node_lt_n {V : Type} (c : Ctx V) (y x : ℕ) (hy : y < c.t)
    (hx : x < c.q) : y * c.q + x < c.n := by
  unfold Ctx.n
  have h1 : (y + 1) * c.q ≤ c.t * c.q := Nat.mul_le_mul_right _ (by omega)
  have h2 : (y + 1) * c.q = y * c.q + c.q := by ring
  have h3 : c.q * c.t = c.t * c.q := by ring
  omega

theorem recoverType1_Us {V : Type} [Zero V] (c : Ctx V) (x y z : ℕ)
    (s : St V) : (c.recoverType1 x y z s).Us = s.Us := rfl

theorem getCoupFromUnc_Us {V : Type} (c : Ctx V) (x y z : ℕ)
    (s : St V) : (c.getCoupFromUnc x y z s).Us = s.Us := rfl

/-- `recover_type1_erasure` writes the codeword's coupled value at its
vertex (and nothing else) when the companion's coupled value and the own
uncoupled value hold codeword values. -/
theorem recoverType1_Cs_val {V : Type} [Zero V] (c : Ctx V)
    (IsMds : (ℕ → V) → Prop) (Rel : (Fin 4 → V) → Prop)
    (hPft : c.PftOk Rel) (Co Uo : ℕ → ℕ → V)
    (hW : c.IsCw IsMds Rel Co Uo) (hq : 1 ≤ c.q)
    (x y z : ℕ) (hy : y < c.t) (hx : x < c.q) (hz : z < c.alpha)
    (hne : c.dg z y ≠ x) (s : St V)
    (hCsw : s.Cs (y * c.q + c.dg z y) (c.zw z x y) =
      Co (y * c.q + c.dg z y) (c.zw z x y))
    (hUxy : s.Us (y * c.q + x) z = Uo (y * c.q + x) z) (i' z' : ℕ) :
    (c.recoverType1 x y z s).Cs i' z' =
      if i' = y * c.q + x ∧ z' = z then Co (y * c.q + x) z
      else s.Cs i' z' := by
  have hdq : c.dg z y < c.q := c.dg_lt z y hq
  rcases Nat.lt_or_ge (c.dg z y) x with hgt | hge
  · -- hi vertex: no slot swap, known slots {1, 2}
    have hb : decide (x < c.dg z y) = false := by
      simp only [decide_eq_false_iff_not]
      omega
    have hRel := hW.2.1 y hy x hx z hz hgt
    have hagree : ∀ j ∈ ({1, 2} : Finset (Fin 4)),
        slotVals 0 1 2 (s.Cs (y * c.q + x) z)
          (s.Cs (y * c.q + c.dg z y) (c.zw z x y))
          (s.Us (y * c.q + x) z) 0 j =
        c.pairWord Co Uo x y z j := by
      intro j hj
      fin_cases hj
      · show s.Cs (y * c.q + c.dg z y) (c.zw z x y) = _
        rw [hCsw]
        rfl
      · show s.Us (y * c.q + x) z = _
        rw [hUxy]
        rfl
    have hout0 := hPft {1, 2} _ _ (by decide) hRel hagree 0 (by decide)
    have hw0 : c.pairWord Co Uo x y z 0 = Co (y * c.q + x) z := rfl
    simp only [Ctx.recoverType1]
    rw [hb, pftSlots_false]
    simp only [St.setC]
    rw [hout0, hw0]
  · -- lo vertex: slot swap, known slots {0, 3}
    have hlt : x < c.dg z y := by omega
    have hb : decide (x < c.dg z y) = true := by
      simp only [decide_eq_true_eq]
      omega
    have hdd := c.dg_zw_self z x y hq hx
    have hzz := c.zw_zw z x y hq hx
    have hza := c.zw_lt_alpha z x y hq hx hy hz
    have hRel := hW.2.1 y hy (c.dg z y) hdq (c.zw z x y) hza
      (by rw [hdd]; exact hlt)
    have hw0 : c.pairWord Co Uo (c.dg z y) y (c.zw z x y) 0 =
        Co (y * c.q + c.dg z y) (c.zw z x y) := rfl
    have hw1 : c.pairWord Co Uo (c.dg z y) y (c.zw z x y) 1 =
        Co (y * c.q + x) z := by
      show Co (y * c.q + c.dg (c.zw z x y) y)
        (c.zw (c.zw z x y) (c.dg z y) y) = _
      rw [hdd, hzz]
    have hw3 : c.pairWord Co Uo (c.dg z y) y (c.zw z x y) 3 =
        Uo (y * c.q + x) z := by
      show Uo (y * c.q + c.dg (c.zw z x y) y)
        (c.zw (c.zw z x y) (c.dg z y) y) = _
      rw [hdd, hzz]
    have hagree : ∀ j ∈ ({0, 3} : Finset (Fin 4)),
        slotVals 1 0 3 (s.Cs (y * c.q + x) z)
          (s.Cs (y * c.q + c.dg z y) (c.zw z x y))
          (s.Us (y * c.q + x) z) 0 j =
        c.pairWord Co Uo (c.dg z y) y (c.zw z x y) j := by
      intro j hj
      fin_cases hj
      · show s.Cs (y * c.q + c.dg z y) (c.zw z x y) = _
        rw [hCsw, hw0]
      · show s.Us (y * c.q + x) z = _
        rw [hUxy, hw3]
    have hout1 := hPft {0, 3} _ _ (by decide) hRel hagree 1 (by decide)
    simp only [Ctx.recoverType1]
    rw [hb, pftSlots_true]
    simp only [St.setC]
    rw [hout1, hw1]

/-- `get_coupled_from_uncoupled` writes both coupled values of an erased
pair (and nothing else) when the two uncoupled inputs hold codeword
values; it is only called at the hi vertex (the source asserts
`z_vec[y] < x`). -/
theorem getCoupFromUnc_Cs_val {V : Type} (c : Ctx V)
    (IsMds : (ℕ → V) → Prop) (Rel : (Fin 4 → V) → Prop)
    (hPft : c.PftOk Rel) (Co Uo : ℕ → ℕ → V)
    (hW : c.IsCw IsMds Rel Co Uo) (hq : 1 ≤ c.q)
    (x y z : ℕ) (hy : y < c.t) (hx : x < c.q) (hz : z < c.alpha)
    (hgt : c.dg z y < x) (s : St V)
    (hUxy : s.Us (y * c.q + x) z = Uo (y * c.q + x) z)
    (hUsw : s.Us (y * c.q + c.dg z y) (c.zw z x y) =
      Uo (y * c.q + c.dg z y) (c.zw z x y)) (i' z' : ℕ) :
    (c.getCoupFromUnc x y z s).Cs i' z' =
      if i' = y * c.q + x ∧ z' = z then Co (y * c.q + x) z
      else if i' = y * c.q + c.dg z y ∧ z' = c.zw z x y then
        Co (y * c.q + c.dg z y) (c.zw z x y)
      else s.Cs i' z' := by
  have hdq : c.dg z y < c.q := c.dg_lt z y hq
  have hnode : y * c.q + x ≠ y * c.q + c.dg z y := by omega
  have hRel := hW.2.1 y hy x hx z hz hgt
  have hagree : ∀ j ∈ ({2, 3} : Finset (Fin 4)),
      slotVals 0 1 2 (s.Cs (y * c.q + x) z)
        (s.Cs (y * c.q + c.dg z y) (c.zw z x y))
        (s.Us (y * c.q + x) z) (s.Us (y * c.q + c.dg z y) (c.zw z x y)) j =
      c.pairWord Co Uo x y z j := by
    intro j hj
    fin_cases hj
    · show s.Us (y * c.q + x) z = _
      rw [hUxy]
      rfl
    · show s.Us (y * c.q + c.dg z y) (c.zw z x y) = _
      rw [hUsw]
      rfl
  have hout0 := hPft {2, 3} _ _ (by decide) hRel hagree 0 (by decide)
  have hout1 := hPft {2, 3} _ _ (by decide) hRel hagree 1 (by decide)
  have hw0 : c.pairWord Co Uo x y z 0 = Co (y * c.q + x) z := rfl
  have hw1 : c.pairWord Co Uo x y z 1 =
      Co (y * c.q + c.dg z y) (c.zw z x y) := rfl
  simp only [Ctx.getCoupFromUnc]
  simp only [St.setC]
  rw [hout0, hout1, hw0, hw1]
  by_cases c1 : i' = y * c.q + x ∧ z' = z
  · have c2 : ¬ (i' = y * c.q + c.dg z y ∧ z' = c.zw z x y) := by
      rintro ⟨ha, -⟩
      exact hnode (c1.1.symm.trans ha)
    rw [if_neg c2, if_pos c1, if_pos c1]
  · by_cases c2 : i' = y * c.q + c.dg z y ∧ z' = c.zw z x y
    · rw [if_pos c2, if_neg c1, if_pos c2]
    · rw [if_neg c2, if_neg c1, if_neg c1, if_neg c2]

/-- Every uncoupled write of the pass-one body carries a codeword value,
so correct entries stay correct. -/
theorem deBody_pres {V : Type} (c : Ctx V)
    (IsMds : (ℕ → V) → Prop) (Rel : (Fin 4 → V) → Prop)
    (hPft : c.PftOk Rel) (Co Uo : ℕ → ℕ → V) (hW : c.IsCw IsMds Rel Co Uo)
    (hq : 1 ≤ c.q) (E : Finset ℕ) (hE : ∀ i ∈ E, i < c.n) (o z x y : ℕ)
    (hz : z < c.alpha) (hoz : c.ordOf E z = o) (hy : y < c.t) (hx : x < c.q)
    (s : St V) (hOff : c.COffE E Co s) (hRec : c.CRec E Co o s) (i' z' : ℕ)
    (hcor : s.Us i' z' = Uo i' z') :
    (c.deBody E z x y s).Us i' z' = Uo i' z' := by
  have hcm : c.q * y = y * c.q := Nat.mul_comm c.q y
  have hdq := c.dg_lt z y hq
  have hxyn := c.node_lt_n y x hy hx
  have hswn := c.node_lt_n y (c.dg z y) hy hdq
  have hza := c.zw_lt_alpha z x y hq hx hy hz
  simp only [Ctx.deBody]
  rw [hcm]
  by_cases hmem : y * c.q + x ∈ E
  · rw [if_pos hmem]
    exact hcor
  · rw [if_neg hmem]
    by_cases h1 : c.dg z y < x
    · rw [if_pos h1]
      have hCxy := hOff _ hxyn hmem z hz
      have hCsw : s.Cs (y * c.q + c.dg z y) (c.zw z x y) =
          Co (y * c.q + c.dg z y) (c.zw z x y) := by
        by_cases hsw : y * c.q + c.dg z y ∈ E
        · have hmz := ordOf_zw c E hE hq z x y hy hx
          rw [if_pos hsw, if_neg hmem] at hmz
          exact hRec _ hsw _ hza (by omega)
        · exact hOff _ hswn hsw _ hza
      rw [getUncFromCoup_Us c IsMds Rel hPft Co Uo hW hq x y z hy hx hz
        (by omega) s hCxy hCsw i' z']
      split_ifs with ha hb
      · rw [ha.1, ha.2]
      · rw [hb.1, hb.2]
      · exact hcor
    · by_cases h2 : c.dg z y = x
      · rw [if_neg h1, if_pos h2]
        simp only [St.setU]
        split_ifs with ha
        · rw [ha.1, ha.2, hOff _ hxyn hmem z hz]
          exact hW.2.2 y hy x hx z hz h2
        · exact hcor
      · rw [if_neg h1, if_neg h2]
        by_cases h3 : y * c.q + c.dg z y ∈ E
        · rw [if_pos h3]
          have hCxy := hOff _ hxyn hmem z hz
          have hCsw : s.Cs (y * c.q + c.dg z y) (c.zw z x y) =
              Co (y * c.q + c.dg z y) (c.zw z x y) := by
            have hmz := ordOf_zw c E hE hq z x y hy hx
            rw [if_pos h3, if_neg hmem] at hmz
            exact hRec _ h3 _ hza (by omega)
          rw [getUncFromCoup_Us c IsMds Rel hPft Co Uo hW hq x y z hy hx hz
            h2 s hCxy hCsw i' z']
          split_ifs with ha hb
          · rw [ha.1, ha.2]
          · rw [hb.1, hb.2]
          · exact hcor
        · rw [if_neg h3]
          exact hcor

/-- The pass-one body computes the uncoupled value of its own non-erased
vertex, except for a lo vertex whose companion survives (that one is
pushed by the sibling layer). -/
theorem deBody_estab {V : Type} (c : Ctx V)
    (IsMds : (ℕ → V) → Prop) (Rel : (Fin 4 → V) → Prop)
    (hPft : c.PftOk Rel) (Co Uo : ℕ → ℕ → V) (hW : c.IsCw IsMds Rel Co Uo)
    (hq : 1 ≤ c.q) (E : Finset ℕ) (hE : ∀ i ∈ E, i < c.n) (o z x y : ℕ)
    (hz : z < c.alpha) (hoz : c.ordOf E z = o) (hy : y < c.t) (hx : x < c.q)
    (s : St V) (hOff : c.COffE E Co s) (hRec : c.CRec E Co o s)
    (hmem : y * c.q + x ∉ E)
    (hcond : c.dg z y < x ∨ c.dg z y = x ∨ y * c.q + c.dg z y ∈ E) :
    (c.deBody E z x y s).Us (y * c.q + x) z = Uo (y * c.q + x) z := by
  have hcm : c.q * y = y * c.q := Nat.mul_comm c.q y
  have hdq := c.dg_lt z y hq
  have hxyn := c.node_lt_n y x hy hx
  have hswn := c.node_lt_n y (c.dg z y) hy hdq
  have hza := c.zw_lt_alpha z x y hq hx hy hz
  simp only [Ctx.deBody]
  rw [hcm, if_neg hmem]
  by_cases h1 : c.dg z y < x
  · rw [if_pos h1]
    have hCxy := hOff _ hxyn hmem z hz
    have hCsw : s.Cs (y * c.q + c.dg z y) (c.zw z x y) =
        Co (y * c.q + c.dg z y) (c.zw z x y) := by
      by_cases hsw : y * c.q + c.dg z y ∈ E
      · have hmz := ordOf_zw c E hE hq z x y hy hx
        rw [if_pos hsw, if_neg hmem] at hmz
        exact hRec _ hsw _ hza (by omega)
      · exact hOff _ hswn hsw _ hza
    rw [getUncFromCoup_Us c IsMds Rel hPft Co Uo hW hq x y z hy hx hz
      (by omega) s hCxy hCsw _ _]
    rw [if_pos ⟨rfl, rfl⟩]
  · by_cases h2 : c.dg z y = x
    · rw [if_neg h1, if_pos h2]
      simp only [St.setU]
      rw [if_pos ⟨trivial, trivial⟩, hOff _ hxyn hmem z hz]
      exact hW.2.2 y hy x hx z hz h2
    · have h3 : y * c.q + c.dg z y ∈ E := by
        rcases hcond with h | h | h
        · omega
        · exact absurd h h2
        · exact h
      rw [if_neg h1, if_neg h2, if_pos h3]
      have hCxy := hOff _ hxyn hmem z hz
      have hCsw : s.Cs (y * c.q + c.dg z y) (c.zw z x y) =
          Co (y * c.q + c.dg z y) (c.zw z x y) := by
        have hmz := ordOf_zw c E hE hq z x y hy hx
        rw [if_pos h3, if_neg hmem] at hmz
        exact hRec _ h3 _ hza (by omega)
      rw [getUncFromCoup_Us c IsMds Rel hPft Co Uo hW hq x y z hy hx hz
        h2 s hCxy hCsw _ _]
      rw [if_pos ⟨rfl, rfl⟩]

/-- The pass-one body at a non-erased hi vertex also pushes the uncoupled
value of its lo companion into the sibling layer. -/
theorem deBody_estab2 {V : Type} (c : Ctx V)
    (IsMds : (ℕ → V) → Prop) (Rel : (Fin 4 → V) → Prop)
    (hPft : c.PftOk Rel) (Co Uo : ℕ → ℕ → V) (hW : c.IsCw IsMds Rel Co Uo)
    (hq : 1 ≤ c.q) (E : Finset ℕ) (hE : ∀ i ∈ E, i < c.n) (o z x y : ℕ)
    (hz : z < c.alpha) (hoz : c.ordOf E z = o) (hy : y < c.t) (hx : x < c.q)
    (s : St V) (hOff : c.COffE E Co s) (hRec : c.CRec E Co o s)
    (hmem : y * c.q + x ∉ E) (hgt : c.dg z y < x) :
    (c.deBody E z x y s).Us (y * c.q + c.dg z y) (c.zw z x y) =
      Uo (y * c.q + c.dg z y) (c.zw z x y) := by
  have hcm : c.q * y = y * c.q := Nat.mul_comm c.q y
  have hdq := c.dg_lt z y hq
  have hxyn := c.node_lt_n y x hy hx
  have hswn := c.node_lt_n y (c.dg z y) hy hdq
  have hza := c.zw_lt_alpha z x y hq hx hy hz
  simp only [Ctx.deBody]
  rw [hcm, if_neg hmem, if_pos hgt]
  have hCxy := hOff _ hxyn hmem z hz
  have hCsw : s.Cs (y * c.q + c.dg z y) (c.zw z x y) =
      Co (y * c.q + c.dg z y) (c.zw z x y) := by
    by_cases hsw : y * c.q + c.dg z y ∈ E
    · have hmz := ordOf_zw c E hE hq z x y hy hx
      rw [if_pos hsw, if_neg hmem] at hmz
      exact hRec _ hsw _ hza (by omega)
    · exact hOff _ hswn hsw _ hza
  rw [getUncFromCoup_Us c IsMds Rel hPft Co Uo hW hq x y z hy hx hz
    (by omega) s hCxy hCsw _ _]
  have hne : ¬ (y * c.q + c.dg z y = y * c.q + x ∧ c.zw z x y = z) := by
    rintro ⟨ha, -⟩
    omega
  rw [if_neg hne, if_pos ⟨rfl, rfl⟩]

theorem foldl_Us {V : Type} (step : St V → ℕ → St V)
    (h : ∀ s a, (step s a).Us = s.Us) :
    ∀ (l : List ℕ) (s : St V), (l.foldl step s).Us = s.Us := by
  intro l
  induction l with
  | nil => intro s; rfl
  | cons a l ih => intro s; rw [List.foldl_cons, ih, h]

theorem decodeUncoupled_Us {V : Type} (c : Ctx V) (E : Finset ℕ) (z : ℕ)
    (s : St V) (i' z' : ℕ) :
    (c.decodeUncoupled E z s).Us i' z' =
      if i' ∈ E ∧ z' = z then c.mdsDec E (fun i => s.Us i z) i'
      else s.Us i' z' := rfl

theorem recBody_Us {V : Type} [Zero V] (c : Ctx V) (E : Finset ℕ) (z i : ℕ)
    (s : St V) : (c.recBody E z i s).Us = s.Us := by
  simp only [Ctx.recBody]
  split_ifs <;> rfl

/-- The pass-one body does not disturb the `C`-side invariants. -/
theorem deBody_pre {V : Type} (c : Ctx V) (Co : ℕ → ℕ → V) (E : Finset ℕ)
    (o z x y : ℕ) (s : St V)
    (h : c.COffE E Co s ∧ c.CRec E Co o s) :
    c.COffE E Co (c.deBody E z x y s) ∧ c.CRec E Co o (c.deBody E z x y s) := by
  constructor
  · intro i hi hiE z'' hz''
    rw [deBody_Cs]
    exact h.1 i hi hiE z'' hz''
  · intro i hi z'' hz'' ho
    rw [deBody_Cs]
    exact h.2 i hi z'' hz'' ho

theorem deInner_pre {V : Type} (c : Ctx V) (Co : ℕ → ℕ → V) (E : Finset ℕ)
    (o z x : ℕ) (l : List ℕ) (s : St V)
    (h : c.COffE E Co s ∧ c.CRec E Co o s) :
    c.COffE E Co (l.foldl (fun sy y => c.deBody E z x y sy) s) ∧
    c.CRec E Co o (l.foldl (fun sy y => c.deBody E z x y sy) s) := by
  constructor
  · intro i hi hiE z'' hz''
    rw [foldl_Cs _ (fun s y => deBody_Cs c E z x y s)]
    exact h.1 i hi hiE z'' hz''
  · intro i hi z'' hz'' ho
    rw [foldl_Cs _ (fun s y => deBody_Cs c E z x y s)]
    exact h.2 i hi z'' hz'' ho

/-- The inner (`y`) loop of `decode_erasures` keeps correct uncoupled
entries correct. -/
theorem deInner_presP {V : Type} (c : Ctx V)
    (IsMds : (ℕ → V) → Prop) (Rel : (Fin 4 → V) → Prop)
    (hPft : c.PftOk Rel) (Co Uo : ℕ → ℕ → V) (hW : c.IsCw IsMds Rel Co Uo)
    (hq : 1 ≤ c.q) (E : Finset ℕ) (hE : ∀ i ∈ E, i < c.n) (o z x : ℕ)
    (hz : z < c.alpha) (hoz : c.ordOf E z = o) (hx : x < c.q)
    (i' z' : ℕ) (s : St V)
    (hpre : c.COffE E Co s ∧ c.CRec E Co o s)
    (hp : s.Us i' z' = Uo i' z') :
    ((List.range c.t).foldl (fun sy y => c.deBody E z x y sy) s).Us i' z' =
      Uo i' z' :=
  foldl_pres _ (fun s => c.COffE E Co s ∧ c.CRec E Co o s)
    (fun s => s.Us i' z' = Uo i' z') (List.range c.t) s
    (fun s'' y _ h => deBody_pre c Co E o z x y s'' h)
    (fun s'' y hy h hc => deBody_pres c IsMds Rel hPft Co Uo hW hq E hE o z x y
      hz hoz (List.mem_range.mp hy) hx s'' h.1 h.2 i' z' hc)
    hpre hp

/-- The full double loop of `decode_erasures` keeps correct uncoupled
entries correct. -/
theorem deLoop_pres {V : Type} (c : Ctx V)
    (IsMds : (ℕ → V) → Prop) (Rel : (Fin 4 → V) → Prop)
    (hPft : c.PftOk Rel) (Co Uo : ℕ → ℕ → V) (hW : c.IsCw IsMds Rel Co Uo)
    (hq : 1 ≤ c.q) (E : Finset ℕ) (hE : ∀ i ∈ E, i < c.n) (o z : ℕ)
    (hz : z < c.alpha) (hoz : c.ordOf E z = o)
    (s : St V) (hOff : c.COffE E Co s) (hRec : c.CRec E Co o s) (i' z' : ℕ)
    (hcor : s.Us i' z' = Uo i' z') :
    ((List.range c.q).foldl
      (fun sx x => (List.range c.t).foldl (fun sy y => c.deBody E z x y sy) sx)
      s).Us i' z' = Uo i' z' :=
  foldl_pres _ (fun s => c.COffE E Co s ∧ c.CRec E Co o s)
    (fun s => s.Us i' z' = Uo i' z') (List.range c.q) s
    (fun s'' x _ h => deInner_pre c Co E o z x (List.range c.t) s'' h)
    (fun s'' x hx h hc => deInner_presP c IsMds Rel hPft Co Uo hW hq E hE o z x
      hz hoz (List.mem_range.mp hx) i' z' s'' h hc)
    ⟨hOff, hRec⟩ hcor

/-- The double loop of `decode_erasures` computes the uncoupled value of
every non-erased vertex whose value does not have to come from a later
sibling layer. -/
theorem deLoop_estab {V : Type} (c : Ctx V)
    (IsMds : (ℕ → V) → Prop) (Rel : (Fin 4 → V) → Prop)
    (hPft : c.PftOk Rel) (Co Uo : ℕ → ℕ → V) (hW : c.IsCw IsMds Rel Co Uo)
    (hq : 1 ≤ c.q) (E : Finset ℕ) (hE : ∀ i ∈ E, i < c.n) (o z : ℕ)
    (hz : z < c.alpha) (hoz : c.ordOf E z = o) (y0 x0 : ℕ)
    (hy0 : y0 < c.t) (hx0 : x0 < c.q) (hmem : y0 * c.q + x0 ∉ E)
    (hcond : c.dg z y0 < x0 ∨ c.dg z y0 = x0 ∨ y0 * c.q + c.dg z y0 ∈ E)
    (s : St V) (hOff : c.COffE E Co s) (hRec : c.CRec E Co o s) :
    ((List.range c.q).foldl
      (fun sx x => (List.range c.t).foldl (fun sy y => c.deBody E z x y sy) sx)
      s).Us (y0 * c.q + x0) z = Uo (y0 * c.q + x0) z := by
  refine foldl_estab _ (fun s => c.COffE E Co s ∧ c.CRec E Co o s)
    (fun s => s.Us (y0 * c.q + x0) z = Uo (y0 * c.q + x0) z) (List.range c.q) s
    (fun s'' x _ h => deInner_pre c Co E o z x (List.range c.t) s'' h)
    (fun s'' x hx h hc => deInner_presP c IsMds Rel hPft Co Uo hW hq E hE o z x
      hz hoz (List.mem_range.mp hx) _ _ s'' h hc)
    x0 (List.mem_range.mpr hx0) ?_ ⟨hOff, hRec⟩
  intro s' hpre
  refine foldl_estab _ (fun s => c.COffE E Co s ∧ c.CRec E Co o s)
    (fun s => s.Us (y0 * c.q + x0) z = Uo (y0 * c.q + x0) z) (List.range c.t) s'
    (fun s'' y _ h => deBody_pre c Co E o z x0 y s'' h)
    (fun s'' y hy h hc => deBody_pres c IsMds Rel hPft Co Uo hW hq E hE o z x0 y
      hz hoz (List.mem_range.mp hy) hx0 s'' h.1 h.2 _ _ hc)
    y0 (List.mem_range.mpr hy0) ?_ hpre
  intro s'' hpre2
  exact deBody_estab c IsMds Rel hPft Co Uo hW hq E hE o z x0 y0 hz hoz hy0 hx0
    s'' hpre2.1 hpre2.2 hmem hcond

/-- The double loop of `decode_erasures` also pushes, for every non-erased
hi vertex, the uncoupled value of its lo companion into the (smaller)
sibling layer. -/
theorem deLoop_estab2 {V : Type} (c : Ctx V)
    (IsMds : (ℕ → V) → Prop) (Rel : (Fin 4 → V) → Prop)
    (hPft : c.PftOk Rel) (Co Uo : ℕ → ℕ → V) (hW : c.IsCw IsMds Rel Co Uo)
    (hq : 1 ≤ c.q) (E : Finset ℕ) (hE : ∀ i ∈ E, i < c.n) (o z : ℕ)
    (hz : z < c.alpha) (hoz : c.ordOf E z = o) (y0 x0 : ℕ)
    (hy0 : y0 < c.t) (hx0 : x0 < c.q) (hmem : y0 * c.q + x0 ∉ E)
    (hgt : c.dg z y0 < x0)
    (s : St V) (hOff : c.COffE E Co s) (hRec : c.CRec E Co o s) :
    ((List.range c.q).foldl
      (fun sx x => (List.range c.t).foldl (fun sy y => c.deBody E z x y sy) sx)
      s).Us (y0 * c.q + c.dg z y0) (c.zw z x0 y0) =
      Uo (y0 * c.q + c.dg z y0) (c.zw z x0 y0) := by
  refine foldl_estab _ (fun s => c.COffE E Co s ∧ c.CRec E Co o s)
    (fun s => s.Us (y0 * c.q + c.dg z y0) (c.zw z x0 y0) =
      Uo (y0 * c.q + c.dg z y0) (c.zw z x0 y0)) (List.range c.q) s
    (fun s'' x _ h => deInner_pre c Co E o z x (List.range c.t) s'' h)
    (fun s'' x hx h hc => deInner_presP c IsMds Rel hPft Co Uo hW hq E hE o z x
      hz hoz (List.mem_range.mp hx) _ _ s'' h hc)
    x0 (List.mem_range.mpr hx0) ?_ ⟨hOff, hRec⟩
  intro s' hpre
  refine foldl_estab _ (fun s => c.COffE E Co s ∧ c.CRec E Co o s)
    (fun s => s.Us (y0 * c.q + c.dg z y0) (c.zw z x0 y0) =
      Uo (y0 * c.q + c.dg z y0) (c.zw z x0 y0)) (List.range c.t) s'
    (fun s'' y _ h => deBody_pre c Co E o z x0 y s'' h)
    (fun s'' y hy h hc => deBody_pres c IsMds Rel hPft Co Uo hW hq E hE o z x0 y
      hz hoz (List.mem_range.mp hy) hx0 s'' h.1 h.2 _ _ hc)
    y0 (List.mem_range.mpr hy0) ?_ hpre
  intro s'' hpre2
  exact deBody_estab2 c IsMds Rel hPft Co Uo hW hq E hE o z x0 y0 hz hoz hy0 hx0
    s'' hpre2.1 hpre2.2 hmem hgt

theorem layersOf_pairwise {V : Type} (c : Ctx V) (E : Finset ℕ) (o : ℕ) :
    (c.layersOf E o).Pairwise (· < ·) :=
  List.Pairwise.filter _ (List.pairwise_lt_range c.alpha)

theorem layersOf_mem {V : Type} (c : Ctx V) (E : Finset ℕ) (o z : ℕ) :
    z ∈ c.layersOf E o ↔ z < c.alpha ∧ c.ordOf E z = o := by
  rw [Ctx.layersOf, List.mem_filter, List.mem_range]
  constructor
  · rintro ⟨h1, h2⟩
    exact ⟨h1, of_decide_eq_true h2⟩
  · rintro ⟨h1, h2⟩
    exact ⟨h1, decide_eq_true h2⟩

/-- Processing one layer of the current score with `decode_erasures`
advances the pass-one invariant. -/
theorem decodeErasures_P1step {V : Type} (c : Ctx V)
    (IsMds : (ℕ → V) → Prop) (Rel : (Fin 4 → V) → Prop)
    (hMds : c.MdsOk IsMds) (hPft : c.PftOk Rel)
    (Co Uo : ℕ → ℕ → V) (hW : c.IsCw IsMds Rel Co Uo) (hq : 1 ≤ c.q)
    (E : Finset ℕ) (hE : ∀ i ∈ E, i < c.n) (hcard : E.card ≤ c.m)
    (o : ℕ) (S : Finset ℕ) (z : ℕ) (hz : z < c.alpha)
    (hoz : c.ordOf E z = o) (hzS : z ∉ S)
    (hsmall : ∀ z' < c.alpha, c.ordOf E z' = o → z' < z → z' ∈ S)
    (s : St V) (hInv : c.P1Inv E Co Uo o S s) :
    c.P1Inv E Co Uo o (insert z S) (c.decodeErasures E z s) := by
  obtain ⟨hOff, hRec, hUL, hS4, hS5⟩ := hInv
  have hq0 : 0 < c.q := hq
  obtain ⟨s1, hs1⟩ : ∃ s1, (List.range c.q).foldl
      (fun sx x => (List.range c.t).foldl (fun sy y => c.deBody E z x y sy) sx)
      s = s1 := ⟨_, rfl⟩
  have hCs1 : s1.Cs = s.Cs := by
    rw [← hs1]
    exact foldl_Cs _
      (fun s'' x => foldl_Cs _ (fun s''' y => deBody_Cs c E z x y s''')
        (List.range c.t) s'') (List.range c.q) s
  have hOff1 : c.COffE E Co s1 := by
    intro i hi hiE z'' hz''
    rw [hCs1]
    exact hOff i hi hiE z'' hz''
  have hRec1 : c.CRec E Co o s1 := by
    intro i hi z'' hz'' ho
    rw [hCs1]
    exact hRec i hi z'' hz'' ho
  have hpres : ∀ i' z', s.Us i' z' = Uo i' z' → s1.Us i' z' = Uo i' z' := by
    intro i' z' h
    rw [← hs1]
    exact deLoop_pres c IsMds Rel hPft Co Uo hW hq E hE o z hz hoz s hOff hRec
      i' z' h
  have hagree : ∀ i < c.n, i ∉ E → s1.Us i z = Uo i z := by
    intro i hi hiE
    have hxq : i % c.q < c.q := Nat.mod_lt _ hq0
    have hyt : i / c.q < c.t := by
      refine (Nat.div_lt_iff_lt_mul hq0).mpr ?_
      have h1 : i < c.q * c.t := hi
      have h2 : c.q * c.t = c.t * c.q := Nat.mul_comm _ _
      omega
    have hnd : i / c.q * c.q + i % c.q = i := node_decomp c.q i
    rcases Nat.lt_trichotomy (c.dg z (i / c.q)) (i % c.q) with hlt | heq | hgt
    · have h := deLoop_estab c IsMds Rel hPft Co Uo hW hq E hE o z hz hoz
        (i / c.q) (i % c.q) hyt hxq (by rw [hnd]; exact hiE) (Or.inl hlt)
        s hOff hRec
      rw [hs1, hnd] at h
      exact h
    · have h := deLoop_estab c IsMds Rel hPft Co Uo hW hq E hE o z hz hoz
        (i / c.q) (i % c.q) hyt hxq (by rw [hnd]; exact hiE)
        (Or.inr (Or.inl heq)) s hOff hRec
      rw [hs1, hnd] at h
      exact h
    · by_cases hsw : i / c.q * c.q + c.dg z (i / c.q) ∈ E
      · have h := deLoop_estab c IsMds Rel hPft Co Uo hW hq E hE o z hz hoz
          (i / c.q) (i % c.q) hyt hxq (by rw [hnd]; exact hiE)
          (Or.inr (Or.inr hsw)) s hOff hRec
        rw [hs1, hnd] at h
        exact h
      · have hzsa := c.zw_lt_alpha z (i % c.q) (i / c.q) hq hxq hyt hz
        have hzlt : c.zw z (i % c.q) (i / c.q) < z :=
          zsw_lt c.q c.t z (i % c.q) (i / c.q) hq hgt
        have hmz := ordOf_zw c E hE hq z (i % c.q) (i / c.q) hyt hxq
        rw [if_neg hsw, if_neg (by rw [hnd]; exact hiE)] at hmz
        have hordzs : c.ordOf E (c.zw z (i % c.q) (i / c.q)) = o := by omega
        have hzsS : c.zw z (i % c.q) (i / c.q) ∈ S :=
          hsmall _ hzsa hordzs hzlt
        have h5 := hS5 z hz hoz hzS (i / c.q) hyt (i % c.q) hxq hgt
          (by rw [hnd]; exact hiE) hsw hzsS
        have h := hpres _ _ h5
        rw [hnd] at h
        exact h
  have hMval : ∀ i ∈ E, i < c.n →
      c.mdsDec E (fun j => s1.Us j z) i = Uo i z :=
    hMds E (fun j => s1.Us j z) (fun j => Uo j z) hcard (hW.1 z hz)
      (fun j hj hjE => hagree j hj hjE)
  simp only [Ctx.decodeErasures]
  rw [hs1]
  refine ⟨?_, ?_, ?_, ?_, ?_⟩
  · intro i hi hiE z'' hz''
    rw [decodeUncoupled_Cs]
    exact hOff1 i hi hiE z'' hz''
  · intro i hi z'' hz'' ho
    rw [decodeUncoupled_Cs]
    exact hRec1 i hi z'' hz'' ho
  · intro i hi z'' hz'' ho
    rw [decodeUncoupled_Us,
      if_neg (by rintro ⟨-, hzz⟩; rw [hzz] at ho; omega)]
    exact hpres i z'' (hUL i hi z'' hz'' ho)
  · intro z'' hz''m i hi
    rw [decodeUncoupled_Us]
    rcases Finset.mem_insert.mp hz''m with hzz | hzS'
    · by_cases hiE : i ∈ E
      · rw [if_pos ⟨hiE, hzz⟩, hzz]
        exact hMval i hiE hi
      · rw [if_neg (by rintro ⟨h, -⟩; exact hiE h), hzz]
        exact hagree i hi hiE
    · have hne : z'' ≠ z := fun h => hzS (h ▸ hzS')
      rw [if_neg (by rintro ⟨-, h⟩; exact hne h)]
      exact hpres i z'' (hS4 z'' hzS' i hi)
  · intro z0 hz0 ho0 hz0S y hyt x hxq hlt hnE hswE hzwS
    have hz0ne : z0 ≠ z := fun h => hz0S (h ▸ Finset.mem_insert_self z S)
    have hz0nS : z0 ∉ S := fun h => hz0S (Finset.mem_insert_of_mem h)
    rw [decodeUncoupled_Us, if_neg (by rintro ⟨-, h⟩; exact hz0ne h)]
    rcases Finset.mem_insert.mp hzwS with hzw | hzwS'
    · have hdq : c.dg z0 y < c.q := c.dg_lt z0 y hq
      have hdd : c.dg (c.zw z0 x y) y = x := c.dg_zw_self z0 x y hq hxq
      have hzz2 : c.zw (c.zw z0 x y) (c.dg z0 y) y = z0 := c.zw_zw z0 x y hq hxq
      have hgt' : c.dg z y < c.dg z0 y := by rw [← hzw, hdd]; exact hlt
      have hest2 := deLoop_estab2 c IsMds Rel hPft Co Uo hW hq E hE o z hz hoz
        y (c.dg z0 y) hyt hdq hswE hgt' s hOff hRec
      have hdgz : c.dg z y = x := by rw [← hzw]; exact hdd
      have hzwz : c.zw z (c.dg z0 y) y = z0 := by rw [← hzw]; exact hzz2
      rw [hs1, hdgz, hzwz] at hest2
      exact hest2
    · exact hpres _ _ (hS5 z0 hz0 ho0 hz0nS y hyt x hxq hlt hnE hswE hzwS')

/-- Pass one of a `decode_layered` round: after `decode_erasures` over all
layers of score `o` the pass-one invariant holds at the full layer set. -/
theorem pass1_P1Inv {V : Type} (c : Ctx V)
    (IsMds : (ℕ → V) → Prop) (Rel : (Fin 4 → V) → Prop)
    (hMds : c.MdsOk IsMds) (hPft : c.PftOk Rel)
    (Co Uo : ℕ → ℕ → V) (hW : c.IsCw IsMds Rel Co Uo) (hq : 1 ≤ c.q)
    (E : Finset ℕ) (hE : ∀ i ∈ E, i < c.n) (hcard : E.card ≤ c.m)
    (o : ℕ) (s : St V) (hR : c.RoundInv E Co Uo o s) :
    c.P1Inv E Co Uo o
      ((Finset.range c.alpha).filter (fun z => c.ordOf E z = o))
      ((c.layersOf E o).foldl (fun s z => c.decodeErasures E z s) s) := by
  refine foldl_sorted_inv _ _ (c.P1Inv E Co Uo o) ?_ (c.layersOf E o) ∅ s
    (layersOf_pairwise c E o) ?_ ?_ ?_ ?_ ?_
  · intro S s' z hzAll hzS hsm hInv
    rw [Finset.mem_filter, Finset.mem_range] at hzAll
    refine decodeErasures_P1step c IsMds Rel hMds hPft Co Uo hW hq E hE hcard
      o S z hzAll.1 hzAll.2 hzS ?_ s' hInv
    intro z' hz' ho' hlt
    exact hsm z' (Finset.mem_filter.mpr ⟨Finset.mem_range.mpr hz', ho'⟩) hlt
  · intro z hzl
    rw [layersOf_mem] at hzl
    exact Finset.mem_filter.mpr ⟨Finset.mem_range.mpr hzl.1, hzl.2⟩
  · intro z _
    exact Finset.not_mem_empty z
  · intro z' hz' _
    rw [Finset.mem_filter, Finset.mem_range] at hz'
    exact (layersOf_mem c E o z').mpr hz'
  · intro z hz
    exact absurd hz (Finset.not_mem_empty z)
  · obtain ⟨h1, h2, h3⟩ := hR
    exact ⟨h1, h2, h3,
      fun z hz => absurd hz (Finset.not_mem_empty z),
      fun z hza hzo hzs y hy x hx hxd hnE hswE hzw =>
        absurd hzw (Finset.not_mem_empty _)⟩

/-- The coupled-recovery body does not disturb `C` off the erased set nor
any `U` entry. -/
theorem recBody_pre {V : Type} [Zero V] (c : Ctx V) (Co Uo : ℕ → ℕ → V)
    (E : Finset ℕ) (o z i : ℕ) (hi : i ∈ E) (s : St V)
    (h : c.COffE E Co s ∧ c.ULow E Uo (o + 1) s) :
    c.COffE E Co (c.recBody E z i s) ∧
    c.ULow E Uo (o + 1) (c.recBody E z i s) := by
  constructor
  · intro j hj hjE z'' hz''
    rw [recBody_Cs_offE c E z i hi s j hjE z'']
    exact h.1 j hj hjE z'' hz''
  · intro j hj z'' hz'' ho'
    rw [recBody_Us]
    exact h.2 j hj z'' hz'' ho'

/-- Every coupled write of the recovery body carries a codeword value, so
correct coupled entries stay correct. -/
theorem recBody_Cs_pres {V : Type} [Zero V] (c : Ctx V)
    (IsMds : (ℕ → V) → Prop) (Rel : (Fin 4 → V) → Prop)
    (hPft : c.PftOk Rel) (Co Uo : ℕ → ℕ → V) (hW : c.IsCw IsMds Rel Co Uo)
    (hq : 1 ≤ c.q) (E : Finset ℕ) (hE : ∀ i ∈ E, i < c.n) (o z : ℕ)
    (hz : z < c.alpha) (hoz : c.ordOf E z = o) (i : ℕ) (hi : i ∈ E)
    (s : St V) (hOff : c.COffE E Co s) (hUL : c.ULow E Uo (o + 1) s)
    (i' z' : ℕ) (hcor : s.Cs i' z' = Co i' z') :
    (c.recBody E z i s).Cs i' z' = Co i' z' := by
  have hin : i < c.n := hE i hi
  have hq0 : 0 < c.q := hq
  have hxq : i % c.q < c.q := Nat.mod_lt _ hq0
  have hyt : i / c.q < c.t := by
    refine (Nat.div_lt_iff_lt_mul hq0).mpr ?_
    have h1 : i < c.q * c.t := hin
    have h2 : c.q * c.t = c.t * c.q := Nat.mul_comm _ _
    omega
  have hnd : i / c.q * c.q + i % c.q = i := node_decomp c.q i
  simp only [Ctx.recBody]
  by_cases hd : c.dg z (i / c.q) ≠ i % c.q
  · rw [if_pos hd]
    by_cases hsw : i / c.q * c.q + c.dg z (i / c.q) ∉ E
    · rw [if_pos hsw]
      have hswn := c.node_lt_n (i / c.q) (c.dg z (i / c.q)) hyt
        (c.dg_lt z (i / c.q) hq)
      have hCsw : s.Cs (i / c.q * c.q + c.dg z (i / c.q))
          (c.zw z (i % c.q) (i / c.q)) =
          Co (i / c.q * c.q + c.dg z (i / c.q))
            (c.zw z (i % c.q) (i / c.q)) :=
        hOff _ hswn hsw _ (c.zw_lt_alpha z (i % c.q) (i / c.q) hq hxq hyt hz)
      have hUxy : s.Us (i / c.q * c.q + i % c.q) z =
          Uo (i / c.q * c.q + i % c.q) z := by
        rw [hnd]
        exact hUL i hin z hz (by omega)
      rw [recoverType1_Cs_val c IsMds Rel hPft Co Uo hW hq (i % c.q) (i / c.q)
        z hyt hxq hz hd s hCsw hUxy i' z']
      split_ifs with ha
      · rw [ha.1, ha.2]
      · exact hcor
    · rw [if_neg hsw]
      push_neg at hsw
      by_cases hlt : c.dg z (i / c.q) < i % c.q
      · rw [if_pos hlt]
        have hUxy : s.Us (i / c.q * c.q + i % c.q) z =
            Uo (i / c.q * c.q + i % c.q) z := by
          rw [hnd]
          exact hUL i hin z hz (by omega)
        have hzsA := c.zw_lt_alpha z (i % c.q) (i / c.q) hq hxq hyt hz
        have hordzs : c.ordOf E (c.zw z (i % c.q) (i / c.q)) = o := by
          have hmz := ordOf_zw c E hE hq z (i % c.q) (i / c.q) hyt hxq
          rw [if_pos hsw, if_pos (by rw [hnd]; exact hi)] at hmz
          omega
        have hswn := c.node_lt_n (i / c.q) (c.dg z (i / c.q)) hyt
          (c.dg_lt z (i / c.q) hq)
        have hUsw : s.Us (i / c.q * c.q + c.dg z (i / c.q))
            (c.zw z (i % c.q) (i / c.q)) =
            Uo (i / c.q * c.q + c.dg z (i / c.q))
              (c.zw z (i % c.q) (i / c.q)) :=
          hUL _ hswn _ hzsA (by omega)
        rw [getCoupFromUnc_Cs_val c IsMds Rel hPft Co Uo hW hq (i % c.q)
          (i / c.q) z hyt hxq hz hlt s hUxy hUsw i' z']
        split_ifs with ha hb
        · rw [ha.1, ha.2]
        · rw [hb.1, hb.2]
        · exact hcor
      · rw [if_neg hlt]
        exact hcor
  · rw [if_neg hd]
    push_neg at hd
    simp only [St.setC]
    split_ifs with ha
    · rw [ha.1, ha.2, hUL i hin z hz (by omega)]
      have hW3 := hW.2.2 (i / c.q) hyt (i % c.q) hxq z hz hd
      rw [hnd] at hW3
      exact hW3.symm
    · exact hcor

/-- The recovery body computes the coupled value of its own erased vertex,
except for a lo vertex whose companion is also erased (that one is pushed
by the sibling layer). -/
theorem recBody_estab {V : Type} [Zero V] (c : Ctx V)
    (IsMds : (ℕ → V) → Prop) (Rel : (Fin 4 → V) → Prop)
    (hPft : c.PftOk Rel) (Co Uo : ℕ → ℕ → V) (hW : c.IsCw IsMds Rel Co Uo)
    (hq : 1 ≤ c.q) (E : Finset ℕ) (hE : ∀ i ∈ E, i < c.n) (o z : ℕ)
    (hz : z < c.alpha) (hoz : c.ordOf E z = o) (i : ℕ) (hi : i ∈ E)
    (s : St V) (hOff : c.COffE E Co s) (hUL : c.ULow E Uo (o + 1) s)
    (hcond : c.dg z (i / c.q) < i % c.q ∨ c.dg z (i / c.q) = i % c.q ∨
      i / c.q * c.q + c.dg z (i / c.q) ∉ E) :
    (c.recBody E z i s).Cs i z = Co i z := by
  have hin : i < c.n := hE i hi
  have hq0 : 0 < c.q := hq
  have hxq : i % c.q < c.q := Nat.mod_lt _ hq0
  have hyt : i / c.q < c.t := by
    refine (Nat.div_lt_iff_lt_mul hq0).mpr ?_
    have h1 : i < c.q * c.t := hin
    have h2 : c.q * c.t = c.t * c.q := Nat.mul_comm _ _
    omega
  have hnd : i / c.q * c.q + i % c.q = i := node_decomp c.q i
  simp only [Ctx.recBody]
  by_cases hd : c.dg z (i / c.q) ≠ i % c.q
  · rw [if_pos hd]
    by_cases hsw : i / c.q * c.q + c.dg z (i / c.q) ∉ E
    · rw [if_pos hsw]
      have hswn := c.node_lt_n (i / c.q) (c.dg z (i / c.q)) hyt
        (c.dg_lt z (i / c.q) hq)
      have hCsw : s.Cs (i / c.q * c.q + c.dg z (i / c.q))
          (c.zw z (i % c.q) (i / c.q)) =
          Co (i / c.q * c.q + c.dg z (i / c.q))
            (c.zw z (i % c.q) (i / c.q)) :=
        hOff _ hswn hsw _ (c.zw_lt_alpha z (i % c.q) (i / c.q) hq hxq hyt hz)
      have hUxy : s.Us (i / c.q * c.q + i % c.q) z =
          Uo (i / c.q * c.q + i % c.q) z := by
        rw [hnd]
        exact hUL i hin z hz (by omega)
      rw [recoverType1_Cs_val c IsMds Rel hPft Co Uo hW hq (i % c.q) (i / c.q)
        z hyt hxq hz hd s hCsw hUxy i z, if_pos ⟨hnd.symm, rfl⟩, hnd]
    · rw [if_neg hsw]
      push_neg at hsw
      have hlt : c.dg z (i / c.q) < i % c.q := by
        rcases hcond with h | h | h
        · exact h
        · exact absurd h hd
        · exact absurd hsw h
      rw [if_pos hlt]
      have hUxy : s.Us (i / c.q * c.q + i % c.q) z =
          Uo (i / c.q * c.q + i % c.q) z := by
        rw [hnd]
        exact hUL i hin z hz (by omega)
      have hzsA := c.zw_lt_alpha z (i % c.q) (i / c.q) hq hxq hyt hz
      have hordzs : c.ordOf E (c.zw z (i % c.q) (i / c.q)) = o := by
        have hmz := ordOf_zw c E hE hq z (i % c.q) (i / c.q) hyt hxq
        rw [if_pos hsw, if_pos (by rw [hnd]; exact hi)] at hmz
        omega
      have hswn := c.node_lt_n (i / c.q) (c.dg z (i / c.q)) hyt
        (c.dg_lt z (i / c.q) hq)
      have hUsw : s.Us (i / c.q * c.q + c.dg z (i / c.q))
          (c.zw z (i % c.q) (i / c.q)) =
          Uo (i / c.q * c.q + c.dg z (i / c.q))
            (c.zw z (i % c.q) (i / c.q)) :=
        hUL _ hswn _ hzsA (by omega)
      rw [getCoupFromUnc_Cs_val c IsMds Rel hPft Co Uo hW hq (i % c.q)
        (i / c.q) z hyt hxq hz hlt s hUxy hUsw i z,
        if_pos ⟨hnd.symm, rfl⟩, hnd]
  · rw [if_neg hd]
    push_neg at hd
    simp only [St.setC]
    rw [if_pos ⟨trivial, trivial⟩, hUL i hin z hz (by omega)]
    have hW3 := hW.2.2 (i / c.q) hyt (i % c.q) hxq z hz hd
    rw [hnd] at hW3
    exact hW3.symm

/-- The recovery body at an erased hi vertex with erased companion also
writes the companion's coupled value into the sibling layer. -/
theorem recBody_estab2 {V : Type} [Zero V] (c : Ctx V)
    (IsMds : (ℕ → V) → Prop) (Rel : (Fin 4 → V) → Prop)
    (hPft : c.PftOk Rel) (Co Uo : ℕ → ℕ → V) (hW : c.IsCw IsMds Rel Co Uo)
    (hq : 1 ≤ c.q) (E : Finset ℕ) (hE : ∀ i ∈ E, i < c.n) (o z : ℕ)
    (hz : z < c.alpha) (hoz : c.ordOf E z = o) (i : ℕ) (hi : i ∈ E)
    (s : St V) (hOff : c.COffE E Co s) (hUL : c.ULow E Uo (o + 1) s)
    (hlt : c.dg z (i / c.q) < i % c.q)
    (hswE : i / c.q * c.q + c.dg z (i / c.q) ∈ E) :
    (c.recBody E z i s).Cs (i / c.q * c.q + c.dg z (i / c.q))
      (c.zw z (i % c.q) (i / c.q)) =
      Co (i / c.q * c.q + c.dg z (i / c.q)) (c.zw z (i % c.q) (i / c.q)) := by
  have hin : i < c.n := hE i hi
  have hq0 : 0 < c.q := hq
  have hxq : i % c.q < c.q := Nat.mod_lt _ hq0
  have hyt : i / c.q < c.t := by
    refine (Nat.div_lt_iff_lt_mul hq0).mpr ?_
    have h1 : i < c.q * c.t := hin
    have h2 : c.q * c.t = c.t * c.q := Nat.mul_comm _ _
    omega
  have hnd : i / c.q * c.q + i % c.q = i := node_decomp c.q i
  simp only [Ctx.recBody]
  rw [if_pos (by omega : c.dg z (i / c.q) ≠ i % c.q),
    if_neg (by exact fun h => h hswE), if_pos hlt]
  have hUxy : s.Us (i / c.q * c.q + i % c.q) z =
      Uo (i / c.q * c.q + i % c.q) z := by
    rw [hnd]
    exact hUL i hin z hz (by omega)
  have hzsA := c.zw_lt_alpha z (i % c.q) (i / c.q) hq hxq hyt hz
  have hordzs : c.ordOf E (c.zw z (i % c.q) (i / c.q)) = o := by
    have hmz := ordOf_zw c E hE hq z (i % c.q) (i / c.q) hyt hxq
    rw [if_pos hswE, if_pos (by rw [hnd]; exact hi)] at hmz
    omega
  have hswn := c.node_lt_n (i / c.q) (c.dg z (i / c.q)) hyt
    (c.dg_lt z (i / c.q) hq)
  have hUsw : s.Us (i / c.q * c.q + c.dg z (i / c.q))
      (c.zw z (i % c.q) (i / c.q)) =
      Uo (i / c.q * c.q + c.dg z (i / c.q)) (c.zw z (i % c.q) (i / c.q)) :=
    hUL _ hswn _ hzsA (by omega)
  rw [getCoupFromUnc_Cs_val c IsMds Rel hPft Co Uo hW hq (i % c.q) (i / c.q)
    z hyt hxq hz hlt s hUxy hUsw _ _,
    if_neg (by rintro ⟨ha, -⟩; omega), if_pos ⟨rfl, rfl⟩]

/-- Processing one layer of the current score with the coupled-recovery
loop advances the pass-two invariant. -/
theorem pass2_P2step {V : Type} [Zero V] (c : Ctx V)
    (IsMds : (ℕ → V) → Prop) (Rel : (Fin 4 → V) → Prop)
    (hPft : c.PftOk Rel) (Co Uo : ℕ → ℕ → V) (hW : c.IsCw IsMds Rel Co Uo)
    (hq : 1 ≤ c.q) (E : Finset ℕ) (hE : ∀ i ∈ E, i < c.n)
    (o : ℕ) (S : Finset ℕ) (z : ℕ) (hz : z < c.alpha)
    (hoz : c.ordOf E z = o) (hzS : z ∉ S)
    (hsmall : ∀ z' < c.alpha, c.ordOf E z' = o → z' < z → z' ∈ S)
    (s : St V) (hInv : c.P2Inv E Co Uo o S s) :
    c.P2Inv E Co Uo o (insert z S)
      ((E.sort (· ≤ ·)).foldl (fun s i => c.recBody E z i s) s) := by
  obtain ⟨hOff, hRec, hUL, hS4, hS5⟩ := hInv
  have hq0 : 0 < c.q := hq
  have hUs : ((E.sort (· ≤ ·)).foldl (fun s i => c.recBody E z i s) s).Us =
      s.Us :=
    foldl_Us _ (fun s'' i => recBody_Us c E z i s'') _ s
  have hpres : ∀ i' z', s.Cs i' z' = Co i' z' →
      ((E.sort (· ≤ ·)).foldl (fun s i => c.recBody E z i s) s).Cs i' z' =
        Co i' z' := by
    intro i' z' h
    exact foldl_pres _ (fun s => c.COffE E Co s ∧ c.ULow E Uo (o + 1) s)
      (fun s => s.Cs i' z' = Co i' z') (E.sort (· ≤ ·)) s
      (fun s'' i hi h2 => recBody_pre c Co Uo E o z i
        ((Finset.mem_sort _).mp hi) s'' h2)
      (fun s'' i hi h2 hc => recBody_Cs_pres c IsMds Rel hPft Co Uo hW hq E hE
        o z hz hoz i ((Finset.mem_sort _).mp hi) s'' h2.1 h2.2 i' z' hc)
      ⟨hOff, hUL⟩ h
  have hestab : ∀ i ∈ E,
      (c.dg z (i / c.q) < i % c.q ∨ c.dg z (i / c.q) = i % c.q ∨
        i / c.q * c.q + c.dg z (i / c.q) ∉ E) →
      ((E.sort (· ≤ ·)).foldl (fun s i => c.recBody E z i s) s).Cs i z =
        Co i z := by
    intro i hi hcond
    exact foldl_estab _ (fun s => c.COffE E Co s ∧ c.ULow E Uo (o + 1) s)
      (fun s => s.Cs i z = Co i z) (E.sort (· ≤ ·)) s
      (fun s'' j hj h2 => recBody_pre c Co Uo E o z j
        ((Finset.mem_sort _).mp hj) s'' h2)
      (fun s'' j hj h2 hc => recBody_Cs_pres c IsMds Rel hPft Co Uo hW hq E hE
        o z hz hoz j ((Finset.mem_sort _).mp hj) s'' h2.1 h2.2 i z hc)
      i ((Finset.mem_sort _).mpr hi)
      (fun s'' h2 => recBody_estab c IsMds Rel hPft Co Uo hW hq E hE o z hz hoz
        i hi s'' h2.1 h2.2 hcond)
      ⟨hOff, hUL⟩
  have hestab2 : ∀ i ∈ E, c.dg z (i / c.q) < i % c.q →
      i / c.q * c.q + c.dg z (i / c.q) ∈ E →
      ((E.sort (· ≤ ·)).foldl (fun s i => c.recBody E z i s) s).Cs
        (i / c.q * c.q + c.dg z (i / c.q)) (c.zw z (i % c.q) (i / c.q)) =
        Co (i / c.q * c.q + c.dg z (i / c.q))
          (c.zw z (i % c.q) (i / c.q)) := by
    intro i hi hlt hswE
    exact foldl_estab _ (fun s => c.COffE E Co s ∧ c.ULow E Uo (o + 1) s)
      (fun s => s.Cs (i / c.q * c.q + c.dg z (i / c.q))
        (c.zw z (i % c.q) (i / c.q)) =
        Co (i / c.q * c.q + c.dg z (i / c.q))
          (c.zw z (i % c.q) (i / c.q))) (E.sort (· ≤ ·)) s
      (fun s'' j hj h2 => recBody_pre c Co Uo E o z j
        ((Finset.mem_sort _).mp hj) s'' h2)
      (fun s'' j hj h2 hc => recBody_Cs_pres c IsMds Rel hPft Co Uo hW hq E hE
        o z hz hoz j ((Finset.mem_sort _).mp hj) s'' h2.1 h2.2 _ _ hc)
      i ((Finset.mem_sort _).mpr hi)
      (fun s'' h2 => recBody_estab2 c IsMds Rel hPft Co Uo hW hq E hE o z hz
        hoz i hi s'' h2.1 h2.2 hlt hswE)
      ⟨hOff, hUL⟩
  refine ⟨?_, ?_, ?_, ?_, ?_⟩
  · intro j hj hjE z'' hz''
    exact hpres j z'' (hOff j hj hjE z'' hz'')
  · intro j hj z'' hz'' ho'
    exact hpres j z'' (hRec j hj z'' hz'' ho')
  · intro j hj z'' hz'' ho'
    rw [hUs]
    exact hUL j hj z'' hz'' ho'
  · intro z'' hz''m j hj
    rcases Finset.mem_insert.mp hz''m with hzz | hzS'
    · subst hzz
      have hjn : j < c.n := hE j hj
      have hxq : j % c.q < c.q := Nat.mod_lt _ hq0
      have hyt : j / c.q < c.t := by
        refine (Nat.div_lt_iff_lt_mul hq0).mpr ?_
        have ha1 : j < c.q * c.t := hjn
        have ha2 : c.q * c.t = c.t * c.q := Nat.mul_comm _ _
        omega
      have hnd : j / c.q * c.q + j % c.q = j := node_decomp c.q j
      by_cases hcnd : c.dg z'' (j / c.q) < j % c.q ∨
          c.dg z'' (j / c.q) = j % c.q ∨
          j / c.q * c.q + c.dg z'' (j / c.q) ∉ E
      · exact hestab j hj hcnd
      · push_neg at hcnd
        obtain ⟨hc1, hc2, hc3⟩ := hcnd
        have hgt : j % c.q < c.dg z'' (j / c.q) := by omega
        have hzsA := c.zw_lt_alpha z'' (j % c.q) (j / c.q) hq hxq hyt hz
        have hzlt : c.zw z'' (j % c.q) (j / c.q) < z'' :=
          zsw_lt c.q c.t z'' (j % c.q) (j / c.q) hq hgt
        have hordzs : c.ordOf E (c.zw z'' (j % c.q) (j / c.q)) = o := by
          have hmz := ordOf_zw c E hE hq z'' (j % c.q) (j / c.q) hyt hxq
          rw [if_pos hc3, if_pos (by rw [hnd]; exact hj)] at hmz
          omega
        have hzsS := hsmall _ hzsA hordzs hzlt
        have h5 := hS5 z'' hz hoz hzS (j / c.q) hyt (j % c.q) hxq hgt
          (by rw [hnd]; exact hj) hc3 hzsS
        have h := hpres _ _ h5
        rw [hnd] at h
        exact h
    · exact hpres j z'' (hS4 z'' hzS' j hj)
  · intro z0 hz0 ho0 hz0S y hyt x hxq hlt hnE hswE hzwS
    have hz0nS : z0 ∉ S := fun h => hz0S (Finset.mem_insert_of_mem h)
    rcases Finset.mem_insert.mp hzwS with hzw | hzwS'
    · have hdq : c.dg z0 y < c.q := c.dg_lt z0 y hq
      have hdd : c.dg (c.zw z0 x y) y = x := c.dg_zw_self z0 x y hq hxq
      have hzz2 : c.zw (c.zw z0 x y) (c.dg z0 y) y = z0 :=
        c.zw_zw z0 x y hq hxq
      have hdgz : c.dg z y = x := by rw [← hzw]; exact hdd
      have hzwz : c.zw z (c.dg z0 y) y = z0 := by rw [← hzw]; exact hzz2
      have hdiv : (y * c.q + c.dg z0 y) / c.q = y := by
        rw [Nat.mul_comm, Nat.mul_add_div hq0, Nat.div_eq_of_lt hdq,
          Nat.add_zero]
      have hmod : (y * c.q + c.dg z0 y) % c.q = c.dg z0 y := by
        rw [Nat.mul_comm, Nat.mul_add_mod, Nat.mod_eq_of_lt hdq]
      have hlt' : c.dg z ((y * c.q + c.dg z0 y) / c.q) <
          (y * c.q + c.dg z0 y) % c.q := by
        rw [hdiv, hmod, hdgz]
        exact hlt
      have hsw' : (y * c.q + c.dg z0 y) / c.q * c.q +
          c.dg z ((y * c.q + c.dg z0 y) / c.q) ∈ E := by
        rw [hdiv, hdgz]
        exact hnE
      have hst := hestab2 (y * c.q + c.dg z0 y) hswE hlt' hsw'
      rw [hdiv, hmod, hdgz, hzwz] at hst
      exact hst
    · exact hpres _ _ (hS5 z0 hz0 ho0 hz0nS y hyt x hxq hlt hnE hswE hzwS')

/-- Pass two of a `decode_layered` round: after the coupled recovery over
all layers of score `o` the pass-two invariant holds at the full layer
set. -/
theorem pass2_P2Inv {V : Type} [Zero V] (c : Ctx V)
    (IsMds : (ℕ → V) → Prop) (Rel : (Fin 4 → V) → Prop)
    (hPft : c.PftOk Rel) (Co Uo : ℕ → ℕ → V) (hW : c.IsCw IsMds Rel Co Uo)
    (hq : 1 ≤ c.q) (E : Finset ℕ) (hE : ∀ i ∈ E, i < c.n) (o : ℕ) (s : St V)
    (h1 : c.COffE E Co s) (h2 : c.CRec E Co o s)
    (h3 : c.ULow E Uo (o + 1) s) :
    c.P2Inv E Co Uo o
      ((Finset.range c.alpha).filter (fun z => c.ordOf E z = o))
      ((c.layersOf E o).foldl
        (fun s z => (E.sort (· ≤ ·)).foldl (fun s i => c.recBody E z i s) s)
        s) := by
  refine foldl_sorted_inv _ _ (c.P2Inv E Co Uo o) ?_ (c.layersOf E o) ∅ s
    (layersOf_pairwise c E o) ?_ ?_ ?_ ?_ ?_
  · intro S s' z hzAll hzS hsm hInv
    rw [Finset.mem_filter, Finset.mem_range] at hzAll
    refine pass2_P2step c IsMds Rel hPft Co Uo hW hq E hE o S z hzAll.1
      hzAll.2 hzS ?_ s' hInv
    intro z' hz' ho' hltz
    exact hsm z' (Finset.mem_filter.mpr ⟨Finset.mem_range.mpr hz', ho'⟩) hltz
  · intro z hzl
    rw [layersOf_mem] at hzl
    exact Finset.mem_filter.mpr ⟨Finset.mem_range.mpr hzl.1, hzl.2⟩
  · intro z _
    exact Finset.not_mem_empty z
  · intro z' hz' _
    rw [Finset.mem_filter, Finset.mem_range] at hz'
    exact (layersOf_mem c E o z').mpr hz'
  · intro z hz
    exact absurd hz (Finset.not_mem_empty z)
  · exact ⟨h1, h2, h3,
      fun z hz => absurd hz (Finset.not_mem_empty z),
      fun z hza hzo hzs y hy x hx hxd hnE hswE hzw =>
        absurd hzw (Finset.not_mem_empty _)⟩

/-- One full round of `decode_layered` (both passes over the layers of one
score) advances the round invariant. -/
theorem roundStep_inv {V : Type} [Zero V] (c : Ctx V)
    (IsMds : (ℕ → V) → Prop) (Rel : (Fin 4 → V) → Prop)
    (hMds : c.MdsOk IsMds) (hPft : c.PftOk Rel)
    (Co Uo : ℕ → ℕ → V) (hW : c.IsCw IsMds Rel Co Uo) (hq : 1 ≤ c.q)
    (E : Finset ℕ) (hE : ∀ i ∈ E, i < c.n) (hcard : E.card ≤ c.m)
    (o : ℕ) (s : St V) (hR : c.RoundInv E Co Uo o s) :
    c.RoundInv E Co Uo (o + 1) (c.roundStep E o s) := by
  obtain ⟨h1Off, h1Rec, h1UL, h1S4, h1S5⟩ :=
    pass1_P1Inv c IsMds Rel hMds hPft Co Uo hW hq E hE hcard o s hR
  have h1UL' : c.ULow E Uo (o + 1)
      ((c.layersOf E o).foldl (fun s z => c.decodeErasures E z s) s) := by
    intro j hj z'' hz'' ho'
    rcases Nat.lt_or_ge (c.ordOf E z'') o with hlo | hge
    · exact h1UL j hj z'' hz'' hlo
    · have ho'' : c.ordOf E z'' = o := by omega
      exact h1S4 z''
        (Finset.mem_filter.mpr ⟨Finset.mem_range.mpr hz'', ho''⟩) j hj
  obtain ⟨h2Off, h2Rec, h2UL, h2S4, h2S5⟩ :=
    pass2_P2Inv c IsMds Rel hPft Co Uo hW hq E hE o _ h1Off h1Rec h1UL'
  refine ⟨h2Off, ?_, h2UL⟩
  intro j hj z'' hz'' ho'
  rcases Nat.lt_or_ge (c.ordOf E z'') o with hlo | hge
  · exact h2Rec j hj z'' hz'' hlo
  · have ho'' : c.ordOf E z'' = o := by omega
    exact h2S4 z''
      (Finset.mem_filter.mpr ⟨Finset.mem_range.mpr hz'', ho''⟩) j hj

/-- Iterating rounds from score `0` through `N - 1` yields the round
invariant at `N`. -/
theorem decodeLayeredRun_rounds {V : Type} [Zero V] (c : Ctx V)
    (IsMds : (ℕ → V) → Prop) (Rel : (Fin 4 → V) → Prop)
    (hMds : c.MdsOk IsMds) (hPft : c.PftOk Rel)
    (Co Uo : ℕ → ℕ → V) (hW : c.IsCw IsMds Rel Co Uo) (hq : 1 ≤ c.q)
    (E : Finset ℕ) (hE : ∀ i ∈ E, i < c.n) (hcard : E.card ≤ c.m) :
    ∀ (N : ℕ) (s : St V), c.RoundInv E Co Uo 0 s →
      c.RoundInv E Co Uo N
        ((List.range N).foldl (fun s o => c.roundStep E o s) s) := by
  intro N
  induction N with
  | zero => intro s h; exact h
  | succ N ih =>
    intro s h
    rw [List.range_succ, List.foldl_append, List.foldl_cons, List.foldl_nil]
    exact roundStep_inv c IsMds Rel hMds hPft Co Uo hW hq E hE hcard N _
      (ih s h)

/-- The `iscore` loop of `decode_layered` recovers every chunk of a
codeword from its surviving coupled entries: if the initial state agrees
with the codeword off the erased set, the final state agrees with it
everywhere. -/
theorem Ctx.decodeLayeredRun_recovers {V : Type} [Zero V] (c : Ctx V)
    (IsMds : (ℕ → V) → Prop) (Rel : (Fin 4 → V) → Prop)
    (hMds : c.MdsOk IsMds) (hPft : c.PftOk Rel)
    (Co Uo : ℕ → ℕ → V) (hW : c.IsCw IsMds Rel Co Uo) (hq : 1 ≤ c.q)
    (E : Finset ℕ) (hE : ∀ i ∈ E, i < c.n) (hcard : E.card ≤ c.m)
    (s : St V) (hOff : ∀ i < c.n, i ∉ E → ∀ z < c.alpha, s.Cs i z = Co i z) :
    ∀ i < c.n, ∀ z < c.alpha, (c.decodeLayeredRun E s).Cs i z = Co i z := by
  have h0 : c.RoundInv E Co Uo 0 s :=
    ⟨hOff, fun i hi z hz ho => absurd ho (Nat.not_lt_zero _),
      fun i hi z hz ho => absurd ho (Nat.not_lt_zero _)⟩
  have hfin := decodeLayeredRun_rounds c IsMds Rel hMds hPft Co Uo hW hq E hE
    hcard (c.maxIscore E + 1) s h0
  intro i hi z hz
  by_cases hiE : i ∈ E
  · refine hfin.2.1 i hiE z hz ?_
    have := ordOf_le_maxIscore c E z
    omega
  · exact hfin.1 i hi hiE z hz

theorem padErasures_mem_lt {V : Type} (c : Ctx V) (E : Finset ℕ)
    (hE : ∀ i ∈ E, i < c.n) : ∀ i ∈ c.padErasures E, i < c.n := by
  unfold Ctx.padErasures
  have key : ∀ (l : List ℕ) (S : Finset ℕ), (∀ i ∈ S, i < c.n) →
      (∀ j ∈ l, c.k + c.nu + j < c.n) →
      ∀ i ∈ l.foldl
        (fun S j => if S.card < c.m then insert (c.k + c.nu + j) S else S) S,
        i < c.n := by
    intro l
    induction l with
    | nil => intro S hS _ i hi; exact hS i hi
    | cons a l ih =>
      intro S hS hl i hi
      rw [List.foldl_cons] at hi
      refine ih _ ?_ (fun j hj => hl j (List.mem_cons_of_mem a hj)) i hi
      intro i' hi'
      by_cases hc : S.card < c.m
      · rw [if_pos hc] at hi'
        rcases Finset.mem_insert.mp hi' with h | h
        · rw [h]
          exact hl a (List.mem_cons_self a l)
        · exact hS i' h
      · rw [if_neg hc] at hi'
        exact hS i' hi'
  intro i hi
  refine key _ E hE (fun j hj => ?_) i hi
  rw [List.mem_range] at hj
  omega

/-- Claim C1: for every configuration with a systematic codeword extension
(the Clay encode/decode contract) and every erasure pattern of at most `m`
physical chunks, running encode and then decode on the surviving chunks
reproduces every chunk of the encoded stripe — in particular each erased
one — value for value. -/
theorem decode_recovers_encode {V : Type} [Zero V] (c : Ctx V)
    (IsMds : (ℕ → V) → Prop) (Rel : (Fin 4 → V) → Prop)
    (hMds : c.MdsOk IsMds) (hPft : c.PftOk Rel) (hSys : c.SysExt IsMds Rel)
    (hq : 1 ≤ c.q) (hm : 1 ≤ c.m) (hn : c.k + c.nu + c.m = c.n)
    (inp U0 U1 : ℕ → ℕ → V) (avail : Finset ℕ)
    (hmiss1 : 1 ≤ ((Finset.range (c.k + c.m)).filter
      (fun i => i ∉ avail)).card)
    (hmissm : ((Finset.range (c.k + c.m)).filter
      (fun i => i ∉ avail)).card ≤ c.m) :
    ∃ stE stD : St V,
      c.encodeChunks inp U0 = some stE ∧
      c.decodeChunksFn avail (fun j z => stE.Cs (c.logicalOf j) z) U1 =
        some stD ∧
      ∀ j < c.k + c.m, ∀ z < c.alpha,
        stD.Cs (c.logicalOf j) z = stE.Cs (c.logicalOf j) z := by
  obtain ⟨Cw, Uw, hW, hAgree⟩ := hSys (fun i z =>
    if i < c.k then inp i z else if i < c.k + c.nu then 0
    else inp (i - c.nu) z)
  have hparityCard := parityIds_card c
  have hparityLt : ∀ j ∈ c.parityIds, j < c.n := by
    intro j hj
    obtain ⟨j', hj', rfl⟩ := Finset.mem_image.mp hj
    rw [Finset.mem_range] at hj'
    omega
  have hpadP : c.padErasures c.parityIds = c.parityIds :=
    padErasures_of_card_ge c _ (by omega)
  obtain ⟨stE, hstE⟩ : ∃ s, c.decodeLayeredRun c.parityIds
      ⟨fun i z => if i < c.k then inp i z else if i < c.k + c.nu then 0
        else inp (i - c.nu) z, U0⟩ = s := ⟨_, rfl⟩
  have hencA := Ctx.decodeLayeredRun_recovers c IsMds Rel hMds hPft Cw Uw hW
    hq c.parityIds hparityLt (by omega)
    ⟨fun i z => if i < c.k then inp i z else if i < c.k + c.nu then 0
      else inp (i - c.nu) z, U0⟩
    (fun i hi hiP z hz => (hAgree i hi hiP z hz).symm)
  simp only [hstE] at hencA
  have hencEq : c.encodeChunks inp U0 = some stE := by
    rw [← hstE]
    unfold Ctx.encodeChunks Ctx.decodeLayered
    rw [if_neg (by omega), hpadP, if_pos hparityCard]
  have hinj : Set.InjOn c.logicalOf
      ((Finset.range (c.k + c.m)).filter (fun i => i ∉ avail)) := by
    intro a ha b hb hab
    simp only [Finset.coe_filter, Set.mem_setOf_eq, Finset.mem_range] at ha hb
    have hab' : (if a < c.k then a else a + c.nu) =
        (if b < c.k then b else b + c.nu) := hab
    split_ifs at hab' <;> omega
  have hEdec_card : (((Finset.range (c.k + c.m)).filter
      (fun i => i ∉ avail)).image c.logicalOf).card =
      ((Finset.range (c.k + c.m)).filter (fun i => i ∉ avail)).card :=
    Finset.card_image_of_injOn hinj
  have hEdec_lt : ∀ i ∈ ((Finset.range (c.k + c.m)).filter
      (fun i => i ∉ avail)).image c.logicalOf, i < c.n := by
    intro i hi
    obtain ⟨j, hj, rfl⟩ := Finset.mem_image.mp hi
    rw [Finset.mem_filter, Finset.mem_range] at hj
    show (if j < c.k then j else j + c.nu) < c.n
    split_ifs <;> omega
  have hpadD_card : (c.padErasures (((Finset.range (c.k + c.m)).filter
      (fun i => i ∉ avail)).image c.logicalOf)).card = c.m :=
    padErasures_card c _ hn (by omega)
  have hpadD_lt := padErasures_mem_lt c _ hEdec_lt
  obtain ⟨stD, hstD⟩ : ∃ s, c.decodeLayeredRun
      (c.padErasures (((Finset.range (c.k + c.m)).filter
        (fun i => i ∉ avail)).image c.logicalOf))
      ⟨fun j z => if j < c.k then
          (if j ∈ avail then stE.Cs (c.logicalOf j) z else 0)
        else if j < c.k + c.nu then 0
        else if j - c.nu ∈ avail then stE.Cs (c.logicalOf (j - c.nu)) z
        else 0, U1⟩ = s := ⟨_, rfl⟩
  have hdecEq : c.decodeChunksFn avail (fun j z => stE.Cs (c.logicalOf j) z)
      U1 = some stD := by
    rw [← hstD]
    unfold Ctx.decodeChunksFn Ctx.decodeLayered
    rw [if_neg (by omega), if_pos hpadD_card]
  have hOffD : ∀ i < c.n, i ∉ c.padErasures (((Finset.range (c.k + c.m)).filter
      (fun i => i ∉ avail)).image c.logicalOf) → ∀ z < c.alpha,
      (if i < c.k then (if i ∈ avail then stE.Cs (c.logicalOf i) z else 0)
        else if i < c.k + c.nu then 0
        else if i - c.nu ∈ avail then stE.Cs (c.logicalOf (i - c.nu)) z
        else 0) = Cw i z := by
    intro i hi hiE z hz
    have hiEd : i ∉ ((Finset.range (c.k + c.m)).filter
        (fun i => i ∉ avail)).image c.logicalOf :=
      fun h => hiE (padErasures_subset c _ h)
    by_cases h1 : i < c.k
    · have hli : c.logicalOf i = i := if_pos h1
      have hiav : i ∈ avail := by
        by_contra hna
        exact hiEd (hli ▸ Finset.mem_image_of_mem c.logicalOf
          (Finset.mem_filter.mpr ⟨Finset.mem_range.mpr (by omega), hna⟩))
      rw [if_pos h1, if_pos hiav, hli]
      exact hencA i hi z hz
    · by_cases h2 : i < c.k + c.nu
      · rw [if_neg h1, if_pos h2]
        have hiP : i ∉ c.parityIds := fun hmem => by
          have := parityIds_ge c i hmem
          omega
        rw [hAgree i hi hiP z hz, if_neg h1, if_pos h2]
      · have hli : c.logicalOf (i - c.nu) = i := by
          show (if i - c.nu < c.k then i - c.nu else i - c.nu + c.nu) = i
          rw [if_neg (by omega)]
          omega
        have hjav : i - c.nu ∈ avail := by
          by_contra hna
          exact hiEd (hli ▸ Finset.mem_image_of_mem c.logicalOf
            (Finset.mem_filter.mpr
              ⟨Finset.mem_range.mpr (by omega), hna⟩))
        rw [if_neg h1, if_neg h2, if_pos hjav, hli]
        exact hencA i hi z hz
  have hdecA := Ctx.decodeLayeredRun_recovers c IsMds Rel hMds hPft Cw Uw hW
    hq (c.padErasures (((Finset.range (c.k + c.m)).filter
      (fun i => i ∉ avail)).image c.logicalOf)) hpadD_lt (by omega)
    ⟨fun j z => if j < c.k then
        (if j ∈ avail then stE.Cs (c.logicalOf j) z else 0)
      else if j < c.k + c.nu then 0
      else if j - c.nu ∈ avail then stE.Cs (c.logicalOf (j - c.nu)) z
      else 0, U1⟩ hOffD
  simp only [hstD] at hdecA
  refine ⟨stE, stD, hencEq, hdecEq, ?_⟩
  intro j hj z hz
  have hlj : c.logicalOf j < c.n := by
    show (if j < c.k then j else j + c.nu) < c.n
    split_ifs <;> omega
  rw [hdecA (c.logicalOf j) hlj z hz, hencA (c.logicalOf j) hlj z hz]

/-- The scalar parity decoder recovers any single erasure of the `(3, 2)`
parity code. -/
theorem mdsW_ok : Ctx.cW.MdsOk Ctx.IsMdsW := by
  intro E f w hcard hw hag i hiE hin
  have hcard' : E.card ≤ 1 := hcard
  have hin' : i < 3 := hin
  have huniq : ∀ a ∈ E, ∀ b ∈ E, a = b := Finset.card_le_one.mp hcard'
  have hnm : ∀ j < 3, j ≠ i → f j = w j := by
    intro j hj hne
    exact hag j hj (fun hjE => hne (huniq j hjE i hiE))
  interval_cases i
  · show f 2 - f 1 = w 0
    rw [hnm 2 (by omega) (by omega), hnm 1 (by omega) (by omega), hw]
    ring
  · show f 2 - f 0 = w 1
    rw [hnm 2 (by omega) (by omega), hnm 0 (by omega) (by omega), hw]
    ring
  · show f 0 + f 1 = w 2
    rw [hnm 0 (by omega) (by omega), hnm 1 (by omega) (by omega), hw]

/-- The pair decoder recovers the full `[4, 2]` Reed-Solomon word from any
two known slots. -/
theorem pftW_ok : Ctx.cW.PftOk Ctx.RelW := by
  intro K vals w hK hRel hag j hjK
  obtain ⟨h1, h2⟩ := hRel
  have hval : ∀ x : Fin 4, x = 0 ∨ x = 1 ∨ x = 2 ∨ x = 3 := by decide
  have h30 : (3 : ZMod 3) = 0 := by decide
  obtain ⟨a, b, hab, rfl⟩ := Finset.card_eq_two.mp hK
  have hga := hag a (Finset.mem_insert_self a {b})
  have hgb := hag b (Finset.mem_insert_of_mem (Finset.mem_singleton_self b))
  show Ctx.pftW {a, b} vals j = w j
  rcases hval a with rfl | rfl | rfl | rfl <;>
    rcases hval b with rfl | rfl | rfl | rfl <;>
    first
      | exact absurd rfl hab
      | (rcases hval j with rfl | rfl | rfl | rfl <;>
          simp [Ctx.pftW, Finset.mem_insert, Finset.mem_singleton,
            hga, hgb, h1, h2] <;>
          first
            | ring1
            | linear_combination w 3 * h30
            | linear_combination (w 3 + w 3) * h30)

/-- Systematic extension for the witness context: the parity completion of
any data assignment, with `U = C` (all vertices are red at `q = 1`). -/
theorem sysW_ok : Ctx.cW.SysExt Ctx.IsMdsW Ctx.RelW := by
  intro f
  refine ⟨fun i z => if i = 2 then f 0 z + f 1 z else f i z,
    fun i z => if i = 2 then f 0 z + f 1 z else f i z, ⟨?_, ?_, ?_⟩, ?_⟩
  · intro z hz
    show (if (2 : ℕ) = 2 then f 0 z + f 1 z else f 2 z) =
      (if (0 : ℕ) = 2 then f 0 z + f 1 z else f 0 z) +
      (if (1 : ℕ) = 2 then f 0 z + f 1 z else f 1 z)
    rw [if_pos rfl, if_neg (by omega), if_neg (by omega)]
  · intro y hy x hx z hz hlt
    have hq1 : Ctx.cW.q = 1 := rfl
    rw [hq1] at hx
    omega
  · intro y hy x hx z hz hdg
    rfl
  · intro i hi hiP z hz
    have hi2 : i ≠ 2 := fun h => hiP (by rw [h]; decide)
    show (if i = 2 then f 0 z + f 1 z else f i z) = f i z
    rw [if_neg hi2]

/-- Witness for `decode_recovers_encode`: the `(k, m, d) = (2, 1, 2)`
context over `GF(3)` (`q = 1`, `t = 3`) with physical chunk 2 erased. -/
theorem decode_recovers_encode_witness :
    Ctx.cW.MdsOk Ctx.IsMdsW ∧ Ctx.cW.PftOk Ctx.RelW ∧ Ctx.cW.SysExt Ctx.IsMdsW Ctx.RelW ∧
    (1 ≤ Ctx.cW.q ∧ 1 ≤ Ctx.cW.m ∧ Ctx.cW.k + Ctx.cW.nu + Ctx.cW.m = Ctx.cW.n) ∧
    ∃ stE stD : St (ZMod 3),
      Ctx.cW.encodeChunks (fun i z => (i : ZMod 3)) (fun _ _ => 0) = some stE ∧
      Ctx.cW.decodeChunksFn {0, 1} (fun j z => stE.Cs (Ctx.cW.logicalOf j) z)
        (fun _ _ => 0) = some stD ∧
      ∀ j < Ctx.cW.k + Ctx.cW.m, ∀ z < Ctx.cW.alpha,
        stD.Cs (Ctx.cW.logicalOf j) z = stE.Cs (Ctx.cW.logicalOf j) z :=
  ⟨mdsW_ok, pftW_ok, sysW_ok, ⟨by decide, by decide, by decide⟩,
    decode_recovers_encode Ctx.cW Ctx.IsMdsW Ctx.RelW mdsW_ok pftW_ok sysW_ok
      (by decide) (by decide) (by decide)
      (fun i z => (i : ZMod 3)) (fun _ _ => 0) (fun _ _ => 0) {0, 1}
      (by decide) (by decide)⟩

/-- Witness for `minimum_to_repair_properties` at `(k, m, d) = (4, 2, 5)`
(`q = 2`, `t = 3`, `ν = 0`), lost node 0, available `{1, 2, 3, 4, 5}`. -/
theorem minimum_to_repair_properties_witness :
    Cfg.Valid ⟨4, 2, 5, 2, 3, 0⟩ ∧
    (∃ H : Finset Int,
      Cfg.minimumToRepair ⟨4, 2, 5, 2, 3, 0⟩ {((0 : ℕ) : Int)}
        {1, 2, 3, 4, 5} =
        some (H, (List.range (2 ^ 0)).map (fun (i : ℕ) =>
          (((0 * 4 + i * (2 * 4) : ℕ) : Int), (((4 : ℕ)) : Int)))) ∧
      H.card = 5 ∧
      (∀ j : ℕ, j < 2 → j ≠ 0 →
        (0 * 2 + j < 4 → ((0 * 2 + j : ℕ) : Int) ∈ H) ∧
        (4 + 0 ≤ 0 * 2 + j → ((0 * 2 + j - 0 : ℕ) : Int) ∈ H)) ∧
      List.Pairwise (fun p r : Int × Int => p.1 < r.1)
        ((List.range (2 ^ 0)).map (fun (i : ℕ) =>
          (((0 * 4 + i * (2 * 4) : ℕ) : Int), (((4 : ℕ)) : Int)))) ∧
      (∀ z : ℕ, z < 2 ^ 3 →
        ((∃ p ∈ (List.range (2 ^ 0)).map (fun (i : ℕ) =>
            (((0 * 4 + i * (2 * 4) : ℕ) : Int), (((4 : ℕ)) : Int))),
          p.1 ≤ (z : Int) ∧ (z : Int) < p.1 + p.2) ↔ dig 2 3 z 0 = 0)) ∧
      ((Finset.range (2 ^ 3)).filter (fun z => dig 2 3 z 0 = 0)).card =
        2 ^ (3 - 1)) :=
  ⟨by decide, minimum_to_repair_properties ⟨4, 2, 5, 2, 3, 0⟩ 4 2 5 2 3 0 0 0 0
    0 4 {1, 2, 3, 4, 5} (by decide) (by decide) (by decide) (by decide)
    (by decide) (by decide) (by decide) (by decide) (by decide) (by decide)
    (by decide) (by decide) (by decide) (by decide)⟩

end Clay
